import Mathlib

/-!
# llvm-dwarfvtable

A shallow embedding of `src/llvm-dwarfvtable.cpp`: the walk over the debug-info
entry tree that fills the three global accumulators, and the reconciliation pass
of `main` that prints the per-class vtable sections.

Conventions of the embedding.

* A `std::map` is an association list kept in ascending key order; iteration is
  list order, `m[k] = v` is `mapInsert`, `m.count(k)` is `mapFind` being `some`.
* The debug-info backend (LLVM) is external. An entry is a `DieNode`; a valid
  `llvm::DWARFDie` handle is a node together with its chain of ancestors, an
  invalid handle is `none`. Cross references are resolved by a function
  `resolve` from entry offsets to handles, a parameter of the walk.
* `std::cout` is a list of lines (one per `std::endl`) together with the sticky
  `std::hex` flag of the stream.
* The recursion of `CheckParentHasFunction` is bounded by an explicit fuel;
  `none` means the fuel ran out.
-/

namespace DwarfVtable

/-! ## Ordered maps -/

/-- Comparison of `std::string` keys: lexicographic on the characters. This is the
order of `String`, with a decision procedure that evaluates on literals. -/
instance (priority := 2000) stringDecidableLT : @DecidableRel String (· < ·) :=
  fun a b => decidable_of_iff (a.toList < b.toList) String.lt_iff_toList_lt.symm

/-- Lookup in a `std::map`: `m.count(k) > 0` is `(mapFind k m).isSome`, and `m[k]`
on a present key is the value found. -/
def mapFind {K V : Type} [DecidableEq K] (k : K) : List (K × V) → Option V
  | [] => none
  | (k1, v1) :: rest => if k = k1 then some v1 else mapFind k rest

/-- Assignment `m[k] = v` on a `std::map`: overwrite the value at an existing key,
otherwise insert the pair at its place in ascending key order. -/
def mapInsert {K V : Type} [LT K] [@DecidableRel K (· < ·)] (k : K) (v : V) :
    List (K × V) → List (K × V)
  | [] => [(k, v)]
  | (k1, v1) :: rest =>
    if k < k1 then (k, v) :: (k1, v1) :: rest
    else if k1 < k then (k1, v1) :: mapInsert k v rest
    else (k, v) :: rest

/-- Keys of a map in strictly ascending order (the `std::map` representation
invariant). -/
def SortedKeys {K V : Type} [LT K] (m : List (K × V)) : Prop :=
  (m.map Prod.fst).Pairwise (· < ·)

instance {K V : Type} [LT K] [@DecidableRel K (· < ·)] (m : List (K × V)) :
    Decidable (SortedKeys m) := by
  unfold SortedKeys
  infer_instance

/-! ## Global tables (lines 10-76) -/

/-- Allow-list of member mode (lines 10-45). -/
def VariableClassNames : List String :=
  ["UObjectBase", "UScriptStruct::ICppStructOps", "FSoftClassProperty", "AGameModeBase",
   "FOutputDevice", "FEnumProperty", "UStruct", "FDelegateProperty", "UGameViewportClient",
   "FArchiveState", "AGameMode", "AActor", "AHUD", "UPlayer", "ULocalPlayer", "FByteProperty",
   "FField", "UField", "UFunction", "FProperty", "FMulticastDelegateProperty",
   "FObjectPropertyBase", "UScriptStruct", "UWorld", "UClass", "FSetProperty", "UEnum",
   "FStructProperty", "FArrayProperty", "FMapProperty", "FBoolProperty", "FClassProperty",
   "FInterfaceProperty", "FFieldPathProperty"]

/-- Allow-list of vtable mode (lines 47-71). -/
def VtableClassNames : List String :=
  ["FExec", "UObjectBase", "UObjectBaseUtility", "UObject", "UScriptStruct::ICppStructOps",
   "AGameModeBase", "FOutputDevice", "UStruct", "UField", "FMalloc", "UGameViewportClient",
   "FArchive", "FArchiveState", "AGameMode", "AActor", "AHUD", "UPlayer", "ULocalPlayer",
   "FField", "FProperty", "FNumericProperty", "FMulticastDelegateProperty",
   "FObjectPropertyBase"]

/-- A vtable slot map `std::map<uint16_t, std::string>`. -/
abbrev SlotMap := List (Nat × String)

/-- The three global accumulators (lines 73-76). -/
structure State where
  allTargetVariables : List (String × List (Nat × String))
  allTargetVtables : List (String × SlotMap)
  allTargetParents : List (String × String)
deriving DecidableEq, Repr

/-- The accumulators at program start: three empty maps. -/
def State.empty : State := ⟨[], [], []⟩

/-- Membership test of lines 78-82 (`std::find`). -/
def ClassNameExists (name : String) (classNames : List String) : Bool :=
  classNames.contains name

/-! ## The entry tree of the debug-info backend -/

def DW_TAG_class_type : Nat := 0x02
def DW_TAG_member : Nat := 0x0d
def DW_TAG_compile_unit : Nat := 0x11
def DW_TAG_structure_type : Nat := 0x13
def DW_TAG_inheritance : Nat := 0x1c
def DW_TAG_subprogram : Nat := 0x2e
def DW_TAG_namespace : Nat := 0x39
def DW_AT_containing_type : Nat := 0x1d
def DW_AT_data_member_location : Nat := 0x38
def DW_AT_type : Nat := 0x49
def DW_AT_virtuality : Nat := 0x4c
def DW_AT_vtable_elem_location : Nat := 0x4d
def DW_OP_constu : Nat := 0x10

/-- The value of an attribute, as far as the typed accessors used by the program
see it: `getAsBlock` succeeds on `block`, `getAsUnsignedConstant` on `constant`,
reference resolution on `reference`. Block bytes are numbers below 256. -/
inductive FormValue where
  | block (data : List Nat)
  | constant (value : Nat)
  | reference (offset : Nat)
  | other
deriving DecidableEq, Repr

/-- One attribute of an entry: its code and its value. -/
structure Attribute where
  Attr : Nat
  Value : FormValue
deriving DecidableEq, Repr

/-- A debug-info entry: tag, short name as the backend resolves it (`none` for a
null `getShortName`), attributes in order, children in order. -/
inductive DieNode where
  | mk (tag : Nat) (shortName : Option String) (attributes : List Attribute)
      (children : List DieNode)

/-- Tag of a node. -/
def DieNode.tag : DieNode → Nat
  | .mk t _ _ _ => t

/-- Short name of a node. -/
def DieNode.shortName : DieNode → Option String
  | .mk _ n _ _ => n

/-- Attributes of a node. -/
def DieNode.attributes : DieNode → List Attribute
  | .mk _ _ a _ => a

/-- Children of a node. -/
def DieNode.children : DieNode → List DieNode
  | .mk _ _ _ c => c

/-- A valid `llvm::DWARFDie`: a node and its ancestors, innermost first. -/
structure DWARFDie where
  node : DieNode
  ancestors : List DieNode

/-- Accessor `D.getTag()`. -/
def DWARFDie.getTag (D : DWARFDie) : Nat := D.node.tag

/-- Accessor `D.getShortName()` on a valid handle. -/
def DWARFDie.getShortName (D : DWARFDie) : Option String := D.node.shortName

/-- Accessor `getShortName()` on a possibly invalid handle: null when invalid. -/
def getShortNameOpt : Option DWARFDie → Option String
  | none => none
  | some D => D.getShortName

/-- Accessor `D.getParent()`: invalid on the unit entry. -/
def DWARFDie.getParent (D : DWARFDie) : Option DWARFDie :=
  match D.ancestors with
  | [] => none
  | p :: rest => some ⟨p, rest⟩

/-- Accessor `D.children()`. -/
def DWARFDie.children (D : DWARFDie) : List DWARFDie :=
  D.node.children.map (fun c => ⟨c, D.node :: D.ancestors⟩)

/-- Accessor `D.find(attr)`: the value of the first attribute with that code. -/
def findAttr (attr : Nat) : List Attribute → Option FormValue
  | [] => none
  | a :: rest => if a.Attr = attr then some a.Value else findAttr attr rest

/-- Accessor `D.getAttributeValueAsReferencedDie(attr)`: the entry the attribute
refers to, invalid when the attribute is absent, is no reference, or does not
resolve. -/
def DWARFDie.getAttributeValueAsReferencedDie (resolve : Nat → Option DWARFDie)
    (D : DWARFDie) (attr : Nat) : Option DWARFDie :=
  match findAttr attr D.node.attributes with
  | some (.reference off) => resolve off
  | _ => none

/-! ## Slot decoding (lines 94-114) -/

/-- Number of bytes `llvm::decodeULEB128` consumes from the bytes that follow the
opcode: up to and including the first byte below 128. `none` when the block ends
before such a byte, where the program reads outside the block. -/
def decodeULEB128Size : List Nat → Option Nat
  | [] => none
  | b :: rest => if b < 128 then some 1 else (decodeULEB128Size rest).map (· + 1)

/-- The `memcpy` of line 105 into a zeroed `uint16_t` on a little-endian host:
defined for at most two bytes, `none` (a write past the variable) beyond. -/
def memcpyUInt16 (data : List Nat) (size : Nat) : Option Nat :=
  match size, data with
  | 0, _ => some 0
  | 1, b0 :: _ => some (b0 % 256)
  | 2, b0 :: b1 :: _ => some ((b0 % 256 + 256 * (b1 % 256)) % 65536)
  | _, _ => none

/-- The attribute loop of `getVirtualFunctionOffset`. -/
def getVirtualFunctionOffsetLoop : List Attribute → Option Nat
  | [] => some 0
  | a :: rest =>
    if a.Attr = DW_AT_vtable_elem_location then
      match a.Value with
      | .block (b0 :: operand) =>
        if b0 = DW_OP_constu then
          match decodeULEB128Size operand with
          | none => none
          | some offset_size => memcpyUInt16 operand offset_size
        else getVirtualFunctionOffsetLoop rest
      | _ => getVirtualFunctionOffsetLoop rest
    else getVirtualFunctionOffsetLoop rest

/-- Slot decoding, lines 94-114. `none` is undefined behaviour of the source. -/
def getVirtualFunctionOffset (D : DWARFDie) : Option Nat :=
  getVirtualFunctionOffsetLoop D.node.attributes

/-! ## Classification and names (lines 125-165) -/

/-- Lines 125-137: a subprogram that carries a virtuality attribute. -/
def isVirtualFunction (D : DWARFDie) : Bool :=
  if D.getTag ≠ DW_TAG_subprogram then false
  else D.node.attributes.any (fun a => a.Attr = DW_AT_virtuality)

/-- One round of the loop of `GetQualifiedName` (lines 144-152) on the entry
`n`, with `qualifiedName` the name assembled so far. -/
def qualifiedNameStep (n : DieNode) (qualifiedName : String) : String :=
  if n.tag ≠ DW_TAG_compile_unit then
    match n.shortName with
    | some DName =>
      DName ++ (if qualifiedName ≠ "" then "::" ++ qualifiedName else qualifiedName)
    | none => qualifiedName
  else qualifiedName

/-- The loop of `GetQualifiedName` over the entry and its ancestors. -/
def qualifiedNameLoop : List DieNode → String → String
  | [], qualifiedName => qualifiedName
  | n :: rest, qualifiedName => qualifiedNameLoop rest (qualifiedNameStep n qualifiedName)

/-- Lines 139-156. An invalid handle yields the empty name. -/
def GetQualifiedName : Option DWARFDie → String
  | none => ""
  | some D => qualifiedNameLoop (D.node :: D.ancestors) ""

/-- The child loop of `getParentClass`. -/
def getParentClassLoop (resolve : Nat → Option DWARFDie) : List DWARFDie → Option DWARFDie
  | [] => none
  | child :: rest =>
    if child.getTag = DW_TAG_inheritance then
      child.getAttributeValueAsReferencedDie resolve DW_AT_type
    else getParentClassLoop resolve rest

/-- Lines 158-165: the type referenced by the first inheritance-tagged child. -/
def getParentClass (resolve : Nat → Option DWARFDie) : Option DWARFDie → Option DWARFDie
  | none => none
  | some D => getParentClassLoop resolve D.children

/-! ## Vtable walk (lines 167-202) -/

/-- Assignment `allTargetVtables[className][offset] = fName`. -/
def setVtableSlot (className : String) (offset : Nat) (fName : String)
    (vtables : List (String × SlotMap)) : List (String × SlotMap) :=
  mapInsert className (mapInsert offset fName ((mapFind className vtables).getD [])) vtables

/-- Lines 167-186. `none` only when slot decoding is undefined. -/
def SearchVirtualFunction (resolve : Nat → Option DWARFDie) (D : DWARFDie) (st : State) :
    Option State :=
  match D.getShortName with
  | none => some st
  | some fName =>
    if isVirtualFunction D then
      let className := GetQualifiedName D.getParent
      if ClassNameExists className VtableClassNames then
        let parentName := getShortNameOpt (getParentClass resolve D.getParent)
        match getVirtualFunctionOffset D with
        | none => none
        | some offset =>
          let parents :=
            match parentName with
            | some p => mapInsert className p st.allTargetParents
            | none => st.allTargetParents
          some { st with
            allTargetParents := parents
            allTargetVtables := setVtableSlot className offset fName st.allTargetVtables }
      else some st
    else some st

/-- The part of `SearcheFunction` before the recursion (lines 189-198). -/
def searchFunctionHere (resolve : Nat → Option DWARFDie) (D : DWARFDie) (st : State) :
    Option State :=
  let st1 :=
    if D.getTag = DW_TAG_class_type ∨ D.getTag = DW_TAG_structure_type then
      SearchVirtualFunction resolve D st
    else some st
  match st1 with
  | none => none
  | some st2 =>
    match D.getAttributeValueAsReferencedDie resolve DW_AT_containing_type with
    | some _ => SearchVirtualFunction resolve D st2
    | none => some st2

mutual
/-- Lines 188-202, on the entry `n` whose ancestors are `anc`. -/
def SearcheFunction (resolve : Nat → Option DWARFDie) :
    DieNode → List DieNode → State → Option State
  | .mk tag name attrs cs, anc, st =>
    match searchFunctionHere resolve ⟨.mk tag name attrs cs, anc⟩ st with
    | none => none
    | some st1 => SearcheFunctionChildren resolve cs (.mk tag name attrs cs :: anc) st1
/-- The child loop of `SearcheFunction` (lines 199-201). -/
def SearcheFunctionChildren (resolve : Nat → Option DWARFDie) :
    List DieNode → List DieNode → State → Option State
  | [], _, st => some st
  | c :: cs, anc, st =>
    match SearcheFunction resolve c anc st with
    | none => none
    | some st1 => SearcheFunctionChildren resolve cs anc st1
end

/-! ## Member walk (lines 204-314) -/

/-- Lines 204-213. -/
def getVariableOffset (die : DWARFDie) : Nat :=
  match findAttr DW_AT_data_member_location die.node.attributes with
  | some (.constant v) => v % 65536
  | _ => 0

/-- Assignment `allTargetVariables[className][offset] = mName`. -/
def setMember (className : String) (offset : Nat) (mName : String)
    (vars : List (String × List (Nat × String))) : List (String × List (Nat × String)) :=
  mapInsert className (mapInsert offset mName ((mapFind className vars).getD [])) vars

/-- Body of the child loop of `DecodeClass` (lines 271-290). -/
def decodeChild (D : DWARFDie) (st : State) (Child : DWARFDie) : State :=
  if Child.getTag = DW_TAG_member then
    let offset := getVariableOffset Child
    let className := GetQualifiedName (some D)
    match Child.getShortName with
    | some mName =>
      if ClassNameExists className VariableClassNames ∧ offset > 0 then
        { st with allTargetVariables := setMember className offset mName st.allTargetVariables }
      else st
    | none => st
  else st

/-- Lines 266-293. -/
def DecodeClass (D : DWARFDie) (st : State) : State :=
  match D.getShortName with
  | none => st
  | some _ => D.children.foldl (decodeChild D) st

/-- The part of `SearchClass` before the recursion (lines 296-305). -/
def searchClassHere (resolve : Nat → Option DWARFDie) (D : DWARFDie) (st : State) : State :=
  let st1 :=
    if D.getTag = DW_TAG_class_type ∨ D.getTag = DW_TAG_structure_type then DecodeClass D st
    else st
  match D.getAttributeValueAsReferencedDie resolve DW_AT_containing_type with
  | some _ => DecodeClass D st1
  | none => st1

mutual
/-- Lines 295-314, on the entry `n` whose ancestors are `anc`. -/
def SearchClass (resolve : Nat → Option DWARFDie) : DieNode → List DieNode → State → State
  | .mk tag name attrs cs, anc, st =>
    SearchClassChildren resolve cs (.mk tag name attrs cs :: anc)
      (searchClassHere resolve ⟨.mk tag name attrs cs, anc⟩ st)
/-- The child loop of `SearchClass` (lines 306-313). -/
def SearchClassChildren (resolve : Nat → Option DWARFDie) :
    List DieNode → List DieNode → State → State
  | [], _, st => st
  | c :: cs, anc, st => SearchClassChildren resolve cs anc (SearchClass resolve c anc st)
end

/-- The loop of `LoadDwarfFile` over the unit entries (lines 332-340). A
`code_type` other than 0 and 1 walks nothing. -/
def LoadDwarfFile (resolve : Nat → Option DWARFDie) (code_type : Int) :
    List DieNode → State → Option State
  | [], st => some st
  | cu :: rest, st =>
    if code_type = 0 then
      match SearcheFunction resolve cu [] st with
      | none => none
      | some st1 => LoadDwarfFile resolve code_type rest st1
    else if code_type = 1 then
      LoadDwarfFile resolve code_type rest (SearchClass resolve cu [] st)
    else LoadDwarfFile resolve code_type rest st

/-! ## Text output -/

/-- An unsigned number as `std::ostream` prints it under `std::hex`: lower-case
hexadecimal digits, no padding. -/
def hexString (n : Nat) : String := String.mk (Nat.toDigits 16 n)

/-- An unsigned number as `std::ostream` prints it in its initial decimal mode. -/
def decString (n : Nat) : String := String.mk (Nat.toDigits 10 n)

/-- An unsigned number as the stream prints it, given whether `std::hex` has been
applied to the stream before. -/
def showUnsigned (hex : Bool) (n : Nat) : String :=
  if hex then hexString n else decString n

/-- A line of a class section of the vtable output, by the statement that
prints it: the two literal lines 421 and 422, or the line of a slot-map entry
(lines 427-433) with the name as printed (suffix included) and the slot. -/
inductive Line where
  | vecDelDtor0
  | vecDelDtor1
  | func (name : String) (slot : Nat)
deriving DecidableEq, Repr

/-- The name a line reports: the text before ` ####offset#### `. -/
def Line.name : Line → String
  | .vecDelDtor0 => "__vecDelDtor"
  | .vecDelDtor1 => "__vecDelDtor"
  | .func n _ => n

/-- The offset a line reports: the number printed after `0x`. -/
def Line.offset : Line → Nat
  | .vecDelDtor0 => 0
  | .vecDelDtor1 => 1
  | .func _ s => s

/-- The text of a line. -/
def Line.render : Line → String
  | .vecDelDtor0 => "__vecDelDtor ####offset#### 0x0"
  | .vecDelDtor1 => "__vecDelDtor ####offset#### 0x1"
  | .func n s => n ++ " ####offset#### 0x" ++ hexString s

/-! ## Reconciliation (lines 343-439) -/

/-- Lines 343-351. -/
def valueExists : SlotMap → String → Bool
  | [], _ => false
  | pair :: rest, value => if pair.2 = value then true else valueExists rest value

/-- Lines 353-368, with the recursion depth bounded by a fuel: `none` when the
fuel is used up. -/
def CheckParentHasFunction : Nat → State → String → String → Option Bool
  | 0, _, _, _ => none
  | fuel + 1, st, className, functionName =>
    match mapFind className st.allTargetParents with
    | none => some false
    | some parent =>
      match mapFind parent st.allTargetVtables with
      | none => some false
      | some m =>
        if valueExists m functionName then some true
        else CheckParentHasFunction fuel st parent functionName

/-- Lines 411-415 on the characters of the name: the first occurrence of `<<` is
removed (`find` followed by `replace` with the empty string). -/
def eraseShiftChars : List Char → List Char
  | [] => []
  | [c] => [c]
  | c :: d :: rest => if c = '<' ∧ d = '<' then rest else c :: eraseShiftChars (d :: rest)

/-- Lines 410-415: the function name with the first `<<` removed. -/
def eraseShift (functionName : String) : String := String.mk (eraseShiftChars functionName.data)

/-- The inner loop of lines 409-435 over the entries of one slot map, in
ascending slot order. `cacheMap` is the map of line 408 and `hex` the state of the
stream flag on entry; the result is the lines printed and the flag afterwards. -/
def reconcileLoop (fuel : Nat) (st : State) (className : String) :
    SlotMap → List (String × Nat) → Bool → Option (List Line × Bool)
  | [], _, hex => some ([], hex)
  | inner_pair :: rest, cacheMap, hex =>
    let functionName := eraseShift inner_pair.2
    match CheckParentHasFunction fuel st className functionName with
    | none => none
    | some inherited =>
      if inherited || inner_pair.1 == 0 then
        reconcileLoop fuel st className rest cacheMap hex
      else
        let dtor := if inner_pair.1 = 2 then [Line.vecDelDtor0, Line.vecDelDtor1] else []
        match mapFind functionName cacheMap with
        | some count =>
          let count1 := (count + 1) % 4294967296
          match reconcileLoop fuel st className rest (mapInsert functionName count1 cacheMap)
              true with
          | none => none
          | some (lines, hex1) =>
            some (dtor ++
              Line.func (functionName ++ "_" ++ showUnsigned hex count1) inner_pair.1 :: lines,
              hex1)
        | none =>
          match reconcileLoop fuel st className rest (mapInsert functionName 0 cacheMap)
              true with
          | none => none
          | some (lines, hex1) => some (dtor ++ Line.func functionName inner_pair.1 :: lines, hex1)

/-- The outer loop of lines 406-438: for every class of the slot table, in key
order, the class name of the header line and the lines of its section. -/
def reconcileClasses (fuel : Nat) (st : State) :
    List (String × SlotMap) → Bool → Option (List (String × List Line))
  | [], _ => some []
  | outer_pair :: rest, hex =>
    match reconcileLoop fuel st outer_pair.1 outer_pair.2 [] hex with
    | none => none
    | some (lines, hex1) =>
      match reconcileClasses fuel st rest hex1 with
      | none => none
      | some sections => some ((outer_pair.1, lines) :: sections)

/-- Lines 403-404: the two fixed parent assignments. -/
def applyParentOverrides (st : State) : State :=
  { st with
    allTargetParents :=
      mapInsert "AGameModeBase" "AActor"
        (mapInsert "UGameViewportClient" "UObject" st.allTargetParents) }

/-- The class sections reconciliation prints for the accumulators `st` as they are
at line 406, on a fresh stream. -/
def reconcile (fuel : Nat) (st : State) : Option (List (String × List Line)) :=
  reconcileClasses fuel st st.allTargetVtables false

/-- The text of one class section: header line, lines, empty line (lines 407-437). -/
def renderSection (sec : String × List Line) : List String :=
  ("[" ++ sec.1 ++ "]") :: (sec.2.map Line.render ++ [""])

/-- The diagnostic lines of lines 398-401. -/
def parentDiagnostics (st : State) : List String :=
  st.allTargetParents.map (fun pair => "Key: " ++ pair.1 ++ ", Value: " ++ pair.2)

/-- Vtable mode of `main` after the walk (lines 397-439): the lines written to
standard output for the accumulators `st` the walk left. -/
def mainVtable (fuel : Nat) (st : State) : Option (List String) :=
  match reconcile fuel (applyParentOverrides st) with
  | none => none
  | some sections => some (parentDiagnostics st ++ (sections.map renderSection).flatten)

/-- The class sections of member mode (lines 385-394): for every class of the
member table, in key order, the class name of the header line and the member
lines. -/
def memberSections (st : State) : List (String × List String) :=
  st.allTargetVariables.map (fun outer_pair =>
    (outer_pair.1,
      outer_pair.2.map (fun inner_pair => inner_pair.2 ++ " = 0x" ++ hexString inner_pair.1)))

/-- The text of one member section: header line, member lines, empty line. -/
def renderMemberSection (sec : String × List String) : List String :=
  ("[" ++ sec.1 ++ "]") :: (sec.2 ++ [""])

/-- Member mode of `main` after the walk (lines 384-395). -/
def mainMember (st : State) : List String :=
  ((memberSections st).map renderMemberSection).flatten

/-- The program (lines 370-441) on the unit entries of the loaded file, for a
numeric mode argument: the lines written to standard output. -/
def main (fuel : Nat) (resolve : Nat → Option DWARFDie) (units : List DieNode)
    (codeType : Int) : Option (List String) :=
  match LoadDwarfFile resolve codeType units State.empty with
  | none => none
  | some st =>
    let out1 := if codeType = 1 then mainMember st else []
    if codeType = 0 then
      match mainVtable fuel st with
      | none => none
      | some out0 => some (out1 ++ out0)
    else some out1

/-- The representation invariant of the accumulators: every map has its keys in
strictly ascending order and vtable slots are 16-bit numbers. -/
structure State.WF (st : State) : Prop where
  vtables_sorted : SortedKeys st.allTargetVtables
  slots_sorted : ∀ p ∈ st.allTargetVtables, SortedKeys p.2
  slots_lt : ∀ p ∈ st.allTargetVtables, ∀ e ∈ p.2, e.1 < 65536
  parents_sorted : SortedKeys st.allTargetParents
  variables_sorted : SortedKeys st.allTargetVariables
  members_sorted : ∀ p ∈ st.allTargetVariables, SortedKeys p.2

/-- One step of the parent map: `b` is the recorded parent of `a`. -/
def ParentStep (st : State) (a b : String) : Prop :=
  mapFind a st.allTargetParents = some b

/-- The parent map has no cycle: no class reaches itself by one or more steps. -/
def Acyclic (st : State) : Prop :=
  ∀ c, ¬ Relation.TransGen (ParentStep st) c c

/-- The entries of the slot map `m` of class `className` that the loop prints a
line for: those the test of lines 416-419 does not skip. -/
def emittedEntries (fuel : Nat) (st : State) (className : String) (m : SlotMap) : SlotMap :=
  m.filter (fun e =>
    !(CheckParentHasFunction fuel st className (eraseShift e.2) == some true || e.1 == 0))

/-- The lines of a section that come from slot-map entries, as pairs of printed
name and slot. -/
def funcLines : List Line → List (String × Nat)
  | [] => []
  | .func n s :: rest => (n, s) :: funcLines rest
  | _ :: rest => funcLines rest


/-- Every key of the slot table and of the parent table is in the vtable
allow-list and every key of the member table is in the member allow-list. -/
def AllowListed (st : State) : Prop :=
  (∀ p ∈ st.allTargetVtables, p.1 ∈ VtableClassNames) ∧
  (∀ p ∈ st.allTargetParents, p.1 ∈ VtableClassNames) ∧
  (∀ p ∈ st.allTargetVariables, p.1 ∈ VariableClassNames)


/-! ## Closed form of the section loop

The definitions below are not taken from the source: they describe the result of
`reconcileLoop` by list operations and are proved equal to it. -/

/-- Closed form: the name under which an entry with post-strip name `n` is printed
when `k` entries with that name were printed before it in the section. The
counter of the source is a `uint32_t`. -/
def printedName (n : String) (k : Nat) : String :=
  if k = 0 then n else n ++ "_" ++ hexString (k % 4294967296)

/-- Closed form: printed name and slot of every entry of `es`, where `seen` holds
the post-strip names printed before. -/
def numberedLines : List String → SlotMap → List (String × Nat)
  | _, [] => []
  | seen, e :: rest =>
    (printedName (eraseShift e.2) (seen.count (eraseShift e.2)), e.1) ::
      numberedLines (eraseShift e.2 :: seen) rest

/-- Closed form: the lines of a section from the printed names and slots, the two
literal lines placed before the line of slot 2. -/
def linesOf : List (String × Nat) → List Line
  | [] => []
  | p :: rest =>
    (if p.2 = 2 then [Line.vecDelDtor0, Line.vecDelDtor1] else []) ++
      Line.func p.1 p.2 :: linesOf rest

/-- Closed form of the lines of the section of class `className` with slot map `m`. -/
def sectionLines (fuel : Nat) (st : State) (className : String) (m : SlotMap) : List Line :=
  linesOf (numberedLines [] (emittedEntries fuel st className m))

/-- The cache of line 408 after the post-strip names `seen` have been printed: a
name printed `c` times, `c` positive, is mapped to `c - 1`. -/
def CacheFor (seen : List String) (cacheMap : List (String × Nat)) : Prop :=
  ∀ n, mapFind n cacheMap =
    if seen.count n = 0 then none else some ((seen.count n - 1) % 4294967296)

/-- The ancestor walk ends within the fuel for every entry of `m`. -/
def WalkEnds (fuel : Nat) (st : State) (className : String) (m : SlotMap) : Prop :=
  ∀ e ∈ m, CheckParentHasFunction fuel st className (eraseShift e.2) ≠ none


/-- The class reached from `c` by `k` steps of the parent map, if there is one. -/
def ancestorAt (st : State) : Nat → String → Option String
  | 0, c => some c
  | k + 1, c =>
    match mapFind c st.allTargetParents with
    | none => none
    | some p => ancestorAt st k p


/-- The name contains the marker `<<`. -/
def HasShift (name : String) : Prop := ['<', '<'] <:+: name.data

/-- Example state: class `A` with `foo` at slot 3 and no parent, class `B` with
`foo` at slot 3 and `bar` at slot 4 and parent `A`. -/
def exampleAB : State :=
  ⟨[], [("A", [(3, "foo")]), ("B", [(3, "foo"), (4, "bar")])], [("B", "A")]⟩


/-- Example state: one class whose only virtual function sits at slot 2. -/
def exampleSlot2 : State := ⟨[], [("UObject", [(2, "~UObject")])], []⟩

/-- Example state: a class and its recorded parent both hold `f` at slot 2. -/
def exampleInheritedSlot2 : State :=
  ⟨[], [("UObject", [(2, "f")]), ("UObjectBase", [(2, "f")])], [("UObject", "UObjectBase")]⟩

/-- Example state: a class and its recorded parent, each with its own
destructor at slot 2. -/
def exampleTwoDtors : State :=
  ⟨[], [("UObject", [(2, "~UObject")]), ("UObjectBase", [(2, "~UObjectBase")])],
    [("UObject", "UObjectBase")]⟩

/-- Example state: one class whose only virtual function sits at slot 0. -/
def exampleSlot0 : State := ⟨[], [("UObject", [(0, "f")])], []⟩

/-- Example state: one class with functions at slots 1 and 2. -/
def exampleSlots12 : State := ⟨[], [("UObject", [(1, "f"), (2, "~UObject")])], []⟩


/-- Value of a lower-case hexadecimal digit character. -/
def hexDigitValue (c : Char) : Nat :=
  if c.toNat < 58 then c.toNat - 48 else c.toNat - 87

/-- Value of a string of lower-case hexadecimal digits. -/
def hexValue (l : List Char) : Nat := l.foldl (fun acc c => 16 * acc + hexDigitValue c) 0

/-- Example state: three overloads of `operator<<` at slots 3, 4 and 5. -/
def exampleOverloads : State :=
  ⟨[], [("FArchive", [(3, "operator<<"), (4, "operator<<"), (5, "operator<<")])], []⟩

/-- Example state: the name `f` at slots 0 and 1. -/
def exampleSlot0Twice : State := ⟨[], [("UObject", [(0, "f"), (1, "f")])], []⟩

/-- Example state: `f` twice and a function whose own name is `f_1`. -/
def exampleSuffixClash : State := ⟨[], [("UObject", [(3, "f"), (4, "f"), (5, "f_1")])], []⟩


/-- Example entry: the virtual member function `foo` at slot 3, with a
containing-type reference to the entry at offset `ref`. -/
def exampleFoo (ref : Nat) : DieNode :=
  .mk DW_TAG_subprogram (some "foo")
    [⟨DW_AT_virtuality, .constant 1⟩, ⟨DW_AT_containing_type, .reference ref⟩,
      ⟨DW_AT_vtable_elem_location, .block [DW_OP_constu, 3]⟩] []

/-- Example entry: the structure `ICppStructOps` (at offset 10) with `foo` and a
data member `Size` at byte offset 8. -/
def exampleOps : DieNode :=
  .mk DW_TAG_structure_type (some "ICppStructOps") []
    [exampleFoo 10,
      .mk DW_TAG_member (some "Size") [⟨DW_AT_data_member_location, .constant 8⟩] []]

/-- Example entry: the class `UScriptStruct` that contains `ICppStructOps`. -/
def exampleOuter : DieNode :=
  .mk DW_TAG_class_type (some "UScriptStruct") [] [exampleOps]

/-- Example entry: the class `UObject` (at offset 30), whose inheritance child
refers to the entry at offset 10, with its own `foo`. -/
def exampleDerived : DieNode :=
  .mk DW_TAG_class_type (some "UObject") []
    [.mk DW_TAG_inheritance none [⟨DW_AT_type, .reference 10⟩] [], exampleFoo 30]

/-- Example unit entry with the two classes. -/
def exampleUnit : DieNode :=
  .mk DW_TAG_compile_unit (some "unit.cpp") [] [exampleOuter, exampleDerived]

/-- Reference resolution in the example unit. -/
def exampleResolve (off : Nat) : Option DWARFDie :=
  if off = 10 then some ⟨exampleOps, [exampleOuter, exampleUnit]⟩
  else if off = 30 then some ⟨exampleDerived, [exampleUnit]⟩
  else none


/-- Example state: a class and its recorded parent both declare `operator<<` at
slot 3. -/
def exampleShiftInherited : State :=
  ⟨[], [("FArchive", [(3, "operator<<")]), ("FArchiveState", [(3, "operator<<")])],
    [("FArchive", "FArchiveState")]⟩

/-- Example state: eleven functions named `f`, at slots 1 to 11. -/
def exampleEleven : State :=
  ⟨[], [("UObject", [(1, "f"), (2, "f"), (3, "f"), (4, "f"), (5, "f"), (6, "f"), (7, "f"),
    (8, "f"), (9, "f"), (10, "f"), (11, "f")])], []⟩

/-- Example state of member mode: class `C` with two members named `Flags`, at
byte offsets 0x8 and 0x10. -/
def exampleFlags : State := ⟨[("C", [(8, "Flags"), (16, "Flags")])], [], []⟩

/-- Example unit entry: the class `UObjectBase` with two members named `Flags`,
at byte offsets 8 and 16. -/
def exampleFlagsUnit : DieNode :=
  .mk DW_TAG_compile_unit (some "unit.cpp") []
    [.mk DW_TAG_class_type (some "UObjectBase") []
      [.mk DW_TAG_member (some "Flags") [⟨DW_AT_data_member_location, .constant 8⟩] [],
        .mk DW_TAG_member (some "Flags") [⟨DW_AT_data_member_location, .constant 16⟩] []]]

/-- The unsigned LEB128 encoding of the DWARF standard, with a recursion bound:
7-bit groups, low-order group first, every byte but the last with the high bit
set. -/
def encodeULEB128Fuel : Nat → Nat → List Nat
  | 0, v => [v % 128]
  | fuel + 1, v =>
    if v < 128 then [v] else (v % 128 + 128) :: encodeULEB128Fuel fuel (v / 128)

/-- The unsigned LEB128 encoding of `v`. -/
def encodeULEB128 (v : Nat) : List Nat := encodeULEB128Fuel v v

/-- Example entry: a subprogram whose vtable-element-location attribute is the
block made of the `DW_OP_constu` opcode and the ULEB128 encoding of `v`. -/
def slotEntry (v : Nat) : DWARFDie :=
  ⟨.mk DW_TAG_subprogram (some "f")
    [⟨DW_AT_virtuality, .constant 1⟩,
      ⟨DW_AT_vtable_elem_location, .block (DW_OP_constu :: encodeULEB128 v)⟩] [], []⟩

/-- The short names on the parent chain of `D`, innermost first: those of the
entries that are not compile-unit-tagged and have a short name. -/
def chainNames (D : DWARFDie) : List String :=
  (D.node :: D.ancestors).filterMap
    (fun n => if n.tag ≠ DW_TAG_compile_unit then n.shortName else none)

/-- Segments joined by `::`, by recursion on the list (equal to
`String.intercalate`, see `joinNames_eq_intercalate`). -/
def joinNames : List String → String
  | [] => ""
  | [a] => a
  | a :: b :: rest => a ++ "::" ++ joinNames (b :: rest)

/-- One round of the loop of `GetQualifiedName` on a short name: the name is put
in front, with a separator when the name assembled so far is not empty. -/
def prependName (qualifiedName DName : String) : String :=
  DName ++ (if qualifiedName ≠ "" then "::" ++ qualifiedName else qualifiedName)

/-- Example entry: a structure whose short name is the empty string, inside the
class `A` of a unit. -/
def exampleEmptyName : DWARFDie :=
  ⟨.mk DW_TAG_structure_type (some "") [] [],
    [.mk DW_TAG_class_type (some "A") [] [], .mk DW_TAG_compile_unit (some "unit.cpp") [] []]⟩

/-- Example entry: the structure `ICppStructOps` inside the class `UScriptStruct`
inside an unnamed namespace of a unit. -/
def exampleNested : DWARFDie :=
  ⟨.mk DW_TAG_structure_type (some "ICppStructOps") [] [],
    [.mk DW_TAG_class_type (some "UScriptStruct") [] [], .mk DW_TAG_namespace none [] [],
      .mk DW_TAG_compile_unit (some "unit.cpp") [] []]⟩

/-- The recursion of `CheckParentHasFunction` returns false at the class `d`
without a further call: `d` has no recorded parent (line 356), or its recorded
parent has no slot map (line 359). -/
def Stops (st : State) (d : String) : Prop :=
  mapFind d st.allTargetParents = none ∨
  ∃ p, mapFind d st.allTargetParents = some p ∧ mapFind p st.allTargetVtables = none

/-- Some class reached from `c` by one or more steps of the parent map has a slot
map that holds `f`, and every class reached on the way to it has a slot map. -/
def ReachesHolder (st : State) (c f : String) : Prop :=
  ∃ k d m, ancestorAt st (k + 1) c = some d ∧ mapFind d st.allTargetVtables = some m ∧
    valueExists m f = true ∧
    ∀ j, j < k → ∃ e m2, ancestorAt st (j + 1) c = some e ∧
      mapFind e st.allTargetVtables = some m2

/-- Example state: `AGameMode` with recorded parent `AGameModeBase`, which has
the parent `AActor` and no slot map of its own; `AActor` holds `f`. -/
def exampleGap : State :=
  ⟨[], [("AActor", [(3, "f")]), ("AGameMode", [(3, "f")])],
    [("AGameMode", "AGameModeBase"), ("AGameModeBase", "AActor")]⟩

/-- What the body of the child loop of `DecodeClass` records for a child, apart
from the allow-list test on the class: offset and name of a member-tagged child
with a short name and a non-zero 16-bit offset. -/
def memberRecord (Child : DWARFDie) : Option (Nat × String) :=
  if Child.getTag = DW_TAG_member then
    match Child.getShortName with
    | some mName =>
      if getVariableOffset Child > 0 then some (getVariableOffset Child, mName) else none
    | none => none
  else none

/-- The name of the last record at offset `k` in a list of records. -/
def lastRecorded (k : Nat) : List (Nat × String) → Option String
  | [] => none
  | r :: rest =>
    match lastRecorded k rest with
    | some n => some n
    | none => if r.1 = k then some r.2 else none

/-- The name recorded at key `k` of the inner map of class `c` in a table of
per-class maps (`none` when the class or the key is absent). -/
def lookupIn (tbl : List (String × List (Nat × String))) (c : String) (k : Nat) :
    Option String :=
  mapFind k ((mapFind c tbl).getD [])

/-- Example entry: the class `UObjectBase` with a member `Big` whose
data-member location is 65544. -/
def exampleBigClass : DWARFDie :=
  ⟨.mk DW_TAG_class_type (some "UObjectBase") []
    [.mk DW_TAG_member (some "Big") [⟨DW_AT_data_member_location, .constant 65544⟩] []],
    [.mk DW_TAG_compile_unit (some "unit.cpp") [] []]⟩

/-- Example entry: the class `UObjectBase` with two members at offset 8, `First`
and then `Second`, and a member `Other` at offset 16. -/
def exampleTwoAtEight : DWARFDie :=
  ⟨.mk DW_TAG_class_type (some "UObjectBase") []
    [.mk DW_TAG_member (some "First") [⟨DW_AT_data_member_location, .constant 8⟩] [],
      .mk DW_TAG_member (some "Other") [⟨DW_AT_data_member_location, .constant 16⟩] [],
      .mk DW_TAG_member (some "Second") [⟨DW_AT_data_member_location, .constant 8⟩] []],
    [.mk DW_TAG_compile_unit (some "unit.cpp") [] []]⟩

/-- A flat table `T` follows `S` towards `X`: at every key it holds what `S`
holds or what `X` holds. -/
def TracksFlat (X S T : List (String × String)) : Prop :=
  ∀ c, mapFind c T = mapFind c S ∨ mapFind c T = mapFind c X

/-- A table of per-class maps `T` follows `S` towards `X`: for every class it has
an inner map when `S` has one or when `X` has one, and at every key of every
class it holds what `S` holds or what `X` holds. -/
def TracksNested (X S T : List (String × List (Nat × String))) : Prop :=
  (∀ c, (mapFind c T).isSome = (mapFind c S).isSome ∨
    (mapFind c T).isSome = (mapFind c X).isSome) ∧
  (∀ c k, lookupIn T c k = lookupIn S c k ∨ lookupIn T c k = lookupIn X c k)

/-- The relation between the states of a first walk (`S`, ending in `X`) and of a
second walk that started from `X` (`T`), after the same number of steps. -/
def Tracks (X S T : State) : Prop :=
  TracksFlat X.allTargetParents S.allTargetParents T.allTargetParents ∧
  TracksNested X.allTargetVtables S.allTargetVtables T.allTargetVtables ∧
  TracksNested X.allTargetVariables S.allTargetVariables T.allTargetVariables

/-- Example unit entry: a second unit with the same two classes as `exampleUnit`. -/
def exampleUnitAgain : DieNode :=
  .mk DW_TAG_compile_unit (some "other.cpp") [] [exampleOuter, exampleDerived]

/-! ## Lemmas on ordered maps -/

section MapLemmas

variable {K V : Type}

theorem mapFind_mem [DecidableEq K] {k : K} {v : V} {m : List (K × V)}
    (h : mapFind k m = some v) : (k, v) ∈ m := by
  induction m with
  | nil => simp [mapFind] at h
  | cons p rest ih =>
    obtain ⟨k1, v1⟩ := p
    simp only [mapFind] at h
    split_ifs at h with hk
    · cases h; subst hk; exact List.mem_cons_self _ _
    · exact List.mem_cons_of_mem _ (ih h)

theorem mapFind_isSome_of_mem [DecidableEq K] {k : K} {v : V} {m : List (K × V)}
    (h : (k, v) ∈ m) : ∃ w, mapFind k m = some w := by
  induction m with
  | nil => simp at h
  | cons p rest ih =>
    obtain ⟨k1, v1⟩ := p
    simp only [mapFind]
    split_ifs with hk
    · exact ⟨v1, rfl⟩
    · rcases List.mem_cons.1 h with h1 | h1
      · cases h1; exact absurd rfl hk
      · exact ih h1

theorem mapFind_eq_none_iff [DecidableEq K] {k : K} {m : List (K × V)} :
    mapFind k m = none ↔ ∀ p ∈ m, p.1 ≠ k := by
  induction m with
  | nil => simp [mapFind]
  | cons p rest ih =>
    obtain ⟨k1, v1⟩ := p
    simp only [mapFind, List.mem_cons, forall_eq_or_imp]
    split_ifs with hk
    · subst hk; simp
    · simp [ih, Ne.symm hk]

theorem mem_mapInsert [LT K] [@DecidableRel K (· < ·)] {k : K} {v : V} {m : List (K × V)}
    {p : K × V} (h : p ∈ mapInsert k v m) : p = (k, v) ∨ p ∈ m := by
  induction m with
  | nil => simpa [mapInsert] using h
  | cons q rest ih =>
    obtain ⟨k1, v1⟩ := q
    simp only [mapInsert] at h
    split_ifs at h
    · rcases List.mem_cons.1 h with h1 | h1
      · exact Or.inl h1
      · exact Or.inr h1
    · rcases List.mem_cons.1 h with h1 | h1
      · exact Or.inr (h1 ▸ List.mem_cons_self _ _)
      · rcases ih h1 with h2 | h2
        · exact Or.inl h2
        · exact Or.inr (List.mem_cons_of_mem _ h2)
    · rcases List.mem_cons.1 h with h1 | h1
      · exact Or.inl h1
      · exact Or.inr (List.mem_cons_of_mem _ h1)

theorem mapFind_mapInsert [LinearOrder K] [DecidableEq K] [@DecidableRel K (· < ·)]
    (k k2 : K) (v : V)
    (m : List (K × V)) :
    mapFind k2 (mapInsert k v m) = if k2 = k then some v else mapFind k2 m := by
  induction m with
  | nil => simp [mapInsert, mapFind]
  | cons q rest ih =>
    obtain ⟨k1, v1⟩ := q
    by_cases hk2 : k2 = k
    · subst hk2
      simp only [mapInsert, if_true]
      split_ifs with h1 h2
      · simp [mapFind]
      · simp [mapFind, (ne_of_lt h2).symm, ih]
      · simp [mapFind]
    · simp only [mapInsert, if_neg hk2]
      split_ifs with h1 h2
      · simp [mapFind, hk2]
      · simp only [mapFind, ih, if_neg hk2]
      · have hk : k = k1 := le_antisymm (not_lt.1 h2) (not_lt.1 h1)
        subst hk; simp [mapFind, hk2]

theorem mapInsert_sorted [LinearOrder K] [@DecidableRel K (· < ·)] (k : K) (v : V)
    {m : List (K × V)} (h : SortedKeys m) : SortedKeys (mapInsert k v m) := by
  unfold SortedKeys at *
  induction m with
  | nil => simp [mapInsert]
  | cons q rest ih =>
    obtain ⟨k1, v1⟩ := q
    simp only [List.map_cons, List.pairwise_cons] at h
    simp only [mapInsert]
    split_ifs with h1 h2
    · simp only [List.map_cons, List.pairwise_cons, List.mem_cons, forall_eq_or_imp]
      exact ⟨⟨h1, fun a ha => lt_trans h1 (h.1 a ha)⟩, h.1, h.2⟩
    · simp only [List.map_cons, List.pairwise_cons]
      refine ⟨?_, ih h.2⟩
      intro a ha
      obtain ⟨p, hp, rfl⟩ := List.mem_map.1 ha
      rcases mem_mapInsert hp with h3 | h3
      · subst h3; exact h2
      · exact h.1 _ (List.mem_map_of_mem _ h3)
    · have hk : k = k1 := le_antisymm (not_lt.1 h2) (not_lt.1 h1)
      subst hk
      simp only [List.map_cons, List.pairwise_cons]
      exact h

theorem mapFind_mapInsert_string (k k2 : String) (v : V) (m : List (String × V)) :
    mapFind k2 (mapInsert k v m) = if k2 = k then some v else mapFind k2 m :=
  mapFind_mapInsert k k2 v m

theorem mapInsert_sorted_string (k : String) (v : V) {m : List (String × V)}
    (h : SortedKeys m) : SortedKeys (mapInsert k v m) :=
  mapInsert_sorted k v h

theorem mapInsert_sorted_nat (k : Nat) (v : V) {m : List (Nat × V)}
    (h : SortedKeys m) : SortedKeys (mapInsert k v m) :=
  mapInsert_sorted k v h

end MapLemmas

/-! ## The walk keeps the tables inside the allow-lists -/

theorem ClassNameExists_mem {name : String} {classNames : List String}
    (h : ClassNameExists name classNames = true) : name ∈ classNames := by
  simpa [ClassNameExists] using h

theorem SearchVirtualFunction_allow (resolve : Nat → Option DWARFDie) (D : DWARFDie)
    {st st1 : State} (h : SearchVirtualFunction resolve D st = some st1)
    (hst : AllowListed st) : AllowListed st1 := by
  unfold SearchVirtualFunction at h
  cases hn : D.getShortName with
  | none => simp only [hn] at h; cases h; exact hst
  | some fName =>
    simp only [hn] at h
    by_cases hv : isVirtualFunction D = true
    · by_cases hc : ClassNameExists (GetQualifiedName D.getParent) VtableClassNames = true
      · simp only [hv, hc, if_true] at h
        cases ho : getVirtualFunctionOffset D with
        | none => simp [ho] at h
        | some offset =>
          simp only [ho, Option.some.injEq] at h
          subst h
          have hmem := ClassNameExists_mem hc
          refine ⟨?_, ?_, hst.2.2⟩
          · intro p hp
            rcases mem_mapInsert hp with h1 | h1
            · rw [h1]; exact hmem
            · exact hst.1 p h1
          · intro p hp
            dsimp only at hp
            cases hp1 : getShortNameOpt (getParentClass resolve D.getParent) with
            | none => rw [hp1] at hp; exact hst.2.1 p hp
            | some pn =>
              rw [hp1] at hp
              rcases mem_mapInsert hp with h1 | h1
              · rw [h1]; exact hmem
              · exact hst.2.1 p h1
      · simp only [hv, hc, if_true] at h
        simp only [Bool.false_eq_true, if_false, Option.some.injEq] at h
        subst h; exact hst
    · simp only [hv, Bool.false_eq_true, if_false, Option.some.injEq] at h
      subst h; exact hst

/-! ### Invariants of the walk

A property of the accumulators that the two handlers `SearchVirtualFunction` and
`decodeChild` keep is kept by the whole walk. -/

theorem searchFunctionHere_preserves (I : State → Prop) (resolve : Nat → Option DWARFDie)
    (hI : ∀ D st st1, SearchVirtualFunction resolve D st = some st1 → I st → I st1)
    (D : DWARFDie) {st st1 : State} (h : searchFunctionHere resolve D st = some st1)
    (hst : I st) : I st1 := by
  unfold searchFunctionHere at h
  dsimp only at h
  generalize hg : (if D.getTag = DW_TAG_class_type ∨ D.getTag = DW_TAG_structure_type then
      SearchVirtualFunction resolve D st else some st) = r at h
  cases r with
  | none => simp at h
  | some st2 =>
    have hst2 : I st2 := by
      split_ifs at hg
      · exact hI D st st2 hg hst
      · cases hg; exact hst
    simp only at h
    cases hr : D.getAttributeValueAsReferencedDie resolve DW_AT_containing_type with
    | none => simp only [hr, Option.some.injEq] at h; subst h; exact hst2
    | some d => simp only [hr] at h; exact hI D st2 st1 h hst2

mutual
theorem SearcheFunction_preserves (I : State → Prop) (resolve : Nat → Option DWARFDie)
    (hI : ∀ D st st1, SearchVirtualFunction resolve D st = some st1 → I st → I st1) :
    ∀ (n : DieNode) (anc : List DieNode) (st st1 : State),
      SearcheFunction resolve n anc st = some st1 → I st → I st1
  | .mk tag name attrs cs, anc, st, st1, h, hst => by
    rw [SearcheFunction] at h
    split at h
    · cases h
    · rename_i st2 h2
      exact SearcheFunctionChildren_preserves I resolve hI cs _ st2 st1 h
        (searchFunctionHere_preserves I resolve hI _ h2 hst)
theorem SearcheFunctionChildren_preserves (I : State → Prop)
    (resolve : Nat → Option DWARFDie)
    (hI : ∀ D st st1, SearchVirtualFunction resolve D st = some st1 → I st → I st1) :
    ∀ (cs : List DieNode) (anc : List DieNode) (st st1 : State),
      SearcheFunctionChildren resolve cs anc st = some st1 → I st → I st1
  | [], _, st, st1, h, hst => by
    rw [SearcheFunctionChildren] at h
    cases h; exact hst
  | c :: cs, anc, st, st1, h, hst => by
    rw [SearcheFunctionChildren] at h
    split at h
    · cases h
    · rename_i st2 h2
      exact SearcheFunctionChildren_preserves I resolve hI cs anc st2 st1 h
        (SearcheFunction_preserves I resolve hI c anc st st2 h2 hst)
end

theorem DecodeClass_preserves (I : State → Prop)
    (hI : ∀ D st Child, I st → I (decodeChild D st Child))
    (D : DWARFDie) (st : State) (hst : I st) : I (DecodeClass D st) := by
  unfold DecodeClass
  split
  · exact hst
  · generalize D.children = cs
    induction cs generalizing st with
    | nil => exact hst
    | cons c cs ih => exact ih _ (hI D st c hst)

theorem searchClassHere_preserves (I : State → Prop)
    (hI : ∀ D st Child, I st → I (decodeChild D st Child))
    (resolve : Nat → Option DWARFDie) (D : DWARFDie) (st : State) (hst : I st) :
    I (searchClassHere resolve D st) := by
  unfold searchClassHere
  have h1 : I (if D.getTag = DW_TAG_class_type ∨ D.getTag = DW_TAG_structure_type then
      DecodeClass D st else st) := by
    split_ifs
    · exact DecodeClass_preserves I hI D st hst
    · exact hst
  dsimp only
  cases D.getAttributeValueAsReferencedDie resolve DW_AT_containing_type with
  | none => exact h1
  | some d => exact DecodeClass_preserves I hI D _ h1

mutual
theorem SearchClass_preserves (I : State → Prop)
    (hI : ∀ D st Child, I st → I (decodeChild D st Child))
    (resolve : Nat → Option DWARFDie) :
    ∀ (n : DieNode) (anc : List DieNode) (st : State), I st → I (SearchClass resolve n anc st)
  | .mk tag name attrs cs, anc, st, hst => by
    rw [SearchClass]
    exact SearchClassChildren_preserves I hI resolve cs _ _
      (searchClassHere_preserves I hI resolve _ st hst)
theorem SearchClassChildren_preserves (I : State → Prop)
    (hI : ∀ D st Child, I st → I (decodeChild D st Child))
    (resolve : Nat → Option DWARFDie) :
    ∀ (cs : List DieNode) (anc : List DieNode) (st : State),
      I st → I (SearchClassChildren resolve cs anc st)
  | [], _, st, hst => by
    rw [SearchClassChildren]; exact hst
  | c :: cs, anc, st, hst => by
    rw [SearchClassChildren]
    exact SearchClassChildren_preserves I hI resolve cs anc _
      (SearchClass_preserves I hI resolve c anc st hst)
end

theorem LoadDwarfFile_preserves (I : State → Prop) (resolve : Nat → Option DWARFDie)
    (hV : ∀ D st st1, SearchVirtualFunction resolve D st = some st1 → I st → I st1)
    (hM : ∀ D st Child, I st → I (decodeChild D st Child))
    (code_type : Int) (units : List DieNode) (st st1 : State)
    (h : LoadDwarfFile resolve code_type units st = some st1) (hst : I st) : I st1 := by
  induction units generalizing st with
  | nil => simp only [LoadDwarfFile] at h; cases h; exact hst
  | cons cu rest ih =>
    simp only [LoadDwarfFile] at h
    split_ifs at h with h0 h1
    · split at h
      · cases h
      · rename_i st2 h2
        exact ih st2 h (SearcheFunction_preserves I resolve hV cu [] st st2 h2 hst)
    · exact ih _ h (SearchClass_preserves I hM resolve cu [] st hst)
    · exact ih _ h hst

theorem decodeChild_allow (D : DWARFDie) (st : State) (Child : DWARFDie)
    (hst : AllowListed st) : AllowListed (decodeChild D st Child) := by
  unfold decodeChild
  split_ifs with ht
  · dsimp only
    cases hn : Child.getShortName with
    | none => exact hst
    | some mName =>
      dsimp only
      split_ifs with hc
      · refine ⟨hst.1, hst.2.1, ?_⟩
        intro p hp
        rcases mem_mapInsert hp with h1 | h1
        · rw [h1]; exact ClassNameExists_mem hc.1
        · exact hst.2.2 p h1
      · exact hst
  · exact hst

theorem LoadDwarfFile_allow (resolve : Nat → Option DWARFDie) (code_type : Int)
    (units : List DieNode) (st st1 : State)
    (h : LoadDwarfFile resolve code_type units st = some st1) (hst : AllowListed st) :
    AllowListed st1 :=
  LoadDwarfFile_preserves AllowListed resolve
    (fun D _ _ h1 h2 => SearchVirtualFunction_allow resolve D h1 h2)
    (fun D st Child h1 => decodeChild_allow D st Child h1) code_type units st st1 h hst

/-! ### The walk keeps the maps ordered -/

theorem memcpyUInt16_lt {data : List Nat} {size v : Nat}
    (h : memcpyUInt16 data size = some v) : v < 65536 := by
  unfold memcpyUInt16 at h
  split at h
  · cases h; norm_num
  · cases h; omega
  · cases h; omega
  · cases h

theorem getVirtualFunctionOffsetLoop_lt :
    ∀ (attrs : List Attribute) (v : Nat), getVirtualFunctionOffsetLoop attrs = some v →
      v < 65536
  | [], v, h => by
    rw [getVirtualFunctionOffsetLoop] at h
    cases h; norm_num
  | a :: rest, v, h => by
    rw [getVirtualFunctionOffsetLoop] at h
    split_ifs at h with h1
    · split at h
      · split_ifs at h with h2
        · split at h
          · cases h
          · exact memcpyUInt16_lt h
        · exact getVirtualFunctionOffsetLoop_lt rest v h
      · exact getVirtualFunctionOffsetLoop_lt rest v h
    · exact getVirtualFunctionOffsetLoop_lt rest v h

theorem nested_insert_sorted {V : Type} (className : String) (k : Nat) (v : V)
    (tbl : List (String × List (Nat × V))) (h1 : SortedKeys tbl)
    (h2 : ∀ p ∈ tbl, SortedKeys p.2) :
    SortedKeys (mapInsert className (mapInsert k v ((mapFind className tbl).getD [])) tbl) ∧
    ∀ p ∈ mapInsert className (mapInsert k v ((mapFind className tbl).getD [])) tbl,
      SortedKeys p.2 := by
  refine ⟨mapInsert_sorted_string _ _ h1, ?_⟩
  intro p hp
  rcases mem_mapInsert hp with h3 | h3
  · rw [h3]
    apply mapInsert_sorted_nat
    cases hf : mapFind className tbl with
    | none => simp [SortedKeys]
    | some m => exact h2 _ (mapFind_mem hf)
  · exact h2 p h3

theorem SearchVirtualFunction_wf (resolve : Nat → Option DWARFDie) (D : DWARFDie)
    (st st1 : State) (h : SearchVirtualFunction resolve D st = some st1)
    (hst : st.WF) : st1.WF := by
  unfold SearchVirtualFunction at h
  cases hn : D.getShortName with
  | none => simp only [hn] at h; cases h; exact hst
  | some fName =>
    simp only [hn] at h
    by_cases hv : isVirtualFunction D = true
    · by_cases hc : ClassNameExists (GetQualifiedName D.getParent) VtableClassNames = true
      · simp only [hv, hc, if_true] at h
        cases ho : getVirtualFunctionOffset D with
        | none => simp [ho] at h
        | some offset =>
          simp only [ho, Option.some.injEq] at h
          subst h
          have hoff : offset < 65536 := getVirtualFunctionOffsetLoop_lt _ _ ho
          obtain ⟨hs1, hs2⟩ := nested_insert_sorted (GetQualifiedName D.getParent) offset fName
            st.allTargetVtables hst.vtables_sorted hst.slots_sorted
          refine ⟨hs1, hs2, ?_, ?_, hst.variables_sorted, hst.members_sorted⟩
          · intro p hp e he
            rcases mem_mapInsert hp with h3 | h3
            · rw [h3] at he
              rcases mem_mapInsert he with h4 | h4
              · rw [h4]; exact hoff
              · cases hf : mapFind (GetQualifiedName D.getParent) st.allTargetVtables with
                | none => rw [hf] at h4; simp at h4
                | some m =>
                  rw [hf] at h4
                  exact hst.slots_lt _ (mapFind_mem hf) e h4
            · exact hst.slots_lt p h3 e he
          · dsimp only
            cases getShortNameOpt (getParentClass resolve D.getParent) with
            | none => exact hst.parents_sorted
            | some pn => exact mapInsert_sorted_string _ _ hst.parents_sorted
      · simp only [hv, hc, if_true] at h
        simp only [Bool.false_eq_true, if_false, Option.some.injEq] at h
        subst h; exact hst
    · simp only [hv, Bool.false_eq_true, if_false, Option.some.injEq] at h
      subst h; exact hst

theorem decodeChild_wf (D : DWARFDie) (st : State) (Child : DWARFDie) (hst : st.WF) :
    (decodeChild D st Child).WF := by
  unfold decodeChild
  split_ifs with ht
  · dsimp only
    cases hn : Child.getShortName with
    | none => exact hst
    | some mName =>
      dsimp only
      split_ifs with hc
      · obtain ⟨hs1, hs2⟩ := nested_insert_sorted (GetQualifiedName (some D))
          (getVariableOffset Child) mName st.allTargetVariables hst.variables_sorted
          hst.members_sorted
        exact ⟨hst.vtables_sorted, hst.slots_sorted, hst.slots_lt, hst.parents_sorted, hs1, hs2⟩
      · exact hst
  · exact hst

theorem wf_empty : State.empty.WF := by
  refine ⟨?_, ?_, ?_, ?_, ?_, ?_⟩ <;> simp [State.empty, SortedKeys]

/-- Every state the walk produces from the empty accumulators is well formed. -/
theorem LoadDwarfFile_wf (resolve : Nat → Option DWARFDie) (code_type : Int)
    (units : List DieNode) (st : State)
    (h : LoadDwarfFile resolve code_type units State.empty = some st) : st.WF :=
  LoadDwarfFile_preserves State.WF resolve (SearchVirtualFunction_wf resolve) decodeChild_wf
    code_type units State.empty st h wf_empty

/-- The two fixed parent assignments keep the state well formed. -/
theorem applyParentOverrides_wf (st : State) (hst : st.WF) : (applyParentOverrides st).WF :=
  ⟨hst.vtables_sorted, hst.slots_sorted, hst.slots_lt,
    mapInsert_sorted_string _ _ (mapInsert_sorted_string _ _ hst.parents_sorted),
    hst.variables_sorted, hst.members_sorted⟩

theorem applyParentOverrides_allow (st : State) (hst : AllowListed st) :
    AllowListed (applyParentOverrides st) := by
  refine ⟨hst.1, ?_, hst.2.2⟩
  intro p hp
  rcases mem_mapInsert hp with h1 | h1
  · rw [h1]; decide
  · rcases mem_mapInsert h1 with h2 | h2
    · rw [h2]; decide
    · exact hst.2.1 p h2

/-! ## The section loop equals its closed form -/

theorem CacheFor_nil : CacheFor [] [] := by
  intro n; simp [mapFind]

theorem CacheFor_cons {seen : List String} {cacheMap : List (String × Nat)} (n : String)
    (h : CacheFor seen cacheMap) :
    CacheFor (n :: seen)
      (mapInsert n (match mapFind n cacheMap with
        | some count => (count + 1) % 4294967296
        | none => 0) cacheMap) := by
  intro n2
  rw [mapFind_mapInsert_string]
  by_cases hn : n2 = n
  · subst hn
    rw [h n2]
    simp only [if_true, List.count_cons_self]
    by_cases hc : List.count n2 seen = 0
    · simp [hc]
    · simp only [hc, if_false, Nat.succ_ne_zero, Nat.add_sub_cancel, Option.some.injEq]
      omega
  · rw [if_neg hn, h n2, List.count_cons_of_ne hn]

theorem emittedEntries_cons (fuel : Nat) (st : State) (className : String)
    (e : Nat × String) (m : SlotMap) :
    emittedEntries fuel st className (e :: m) =
      if (CheckParentHasFunction fuel st className (eraseShift e.2) == some true || e.1 == 0)
      then emittedEntries fuel st className m
      else e :: emittedEntries fuel st className m := by
  unfold emittedEntries
  rw [List.filter_cons]
  by_cases h : (CheckParentHasFunction fuel st className (eraseShift e.2) == some true
      || e.1 == 0) = true
  · simp [h]
  · simp [h]

theorem reconcileLoop_closed (fuel : Nat) (st : State) (className : String) :
    ∀ (m : SlotMap) (seen : List String) (cacheMap : List (String × Nat)) (hex : Bool),
      WalkEnds fuel st className m → CacheFor seen cacheMap → (seen ≠ [] → hex = true) →
      reconcileLoop fuel st className m cacheMap hex =
        some (linesOf (numberedLines seen (emittedEntries fuel st className m)),
          hex || !(emittedEntries fuel st className m).isEmpty) := by
  intro m
  induction m with
  | nil =>
    intro seen cacheMap hex _ _ _
    simp [reconcileLoop, emittedEntries, numberedLines, linesOf]
  | cons e rest ih =>
    intro seen cacheMap hex hw hc hh
    have hw1 : WalkEnds fuel st className rest := fun x hx => hw x (List.mem_cons_of_mem _ hx)
    have he := hw e (List.mem_cons_self _ _)
    rw [reconcileLoop, emittedEntries_cons]
    cases hcp : CheckParentHasFunction fuel st className (eraseShift e.2) with
    | none => exact absurd hcp he
    | some inherited =>
      dsimp only
      by_cases hskip : (inherited || e.1 == 0) = true
      · have h2 : (some inherited == some true || e.1 == 0) = true := by
          cases inherited <;> simp_all
        rw [if_pos hskip, if_pos h2]
        exact ih seen cacheMap hex hw1 hc hh
      · have h2 : ¬ (some inherited == some true || e.1 == 0) = true := by
          cases inherited <;> simp_all
        rw [if_neg hskip, if_neg h2]
        have hc1 := CacheFor_cons (eraseShift e.2) hc
        have hrec := ih (eraseShift e.2 :: seen) _ true hw1 hc1 (fun _ => rfl)
        have hfind := hc (eraseShift e.2)
        cases hf : mapFind (eraseShift e.2) cacheMap with
        | none =>
          rw [hf] at hrec hfind
          have hcount : List.count (eraseShift e.2) seen = 0 := by
            by_contra hne
            rw [if_neg hne] at hfind
            cases hfind
          dsimp only at hrec ⊢
          rw [hrec]
          simp [numberedLines, linesOf, printedName, hcount]
        | some count =>
          rw [hf] at hrec hfind
          have hcount : List.count (eraseShift e.2) seen ≠ 0 := by
            intro h0
            rw [if_pos h0] at hfind
            cases hfind
          rw [if_neg hcount] at hfind
          have hseen : seen ≠ [] := by
            intro h0; subst h0; simp at hcount
          have hhex := hh hseen
          have hval : (count + 1) % 4294967296 =
              List.count (eraseShift e.2) seen % 4294967296 := by
            have := Option.some.inj hfind
            omega
          dsimp only at hrec ⊢
          rw [hrec]
          simp [numberedLines, linesOf, printedName, hcount, hhex, showUnsigned, hval]

theorem reconcileLoop_walkEnds (fuel : Nat) (st : State) (className : String) :
    ∀ (m : SlotMap) (cacheMap : List (String × Nat)) (hex : Bool) (r : List Line × Bool),
      reconcileLoop fuel st className m cacheMap hex = some r → WalkEnds fuel st className m := by
  intro m
  induction m with
  | nil => intro _ _ _ _ e he; simp at he
  | cons e rest ih =>
    intro cacheMap hex r h x hx
    rw [reconcileLoop] at h
    cases hcp : CheckParentHasFunction fuel st className (eraseShift e.2) with
    | none => rw [hcp] at h; cases h
    | some inherited =>
      rw [hcp] at h
      dsimp only at h
      have hrest : ∃ c2 h2 r2, reconcileLoop fuel st className rest c2 h2 = some r2 := by
        by_cases hskip : (inherited || e.1 == 0) = true
        · rw [if_pos hskip] at h; exact ⟨_, _, _, h⟩
        · rw [if_neg hskip] at h
          cases hf : mapFind (eraseShift e.2) cacheMap with
          | none =>
            rw [hf] at h; dsimp only at h
            cases hr : reconcileLoop fuel st className rest
                (mapInsert (eraseShift e.2) 0 cacheMap) true with
            | none => rw [hr] at h; cases h
            | some r2 => exact ⟨_, _, _, hr⟩
          | some count =>
            rw [hf] at h; dsimp only at h
            cases hr : reconcileLoop fuel st className rest
                (mapInsert (eraseShift e.2) ((count + 1) % 4294967296) cacheMap) true with
            | none => rw [hr] at h; cases h
            | some r2 => exact ⟨_, _, _, hr⟩
      obtain ⟨c2, h2, r2, hr⟩ := hrest
      rcases List.mem_cons.1 hx with h1 | h1
      · subst h1; rw [hcp]; exact Option.some_ne_none _
      · exact ih c2 h2 r2 hr x h1

/-- The section loop on a fresh cache returns exactly the closed form. -/
theorem reconcileLoop_eq (fuel : Nat) (st : State) (className : String) (m : SlotMap)
    (hex : Bool) (r : List Line × Bool)
    (h : reconcileLoop fuel st className m [] hex = some r) :
    r.1 = sectionLines fuel st className m := by
  have hw := reconcileLoop_walkEnds fuel st className m [] hex r h
  rw [reconcileLoop_closed fuel st className m [] [] hex hw CacheFor_nil (fun h0 => absurd rfl h0)]
    at h
  cases h; rfl

/-! ## The sections of all classes -/

theorem reconcileClasses_eq (fuel : Nat) (st : State) :
    ∀ (cl : List (String × SlotMap)) (hex : Bool) (secs : List (String × List Line)),
      reconcileClasses fuel st cl hex = some secs →
      secs = cl.map (fun p => (p.1, sectionLines fuel st p.1 p.2)) := by
  intro cl
  induction cl with
  | nil => intro hex secs h; simp only [reconcileClasses] at h; cases h; rfl
  | cons p rest ih =>
    intro hex secs h
    rw [reconcileClasses] at h
    cases hl : reconcileLoop fuel st p.1 p.2 [] hex with
    | none => rw [hl] at h; cases h
    | some r =>
      obtain ⟨lines, hex1⟩ := r
      rw [hl] at h
      dsimp only at h
      cases hr : reconcileClasses fuel st rest hex1 with
      | none => rw [hr] at h; cases h
      | some secs1 =>
        rw [hr] at h
        cases h
        have h1 := reconcileLoop_eq fuel st p.1 p.2 hex _ hl
        dsimp only at h1
        rw [List.map_cons, ← ih hex1 secs1 hr, h1]

theorem reconcileClasses_total (fuel : Nat) (st : State) :
    ∀ (cl : List (String × SlotMap)) (hex : Bool),
      (∀ p ∈ cl, WalkEnds fuel st p.1 p.2) →
      ∃ secs, reconcileClasses fuel st cl hex = some secs := by
  intro cl
  induction cl with
  | nil => intro hex _; exact ⟨[], rfl⟩
  | cons p rest ih =>
    intro hex hw
    rw [reconcileClasses]
    rw [reconcileLoop_closed fuel st p.1 p.2 [] [] hex (hw p (List.mem_cons_self _ _))
      CacheFor_nil (fun h0 => absurd rfl h0)]
    dsimp only
    obtain ⟨secs, hs⟩ := ih (hex || !(emittedEntries fuel st p.1 p.2).isEmpty)
      (fun q hq => hw q (List.mem_cons_of_mem _ hq))
    rw [hs]
    exact ⟨_, rfl⟩

theorem reconcileClasses_walkEnds (fuel : Nat) (st : State) :
    ∀ (cl : List (String × SlotMap)) (hex : Bool) (secs : List (String × List Line)),
      reconcileClasses fuel st cl hex = some secs → ∀ p ∈ cl, WalkEnds fuel st p.1 p.2 := by
  intro cl
  induction cl with
  | nil => intro _ _ _ p hp; simp at hp
  | cons q rest ih =>
    intro hex secs h p hp
    rw [reconcileClasses] at h
    cases hl : reconcileLoop fuel st q.1 q.2 [] hex with
    | none => rw [hl] at h; cases h
    | some r =>
      rw [hl] at h
      dsimp only at h
      cases hr : reconcileClasses fuel st rest r.2 with
      | none => rw [hr] at h; cases h
      | some secs1 =>
        rcases List.mem_cons.1 hp with h1 | h1
        · subst h1; exact reconcileLoop_walkEnds fuel st p.1 p.2 [] hex r hl
        · exact ih r.2 secs1 hr p h1

/-! ## The ancestor walk ends on a parent map without cycle -/

theorem ancestorAt_of_none (st : State) (f : String) :
    ∀ (fuel : Nat) (c : String), CheckParentHasFunction fuel st c f = none →
      ∀ k, k ≤ fuel → ∃ d, ancestorAt st k c = some d := by
  intro fuel
  induction fuel with
  | zero =>
    intro c _ k hk
    have : k = 0 := by omega
    subst this
    exact ⟨c, rfl⟩
  | succ fuel ih =>
    intro c h k hk
    cases k with
    | zero => exact ⟨c, rfl⟩
    | succ k =>
      rw [CheckParentHasFunction] at h
      cases hp : mapFind c st.allTargetParents with
      | none => rw [hp] at h; cases h
      | some p =>
        rw [hp] at h
        dsimp only at h
        cases hv : mapFind p st.allTargetVtables with
        | none => rw [hv] at h; cases h
        | some m =>
          rw [hv] at h
          dsimp only at h
          split_ifs at h
          rw [ancestorAt, hp]
          exact ih p h k (by omega)

theorem ancestorAt_add (st : State) :
    ∀ (i j : Nat) (c d : String), ancestorAt st i c = some d →
      ancestorAt st (i + j) c = ancestorAt st j d := by
  intro i
  induction i with
  | zero => intro j c d h; simp only [ancestorAt] at h; cases h; simp
  | succ i ih =>
    intro j c d h
    rw [ancestorAt] at h
    have hij : i + 1 + j = (i + j) + 1 := by omega
    rw [hij, ancestorAt]
    cases hp : mapFind c st.allTargetParents with
    | none => rw [hp] at h; cases h
    | some p =>
      rw [hp] at h
      dsimp only at h ⊢
      exact ih j p d h

theorem transGen_of_ancestorAt (st : State) :
    ∀ (k : Nat) (c d : String), ancestorAt st (k + 1) c = some d →
      Relation.TransGen (ParentStep st) c d := by
  intro k
  induction k with
  | zero =>
    intro c d h
    rw [ancestorAt] at h
    cases hp : mapFind c st.allTargetParents with
    | none => rw [hp] at h; cases h
    | some p =>
      rw [hp] at h
      simp only [ancestorAt] at h
      cases h
      exact Relation.TransGen.single hp
  | succ k ih =>
    intro c d h
    rw [ancestorAt] at h
    cases hp : mapFind c st.allTargetParents with
    | none => rw [hp] at h; cases h
    | some p =>
      rw [hp] at h
      dsimp only at h
      exact Relation.TransGen.head hp (ih p d h)

theorem ancestorAt_key (st : State) (k : Nat) (c d e : String)
    (h1 : ancestorAt st k c = some d) (h2 : ancestorAt st (k + 1) c = some e) :
    d ∈ st.allTargetParents.map Prod.fst := by
  rw [ancestorAt_add st k 1 c d h1, ancestorAt] at h2
  cases hp : mapFind d st.allTargetParents with
  | none => rw [hp] at h2; cases h2
  | some p => exact List.mem_map_of_mem Prod.fst (mapFind_mem hp)

/-- On a parent map without cycle the ancestor walk of `CheckParentHasFunction`
returns as soon as the fuel exceeds the number of recorded parents. -/
theorem CheckParentHasFunction_ends (st : State) (hac : Acyclic st) (fuel : Nat)
    (hfuel : st.allTargetParents.length + 1 ≤ fuel) (c f : String) :
    CheckParentHasFunction fuel st c f ≠ none := by
  intro hnone
  have hall := ancestorAt_of_none st f fuel c hnone
  let g : Nat → String := fun k => (ancestorAt st k c).getD ""
  have hg : ∀ k, k ≤ fuel → ancestorAt st k c = some (g k) := by
    intro k hk
    obtain ⟨d, hd⟩ := hall k hk
    simp [g, hd]
  have hcard : ((st.allTargetParents.map Prod.fst).toFinset).card <
      (Finset.range (st.allTargetParents.length + 1)).card := by
    rw [Finset.card_range]
    have := List.toFinset_card_le (st.allTargetParents.map Prod.fst)
    rw [List.length_map] at this
    omega
  have hmaps : ∀ k ∈ Finset.range (st.allTargetParents.length + 1),
      g k ∈ (st.allTargetParents.map Prod.fst).toFinset := by
    intro k hk
    rw [Finset.mem_range] at hk
    rw [List.mem_toFinset]
    exact ancestorAt_key st k c (g k) (g (k + 1)) (hg k (by omega)) (hg (k + 1) (by omega))
  obtain ⟨i, hi, j, hj, hne, heq⟩ := Finset.exists_ne_map_eq_of_card_lt_of_maps_to hcard hmaps
  rw [Finset.mem_range] at hi hj
  have key : ∀ a b, a < b → b ≤ fuel → g a = g b → False := by
    intro a b hab hb hgab
    have h1 := ancestorAt_add st a (b - a) c (g a) (hg a (by omega))
    have hba : a + (b - a) = b := by omega
    rw [hba, hg b hb] at h1
    obtain ⟨n, hn⟩ : ∃ n, b - a = n + 1 := ⟨b - a - 1, by omega⟩
    rw [hn] at h1
    have := transGen_of_ancestorAt st n (g a) (g b) h1.symm
    rw [← hgab] at this
    exact hac _ this
  rcases Nat.lt_or_gt_of_ne hne with h | h
  · exact key i j h (by omega) heq
  · exact key j i h (by omega) heq.symm

/-- A parent map whose classes carry a rank that decreases along every step
has no cycle. -/
theorem acyclic_of_rank (st : State) (rank : String → Nat)
    (h : ∀ a b, ParentStep st a b → rank b < rank a) : Acyclic st := by
  have hlt : ∀ a b, Relation.TransGen (ParentStep st) a b → rank b < rank a := by
    intro a b hab
    induction hab with
    | single h1 => exact h _ _ h1
    | tail _ h2 ih => exact lt_trans (h _ _ h2) ih
  intro c hc
  exact lt_irrefl _ (hlt c c hc)

/-! ## Sections of a class without parent and of its child -/

theorem eraseShiftChars_id :
    ∀ l : List Char, ¬ ['<', '<'] <:+: l → eraseShiftChars l = l
  | [], _ => rfl
  | [_], _ => rfl
  | c :: d :: rest, h => by
    rw [eraseShiftChars]
    split_ifs with hc
    · exfalso
      apply h
      obtain ⟨h1, h2⟩ := hc
      subst h1; subst h2
      exact ⟨[], rest, rfl⟩
    · rw [eraseShiftChars_id (d :: rest)
        (fun hi => h (hi.trans (List.suffix_cons c (d :: rest)).isInfix))]

theorem eraseShift_of_not_hasShift (name : String) (h : ¬ HasShift name) :
    eraseShift name = name := by
  unfold eraseShift
  rw [eraseShiftChars_id name.data h]

theorem mapFind_map_values {V W : Type} (f : String → V → W) (k : String) :
    ∀ m : List (String × V),
      mapFind k (m.map (fun p => (p.1, f p.1 p.2))) = (mapFind k m).map (f k)
  | [] => rfl
  | (k1, v1) :: rest => by
    simp only [List.map_cons, mapFind]
    split_ifs with hk
    · subst hk; rfl
    · exact mapFind_map_values f k rest

theorem CheckParentHasFunction_no_parent (fuel : Nat) (st : State) (c f : String)
    (hp : mapFind c st.allTargetParents = none) :
    CheckParentHasFunction (fuel + 1) st c f = some false := by
  rw [CheckParentHasFunction, hp]

theorem CheckParentHasFunction_child (fuel : Nat) (st : State) (A B f : String) (mA : SlotMap)
    (hA : mapFind A st.allTargetVtables = some mA)
    (hpA : mapFind A st.allTargetParents = none)
    (hpB : mapFind B st.allTargetParents = some A) :
    CheckParentHasFunction (fuel + 2) st B f = some (valueExists mA f) := by
  rw [CheckParentHasFunction, hpB]
  dsimp only
  rw [hA]
  dsimp only
  rw [CheckParentHasFunction_no_parent fuel st A f hpA]
  cases valueExists mA f <;> rfl

theorem numberedLines_nodup :
    ∀ (es : SlotMap) (seen : List String),
      (es.map Prod.snd).Nodup → (∀ e ∈ es, eraseShift e.2 = e.2) → (∀ e ∈ es, e.2 ∉ seen) →
      numberedLines seen es = es.map (fun e => (e.2, e.1))
  | [], _, _, _, _ => rfl
  | e :: rest, seen, hnd, hsh, hseen => by
    rw [List.map_cons, List.nodup_cons] at hnd
    rw [numberedLines, hsh e (List.mem_cons_self _ _)]
    have hcount : List.count e.2 seen = 0 :=
      List.count_eq_zero_of_not_mem (hseen e (List.mem_cons_self _ _))
    rw [hcount, numberedLines_nodup rest (e.2 :: seen) hnd.2
      (fun x hx => hsh x (List.mem_cons_of_mem _ hx))]
    · simp [printedName]
    · intro x hx hmem
      rcases List.mem_cons.1 hmem with h1 | h1
      · exact hnd.1 (h1 ▸ List.mem_map_of_mem Prod.snd hx)
      · exact hseen x (List.mem_cons_of_mem _ hx) h1

theorem linesOf_no_slot2 :
    ∀ fl : List (String × Nat), (∀ p ∈ fl, p.2 ≠ 2) →
      linesOf fl = fl.map (fun p => Line.func p.1 p.2)
  | [], _ => rfl
  | p :: rest, h => by
    rw [linesOf, if_neg (h p (List.mem_cons_self _ _)),
      linesOf_no_slot2 rest (fun q hq => h q (List.mem_cons_of_mem _ hq))]
    rfl

/-- Lines of a section whose emitted entries have distinct names without `<<` and
no slot 2: one line per emitted entry, unsuffixed. -/
theorem sectionLines_plain (fuel : Nat) (st : State) (c : String) (m es : SlotMap)
    (hem : emittedEntries fuel st c m = es)
    (hnd : (es.map Prod.snd).Nodup) (hsh : ∀ e ∈ es, ¬ HasShift e.2)
    (hs2 : ∀ e ∈ es, e.1 ≠ 2) :
    sectionLines fuel st c m = es.map (fun e => Line.func e.2 e.1) := by
  unfold sectionLines
  rw [hem, numberedLines_nodup es [] hnd
    (fun e he => eraseShift_of_not_hasShift e.2 (hsh e he)) (fun e _ => List.not_mem_nil _)]
  rw [linesOf_no_slot2]
  · rw [List.map_map]; rfl
  · intro p hp
    obtain ⟨e, he, rfl⟩ := List.mem_map.1 hp
    exact hs2 e he

/-- C1. Reconciliation of a class `A` without recorded parent and a class `B`
with recorded parent `A`, both with slot maps that use only slots other than 0
and 2 and pairwise distinct names without `<<`: the section of `A` is one
unsuffixed line per entry of its slot map, in slot-map order, and the section of
`B` is one such line per entry of its slot map whose name is not a value of the
slot map of `A`. Both section loops return (for any state of the stream flag),
and these are the sections found in the output of reconciliation. -/
theorem C1_sections_of_root_and_child (fuel : Nat) (st : State) (A B : String)
    (mA mB : SlotMap) (hfuel : 2 ≤ fuel)
    (hA : mapFind A st.allTargetVtables = some mA)
    (hB : mapFind B st.allTargetVtables = some mB)
    (hpA : mapFind A st.allTargetParents = none)
    (hpB : mapFind B st.allTargetParents = some A)
    (hsA : ∀ e ∈ mA, e.1 ≠ 0 ∧ e.1 ≠ 2) (hsB : ∀ e ∈ mB, e.1 ≠ 0 ∧ e.1 ≠ 2)
    (hnA : (mA.map Prod.snd).Nodup) (hnB : (mB.map Prod.snd).Nodup)
    (hcA : ∀ e ∈ mA, ¬ HasShift e.2) (hcB : ∀ e ∈ mB, ¬ HasShift e.2) :
    (∀ hex, ∃ hex1, reconcileLoop fuel st A mA [] hex =
      some (mA.map (fun e => Line.func e.2 e.1), hex1)) ∧
    (∀ hex, ∃ hex1, reconcileLoop fuel st B mB [] hex =
      some ((mB.filter (fun e => !valueExists mA e.2)).map (fun e => Line.func e.2 e.1),
        hex1)) ∧
    (∀ secs, reconcile fuel st = some secs →
      mapFind A secs = some (mA.map (fun e => Line.func e.2 e.1)) ∧
      mapFind B secs =
        some ((mB.filter (fun e => !valueExists mA e.2)).map (fun e => Line.func e.2 e.1))) := by
  obtain ⟨n, rfl⟩ : ∃ n, fuel = n + 2 := ⟨fuel - 2, by omega⟩
  have hcpA : ∀ f, CheckParentHasFunction (n + 2) st A f = some false :=
    fun f => CheckParentHasFunction_no_parent (n + 1) st A f hpA
  have hcpB : ∀ f, CheckParentHasFunction (n + 2) st B f = some (valueExists mA f) :=
    fun f => CheckParentHasFunction_child n st A B f mA hA hpA hpB
  have hwA : WalkEnds (n + 2) st A mA := fun e _ => by rw [hcpA]; exact Option.some_ne_none _
  have hwB : WalkEnds (n + 2) st B mB := fun e _ => by rw [hcpB]; exact Option.some_ne_none _
  have hemA : emittedEntries (n + 2) st A mA = mA := by
    unfold emittedEntries
    rw [List.filter_eq_self]
    intro e he
    simp [hcpA, (hsA e he).1]
  have hemB : emittedEntries (n + 2) st B mB = mB.filter (fun e => !valueExists mA e.2) := by
    unfold emittedEntries
    apply List.filter_congr
    intro e he
    rw [eraseShift_of_not_hasShift e.2 (hcB e he), hcpB]
    simp [(hsB e he).1]
  have hlA : sectionLines (n + 2) st A mA = mA.map (fun e => Line.func e.2 e.1) :=
    sectionLines_plain (n + 2) st A mA mA hemA hnA hcA (fun e he => (hsA e he).2)
  have hlB : sectionLines (n + 2) st B mB =
      (mB.filter (fun e => !valueExists mA e.2)).map (fun e => Line.func e.2 e.1) :=
    sectionLines_plain (n + 2) st B mB _ hemB
      (hnB.sublist ((List.filter_sublist _).map Prod.snd))
      (fun e he => hcB e (List.mem_of_mem_filter he))
      (fun e he => (hsB e (List.mem_of_mem_filter he)).2)
  refine ⟨?_, ?_, ?_⟩
  · intro hex
    refine ⟨hex || !(emittedEntries (n + 2) st A mA).isEmpty, ?_⟩
    rw [reconcileLoop_closed (n + 2) st A mA [] [] hex hwA CacheFor_nil (fun h0 => absurd rfl h0)]
    exact congrArg (fun x => some (x, _)) hlA
  · intro hex
    refine ⟨hex || !(emittedEntries (n + 2) st B mB).isEmpty, ?_⟩
    rw [reconcileLoop_closed (n + 2) st B mB [] [] hex hwB CacheFor_nil (fun h0 => absurd rfl h0)]
    exact congrArg (fun x => some (x, _)) hlB
  · intro secs hsecs
    have heq := reconcileClasses_eq (n + 2) st _ _ secs hsecs
    rw [heq, mapFind_map_values (fun c m => sectionLines (n + 2) st c m), hA,
      mapFind_map_values (fun c m => sectionLines (n + 2) st c m), hB]
    simp only [Option.map_some', hlA, hlB, and_self]

/-- C1, witness: the example of the claim. Class `A` with slot map `3: foo`
prints the single line `foo ####offset#### 0x3` and class `B` with slot map
`3: foo, 4: bar` and parent `A` prints the single line `bar ####offset#### 0x4`. -/
theorem C1_sections_of_root_and_child_witness :
    ((∀ hex, ∃ hex1, reconcileLoop 2 exampleAB "A" [(3, "foo")] [] hex =
      some ([Line.func "foo" 3], hex1)) ∧
    (∀ hex, ∃ hex1, reconcileLoop 2 exampleAB "B" [(3, "foo"), (4, "bar")] [] hex =
      some ([Line.func "bar" 4], hex1)) ∧
    (∀ secs, reconcile 2 exampleAB = some secs →
      mapFind "A" secs = some [Line.func "foo" 3] ∧
      mapFind "B" secs = some [Line.func "bar" 4])) ∧
    mainVtable 2 exampleAB =
      some ["Key: B, Value: A", "[A]", "foo ####offset#### 0x3", "",
        "[B]", "bar ####offset#### 0x4", ""] :=
  ⟨C1_sections_of_root_and_child 2 exampleAB "A" "B" [(3, "foo")] [(3, "foo"), (4, "bar")]
    (by decide) (by decide) (by decide) (by decide) (by decide) (by decide) (by decide)
    (by decide) (by decide) (by unfold HasShift; decide) (by unfold HasShift; decide),
    by decide⟩

/-! ## Text of the lines -/

theorem hexDigitValue_digitChar (k : Nat) (hk : k < 16) :
    hexDigitValue (Nat.digitChar k) = k := by
  interval_cases k <;> rfl

theorem foldl_toDigitsCore (fuel : Nat) :
    ∀ (n : Nat) (ds : List Char), n < fuel →
      (Nat.toDigitsCore 16 fuel n ds).foldl (fun acc c => 16 * acc + hexDigitValue c) 0 =
        ds.foldl (fun acc c => 16 * acc + hexDigitValue c) n := by
  induction fuel with
  | zero => intro n ds h; omega
  | succ fuel ih =>
    intro n ds h
    rw [Nat.toDigitsCore]
    split_ifs with h0
    · rw [List.foldl_cons, hexDigitValue_digitChar _ (Nat.mod_lt _ (by norm_num))]
      have hn : n < 16 := (Nat.div_eq_zero_iff (by norm_num : 0 < 16)).1 h0
      rw [Nat.mod_eq_of_lt hn]
      simp
    · have hlt : n / 16 < fuel := by
        have : n / 16 < n := Nat.div_lt_self (by omega) (by norm_num)
        omega
      rw [ih (n / 16) _ hlt, List.foldl_cons,
        hexDigitValue_digitChar _ (Nat.mod_lt _ (by norm_num)), Nat.div_add_mod]

theorem hexValue_toDigits (n : Nat) : hexValue (Nat.toDigits 16 n) = n := by
  unfold hexValue Nat.toDigits
  rw [foldl_toDigitsCore (n + 1) n [] (by omega)]
  rfl

/-- Different numbers are printed differently under `std::hex`. -/
theorem hexString_injective {a b : Nat} (h : hexString a = hexString b) : a = b := by
  unfold hexString at h
  have h1 : Nat.toDigits 16 a = Nat.toDigits 16 b := by
    injection h
  have := congrArg hexValue h1
  rwa [hexValue_toDigits, hexValue_toDigits] at this

/-- Up to 9 a number is printed the same in hexadecimal and in decimal. -/
theorem hexString_eq_decString (k : Nat) (hk : k ≤ 9) : hexString k = decString k := by
  interval_cases k <;> rfl

theorem digitChar_ne_x (k : Nat) (hk : k < 16) : Nat.digitChar k ≠ 'x' := by
  interval_cases k <;> decide

theorem mem_toDigitsCore (fuel : Nat) :
    ∀ (n : Nat) (ds : List Char) (c : Char), c ∈ Nat.toDigitsCore 16 fuel n ds →
      c ∈ ds ∨ c ≠ 'x' := by
  induction fuel with
  | zero => intro n ds c h; exact Or.inl h
  | succ fuel ih =>
    intro n ds c h
    rw [Nat.toDigitsCore] at h
    split_ifs at h with h0
    · rcases List.mem_cons.1 h with h1 | h1
      · exact Or.inr (h1 ▸ digitChar_ne_x _ (Nat.mod_lt _ (by norm_num)))
      · exact Or.inl h1
    · rcases ih _ _ c h with h1 | h1
      · rcases List.mem_cons.1 h1 with h2 | h2
        · exact Or.inr (h2 ▸ digitChar_ne_x _ (Nat.mod_lt _ (by norm_num)))
        · exact Or.inl h2
      · exact Or.inr h1

theorem toDigits_ne_x (n : Nat) : ∀ c ∈ Nat.toDigits 16 n, c ≠ 'x' := by
  intro c hc
  rcases mem_toDigitsCore _ _ _ c hc with h | h
  · simp at h
  · exact h

theorem split_at_marker (x : Char) :
    ∀ (L1 L2 B1 B2 : List Char), (∀ c ∈ L1, c ≠ x) → (∀ c ∈ L2, c ≠ x) →
      L1 ++ x :: B1 = L2 ++ x :: B2 → L1 = L2 ∧ B1 = B2
  | [], [], B1, B2, _, _, h => by
    simp only [List.nil_append, List.cons.injEq, true_and] at h
    exact ⟨rfl, h⟩
  | [], c :: L2, B1, B2, _, h2, h => by
    simp only [List.nil_append, List.cons_append, List.cons.injEq] at h
    exact absurd h.1.symm (h2 c (List.mem_cons_self _ _))
  | c :: L1, [], B1, B2, h1, _, h => by
    simp only [List.nil_append, List.cons_append, List.cons.injEq] at h
    exact absurd h.1 (h1 c (List.mem_cons_self _ _))
  | c :: L1, d :: L2, B1, B2, h1, h2, h => by
    simp only [List.cons_append, List.cons.injEq] at h
    obtain ⟨ih1, ih2⟩ := split_at_marker x L1 L2 B1 B2
      (fun a ha => h1 a (List.mem_cons_of_mem _ ha))
      (fun a ha => h2 a (List.mem_cons_of_mem _ ha)) h.2
    exact ⟨by rw [h.1, ih1], ih2⟩

/-- Two lines of slot-map entries with the same text report the same name and
the same slot. -/
theorem render_func_injective (n1 n2 : String) (s1 s2 : Nat)
    (h : (Line.func n1 s1).render = (Line.func n2 s2).render) : n1 = n2 ∧ s1 = s2 := by
  unfold Line.render at h
  have h1 := congrArg (fun t => t.data.reverse) h
  simp only [String.data_append, hexString, List.reverse_append] at h1
  have hS : " ####offset#### 0x".data.reverse =
      'x' :: ['0', ' ', '#', '#', '#', '#', 't', 'e', 's', 'f', 'f', 'o', '#', '#', '#', '#', ' ']
      := by decide
  rw [hS] at h1
  simp only [List.cons_append] at h1
  obtain ⟨h2, h3⟩ := split_at_marker 'x' _ _ _ _
    (fun c hc => toDigits_ne_x s1 c (List.mem_reverse.1 hc))
    (fun c hc => toDigits_ne_x s2 c (List.mem_reverse.1 hc)) h1
  have h4 : n1.data.reverse = n2.data.reverse := by
    simpa using h3
  refine ⟨String.ext (List.reverse_injective h4), ?_⟩
  apply hexString_injective
  unfold hexString
  rw [List.reverse_injective h2]

theorem render_vecDelDtor0 :
    Line.vecDelDtor0.render = (Line.func "__vecDelDtor" 0).render := by
  decide

theorem render_vecDelDtor1 :
    Line.vecDelDtor1.render = (Line.func "__vecDelDtor" 1).render := by
  decide

theorem count_map_render (lines : List Line) (l0 : Line)
    (h : ∀ l ∈ lines, l.render = l0.render → l = l0) :
    (lines.map Line.render).count l0.render = lines.count l0 := by
  induction lines with
  | nil => rfl
  | cons l rest ih =>
    rw [List.map_cons, List.count_cons, List.count_cons,
      ih (fun x hx => h x (List.mem_cons_of_mem _ hx))]
    by_cases hl : l = l0
    · subst hl; simp
    · have hr : ¬ l.render = l0.render := fun hr => hl (h l (List.mem_cons_self _ _) hr)
      simp [hl, hr]

/-! ## Shape of the closed form -/

theorem reconcile_eq (fuel : Nat) (st : State) (secs : List (String × List Line))
    (h : reconcile fuel st = some secs) :
    secs = st.allTargetVtables.map (fun p => (p.1, sectionLines fuel st p.1 p.2)) :=
  reconcileClasses_eq fuel st _ _ secs h

theorem reconcile_walkEnds (fuel : Nat) (st : State) (secs : List (String × List Line))
    (h : reconcile fuel st = some secs) :
    ∀ p ∈ st.allTargetVtables, WalkEnds fuel st p.1 p.2 :=
  reconcileClasses_walkEnds fuel st _ _ secs h

/-- Reconciliation returns on a parent map without cycle, given fuel beyond the
number of recorded parents. -/
theorem reconcile_some (fuel : Nat) (st : State) (hac : Acyclic st)
    (hfuel : st.allTargetParents.length + 1 ≤ fuel) :
    reconcile fuel st =
      some (st.allTargetVtables.map (fun p => (p.1, sectionLines fuel st p.1 p.2))) := by
  obtain ⟨secs, hs⟩ := reconcileClasses_total fuel st st.allTargetVtables false
    (fun p _ e _ => CheckParentHasFunction_ends st hac fuel hfuel p.1 (eraseShift e.2))
  have := reconcile_eq fuel st secs hs
  rw [← this]
  exact hs

theorem mem_emittedEntries {fuel : Nat} {st : State} {c : String} {m : SlotMap}
    {e : Nat × String} (h : e ∈ emittedEntries fuel st c m) :
    e ∈ m ∧ e.1 ≠ 0 ∧ CheckParentHasFunction fuel st c (eraseShift e.2) ≠ some true := by
  unfold emittedEntries at h
  rw [List.mem_filter] at h
  refine ⟨h.1, ?_, ?_⟩
  · intro h0
    simp [h0] at h
  · intro h0
    simp [h0] at h

theorem mem_numberedLines :
    ∀ (es : SlotMap) (seen : List String) (q : String × Nat),
      q ∈ numberedLines seen es →
      ∃ e ∈ es, ∃ k, q = (printedName (eraseShift e.2) k, e.1)
  | [], _, q, h => by simp [numberedLines] at h
  | e :: rest, seen, q, h => by
    rw [numberedLines] at h
    rcases List.mem_cons.1 h with h1 | h1
    · exact ⟨e, List.mem_cons_self _ _, _, h1⟩
    · obtain ⟨e2, he2, k, hk⟩ := mem_numberedLines rest _ q h1
      exact ⟨e2, List.mem_cons_of_mem _ he2, k, hk⟩

theorem numberedLines_slots :
    ∀ (es : SlotMap) (seen : List String),
      (numberedLines seen es).map Prod.snd = es.map Prod.fst
  | [], _ => rfl
  | e :: rest, seen => by
    rw [numberedLines, List.map_cons, List.map_cons, numberedLines_slots rest]

theorem mem_linesOf :
    ∀ (fl : List (String × Nat)) (l : Line), l ∈ linesOf fl →
      ((l = Line.vecDelDtor0 ∨ l = Line.vecDelDtor1) ∧ ∃ p ∈ fl, p.2 = 2) ∨
      ∃ p ∈ fl, l = Line.func p.1 p.2
  | [], l, h => by simp [linesOf] at h
  | p :: rest, l, h => by
    rw [linesOf] at h
    rcases List.mem_append.1 h with h1 | h1
    · left
      split_ifs at h1 with h2
      · refine ⟨?_, p, List.mem_cons_self _ _, h2⟩
        simpa using h1
      · simp at h1
    · rcases List.mem_cons.1 h1 with h2 | h2
      · exact Or.inr ⟨p, List.mem_cons_self _ _, h2⟩
      · rcases mem_linesOf rest l h2 with ⟨h3, q, hq, hq2⟩ | ⟨q, hq, hq2⟩
        · exact Or.inl ⟨h3, q, List.mem_cons_of_mem _ hq, hq2⟩
        · exact Or.inr ⟨q, List.mem_cons_of_mem _ hq, hq2⟩

theorem funcLines_append (a b : List Line) : funcLines (a ++ b) = funcLines a ++ funcLines b := by
  induction a with
  | nil => rfl
  | cons l rest ih =>
    cases l <;> simp [funcLines, ih]

theorem funcLines_linesOf : ∀ fl : List (String × Nat), funcLines (linesOf fl) = fl
  | [] => rfl
  | p :: rest => by
    rw [linesOf, funcLines_append]
    have h1 : funcLines (if p.2 = 2 then [Line.vecDelDtor0, Line.vecDelDtor1] else []) = [] := by
      split_ifs <;> rfl
    rw [h1, List.nil_append, funcLines, funcLines_linesOf rest]

/-- Every line of a section is one of the two literal lines, printed only when an
emitted entry sits at slot 2, or the line of an emitted entry, which reports the
slot of the entry and its post-strip name, possibly suffixed. -/
theorem mem_sectionLines {fuel : Nat} {st : State} {c : String} {m : SlotMap} {l : Line}
    (h : l ∈ sectionLines fuel st c m) :
    ((l = Line.vecDelDtor0 ∨ l = Line.vecDelDtor1) ∧
      ∃ e ∈ emittedEntries fuel st c m, e.1 = 2) ∨
    ∃ e ∈ emittedEntries fuel st c m, ∃ k, l = Line.func (printedName (eraseShift e.2) k) e.1 := by
  unfold sectionLines at h
  rcases mem_linesOf _ l h with ⟨h1, p, hp, hp2⟩ | ⟨p, hp, hp2⟩
  · obtain ⟨e, he, k, hk⟩ := mem_numberedLines _ _ p hp
    refine Or.inl ⟨h1, e, he, ?_⟩
    rw [hk] at hp2
    exact hp2
  · obtain ⟨e, he, k, hk⟩ := mem_numberedLines _ _ p hp
    refine Or.inr ⟨e, he, k, ?_⟩
    rw [hp2, hk]

theorem func_slot_ne_zero {fuel : Nat} {st : State} {c : String} {m : SlotMap}
    {name : String} {slot : Nat} (h : Line.func name slot ∈ sectionLines fuel st c m) :
    slot ≠ 0 := by
  rcases mem_sectionLines h with ⟨h1, _⟩ | ⟨e, he, k, hk⟩
  · rcases h1 with h1 | h1 <;> cases h1
  · cases hk
    exact (mem_emittedEntries he).2.1

/-- C2, as amended. No line printed for a slot-map entry reports offset 0, in any
class section and for any accumulated state: the slot of such a line is not 0
and the number printed after `0x` is not `0`. The only line of a section that
reports offset 0 is the literal line of line 421, which the loop prints in
front of an emitted entry at slot 2. -/
theorem C2_offset_zero_only_literal (fuel : Nat) (st : State)
    (secs : List (String × List Line)) (h : reconcile fuel st = some secs) :
    ∀ sec ∈ secs,
      (∀ name slot, Line.func name slot ∈ sec.2 → slot ≠ 0 ∧ hexString slot ≠ "0") ∧
      (∀ l ∈ sec.2, l.offset = 0 →
        l = Line.vecDelDtor0 ∧ ∃ m, (sec.1, m) ∈ st.allTargetVtables ∧ ∃ e ∈ m, e.1 = 2) := by
  intro sec hsec
  rw [reconcile_eq fuel st secs h] at hsec
  obtain ⟨p, hp, rfl⟩ := List.mem_map.1 hsec
  dsimp only
  constructor
  · intro name slot hl
    have h0 := func_slot_ne_zero hl
    refine ⟨h0, ?_⟩
    intro hs
    exact h0 (hexString_injective (a := slot) (b := 0) (by rw [hs]; decide))
  · intro l hl h0
    rcases mem_sectionLines hl with ⟨h1, e, he, he2⟩ | ⟨e, he, k, hk⟩
    · rcases h1 with h1 | h1
      · exact ⟨h1, p.2, hp, e, (mem_emittedEntries he).1, he2⟩
      · subst h1; cases h0
    · subst hk
      exact absurd h0 (mem_emittedEntries he).2.1

/-- C2, witness: the section of a class with functions at slots 1 and 2. -/
theorem C2_offset_zero_only_literal_witness :
    reconcile 1 exampleSlots12 =
      some [("UObject", [Line.func "f" 1, Line.vecDelDtor0, Line.vecDelDtor1,
        Line.func "~UObject" 2])] ∧
    ∀ sec ∈ [("UObject", [Line.func "f" 1, Line.vecDelDtor0, Line.vecDelDtor1,
        Line.func "~UObject" 2])],
      (∀ name slot, Line.func name slot ∈ sec.2 → slot ≠ 0 ∧ hexString slot ≠ "0") ∧
      (∀ l ∈ sec.2, l.offset = 0 →
        l = Line.vecDelDtor0 ∧
          ∃ m, (sec.1, m) ∈ exampleSlots12.allTargetVtables ∧ ∃ e ∈ m, e.1 = 2) :=
  ⟨by decide, C2_offset_zero_only_literal 1 exampleSlots12 _ (by decide)⟩

/-- C2, counterexample to the claim as stated: a class whose only virtual
function sits at slot 2 gets a section with a line that reports offset 0x0. -/
theorem C2_counterexample :
    reconcile 1 exampleSlot2 =
      some [("UObject", [Line.vecDelDtor0, Line.vecDelDtor1, Line.func "~UObject" 2])] ∧
    Line.vecDelDtor0.offset = 0 ∧
    mainVtable 1 exampleSlot2 =
      some ["[UObject]", "__vecDelDtor ####offset#### 0x0", "__vecDelDtor ####offset#### 0x1",
        "~UObject ####offset#### 0x2", ""] := by
  decide

/-! ## The literal pair of lines 421-422 -/

theorem count_vecDelDtor_linesOf :
    ∀ fl : List (String × Nat),
      (linesOf fl).count Line.vecDelDtor0 = (fl.map Prod.snd).count 2 ∧
      (linesOf fl).count Line.vecDelDtor1 = (fl.map Prod.snd).count 2
  | [] => by simp [linesOf]
  | p :: rest => by
    obtain ⟨ih0, ih1⟩ := count_vecDelDtor_linesOf rest
    rw [linesOf, List.count_append, List.count_append, List.count_cons, List.count_cons,
      ih0, ih1, List.map_cons, List.count_cons]
    by_cases h2 : p.2 = 2
    · simp [h2]; omega
    · simp [h2]

theorem count_vecDelDtor_sectionLines (fuel : Nat) (st : State) (c : String) (m : SlotMap) :
    (sectionLines fuel st c m).count Line.vecDelDtor0 =
      ((emittedEntries fuel st c m).map Prod.fst).count 2 ∧
    (sectionLines fuel st c m).count Line.vecDelDtor1 =
      ((emittedEntries fuel st c m).map Prod.fst).count 2 := by
  unfold sectionLines
  have h := count_vecDelDtor_linesOf (numberedLines [] (emittedEntries fuel st c m))
  rw [numberedLines_slots] at h
  exact h

theorem emittedEntries_keys_nodup (fuel : Nat) (st : State) (c : String) (m : SlotMap)
    (hs : SortedKeys m) : ((emittedEntries fuel st c m).map Prod.fst).Nodup := by
  have h1 : (m.map Prod.fst).Nodup := by
    unfold SortedKeys at hs
    exact hs.imp (fun hab => ne_of_lt hab)
  unfold emittedEntries
  exact h1.sublist ((List.filter_sublist _).map Prod.fst)

theorem mem_emittedEntries_of (fuel : Nat) (st : State) (c : String) (m : SlotMap)
    (e : Nat × String) (he : e ∈ m) (h0 : e.1 ≠ 0)
    (hcp : CheckParentHasFunction fuel st c (eraseShift e.2) ≠ some true) :
    e ∈ emittedEntries fuel st c m := by
  unfold emittedEntries
  rw [List.mem_filter]
  refine ⟨he, ?_⟩
  simp [hcp, h0]

theorem render_eq_vecDelDtor0 {fuel : Nat} {st : State} {c : String} {m : SlotMap}
    {l : Line} (h : l ∈ sectionLines fuel st c m)
    (hr : l.render = Line.vecDelDtor0.render) : l = Line.vecDelDtor0 := by
  cases l with
  | vecDelDtor0 => rfl
  | vecDelDtor1 => exact absurd hr (by decide)
  | func n s =>
    rw [render_vecDelDtor0] at hr
    exact absurd (render_func_injective _ _ _ _ hr).2 (func_slot_ne_zero h)

theorem render_eq_vecDelDtor1 {lines : List Line} {l : Line}
    (hno : Line.func "__vecDelDtor" 1 ∉ lines) (hl : l ∈ lines)
    (hr : l.render = Line.vecDelDtor1.render) : l = Line.vecDelDtor1 := by
  cases l with
  | vecDelDtor0 => exact absurd hr (by decide)
  | vecDelDtor1 => rfl
  | func n s =>
    rw [render_vecDelDtor1] at hr
    obtain ⟨h1, h2⟩ := render_func_injective _ _ _ _ hr
    subst h1; subst h2
    exact absurd hl hno

theorem dtor_pair_counts_one (fuel : Nat) (st : State) (c : String) (m : SlotMap)
    (h2 : ((emittedEntries fuel st c m).map Prod.fst).count 2 = 1) :
    (sectionLines fuel st c m).count Line.vecDelDtor0 = 1 ∧
    (sectionLines fuel st c m).count Line.vecDelDtor1 = 1 ∧
    ((sectionLines fuel st c m).map Line.render).count "__vecDelDtor ####offset#### 0x0" = 1 ∧
    (Line.func "__vecDelDtor" 1 ∉ sectionLines fuel st c m →
      ((sectionLines fuel st c m).map Line.render).count
        "__vecDelDtor ####offset#### 0x1" = 1) := by
  obtain ⟨hc0, hc1⟩ := count_vecDelDtor_sectionLines fuel st c m
  rw [h2] at hc0 hc1
  refine ⟨hc0, hc1, ?_, ?_⟩
  · have := count_map_render (sectionLines fuel st c m) Line.vecDelDtor0
      (fun l hl hr => render_eq_vecDelDtor0 hl hr)
    rw [hc0] at this
    exact this
  · intro hno
    have := count_map_render (sectionLines fuel st c m) Line.vecDelDtor1
      (fun l hl hr => render_eq_vecDelDtor1 hno hl hr)
    rw [hc1] at this
    exact this

theorem dtor_pair_counts_zero (fuel : Nat) (st : State) (c : String) (m : SlotMap)
    (h2 : (2 : Nat) ∉ (emittedEntries fuel st c m).map Prod.fst) :
    Line.vecDelDtor0 ∉ sectionLines fuel st c m ∧
    Line.vecDelDtor1 ∉ sectionLines fuel st c m ∧
    "__vecDelDtor ####offset#### 0x0" ∉ (sectionLines fuel st c m).map Line.render := by
  obtain ⟨hc0, hc1⟩ := count_vecDelDtor_sectionLines fuel st c m
  rw [List.count_eq_zero_of_not_mem h2] at hc0 hc1
  have h0 := List.count_eq_zero.1 hc0
  refine ⟨h0, List.count_eq_zero.1 hc1, ?_⟩
  intro hmem
  obtain ⟨l, hl, hr⟩ := List.mem_map.1 hmem
  have := render_eq_vecDelDtor0 hl hr
  rw [this] at hl
  exact h0 hl

/-- C3, as amended. On a well-formed state without parent cycle reconciliation
returns one section per class of the slot table. When the function at slot 2 of
the class is not suppressed as inherited, lines 421-422 print their two literal
lines exactly once each, the section contains the text
`__vecDelDtor ####offset#### 0x0` exactly once, and, unless the class prints an
own function named `__vecDelDtor` at slot 1, the text
`__vecDelDtor ####offset#### 0x1` exactly once. When the function at slot 2 is
suppressed as inherited, or the class has no slot 2, neither literal line is
printed. -/
theorem C3_dtor_pair_follows_slot2 (fuel : Nat) (st : State) (hwf : st.WF)
    (hac : Acyclic st) (hfuel : st.allTargetParents.length + 1 ≤ fuel) :
    ∃ secs, reconcile fuel st = some secs ∧
      List.Forall₂ (fun p sec => sec.1 = p.1 ∧
        (∀ e ∈ p.2, e.1 = 2 →
          CheckParentHasFunction fuel st p.1 (eraseShift e.2) = some false →
          sec.2.count Line.vecDelDtor0 = 1 ∧ sec.2.count Line.vecDelDtor1 = 1 ∧
          (sec.2.map Line.render).count "__vecDelDtor ####offset#### 0x0" = 1 ∧
          (Line.func "__vecDelDtor" 1 ∉ sec.2 →
            (sec.2.map Line.render).count "__vecDelDtor ####offset#### 0x1" = 1)) ∧
        (∀ e ∈ p.2, e.1 = 2 →
          CheckParentHasFunction fuel st p.1 (eraseShift e.2) = some true →
          Line.vecDelDtor0 ∉ sec.2 ∧ Line.vecDelDtor1 ∉ sec.2 ∧
          "__vecDelDtor ####offset#### 0x0" ∉ sec.2.map Line.render) ∧
        ((∀ e ∈ p.2, e.1 ≠ 2) →
          Line.vecDelDtor0 ∉ sec.2 ∧ Line.vecDelDtor1 ∉ sec.2 ∧
          "__vecDelDtor ####offset#### 0x0" ∉ sec.2.map Line.render))
        st.allTargetVtables secs := by
  refine ⟨_, reconcile_some fuel st hac hfuel, ?_⟩
  rw [List.forall₂_map_right_iff, List.forall₂_same]
  intro p hp
  have hnd := emittedEntries_keys_nodup fuel st p.1 p.2 (hwf.slots_sorted p hp)
  have hsorted := hwf.slots_sorted p hp
  refine ⟨rfl, ?_, ?_, ?_⟩
  · intro e he h2 hcp
    have hem : e ∈ emittedEntries fuel st p.1 p.2 :=
      mem_emittedEntries_of fuel st p.1 p.2 e he (by omega) (by rw [hcp]; simp)
    have hmem : (2 : Nat) ∈ (emittedEntries fuel st p.1 p.2).map Prod.fst :=
      h2 ▸ List.mem_map_of_mem Prod.fst hem
    exact dtor_pair_counts_one fuel st p.1 p.2 (List.count_eq_one_of_mem hnd hmem)
  · intro e he h2 hcp
    apply dtor_pair_counts_zero
    intro hmem
    obtain ⟨e2, he2, h22⟩ := List.mem_map.1 hmem
    obtain ⟨hm2, _, hcp2⟩ := mem_emittedEntries he2
    have heq : e2 = e := by
      unfold SortedKeys at hsorted
      have hinj := List.inj_on_of_nodup_map (hsorted.imp (fun hab => ne_of_lt hab))
      exact hinj hm2 he (h22.trans h2.symm)
    rw [heq] at hcp2
    exact hcp2 hcp
  · intro hno
    apply dtor_pair_counts_zero
    intro hmem
    obtain ⟨e2, he2, h22⟩ := List.mem_map.1 hmem
    exact hno e2 (mem_emittedEntries he2).1 h22

/-- A parent map whose pairs all descend in a rank has no cycle. -/
theorem acyclic_of_rank_pairs (st : State) (rank : String → Nat)
    (h : ∀ p ∈ st.allTargetParents, rank p.2 < rank p.1) : Acyclic st :=
  acyclic_of_rank st rank (fun a b hab => h (a, b) (mapFind_mem hab))

theorem exampleTwoDtors_wf : exampleTwoDtors.WF :=
  ⟨by decide, by decide, by decide, by decide, by decide, by decide⟩

theorem exampleTwoDtors_acyclic : Acyclic exampleTwoDtors :=
  acyclic_of_rank_pairs _ (fun c => if c = "UObject" then 1 else 0) (by decide)

/-- C3, witness: a class and its parent, each with an own destructor at slot 2. -/
theorem C3_dtor_pair_follows_slot2_witness :
    ∃ secs, reconcile 2 exampleTwoDtors = some secs ∧
      List.Forall₂ (fun p sec => sec.1 = p.1 ∧
        (∀ e ∈ p.2, e.1 = 2 →
          CheckParentHasFunction 2 exampleTwoDtors p.1 (eraseShift e.2) = some false →
          sec.2.count Line.vecDelDtor0 = 1 ∧ sec.2.count Line.vecDelDtor1 = 1 ∧
          (sec.2.map Line.render).count "__vecDelDtor ####offset#### 0x0" = 1 ∧
          (Line.func "__vecDelDtor" 1 ∉ sec.2 →
            (sec.2.map Line.render).count "__vecDelDtor ####offset#### 0x1" = 1)) ∧
        (∀ e ∈ p.2, e.1 = 2 →
          CheckParentHasFunction 2 exampleTwoDtors p.1 (eraseShift e.2) = some true →
          Line.vecDelDtor0 ∉ sec.2 ∧ Line.vecDelDtor1 ∉ sec.2 ∧
          "__vecDelDtor ####offset#### 0x0" ∉ sec.2.map Line.render) ∧
        ((∀ e ∈ p.2, e.1 ≠ 2) →
          Line.vecDelDtor0 ∉ sec.2 ∧ Line.vecDelDtor1 ∉ sec.2 ∧
          "__vecDelDtor ####offset#### 0x0" ∉ sec.2.map Line.render))
        exampleTwoDtors.allTargetVtables secs :=
  C3_dtor_pair_follows_slot2 2 exampleTwoDtors exampleTwoDtors_wf exampleTwoDtors_acyclic
    (by decide)

/-- C3, counterexample to the claim as stated: the slot map of `UObject` contains
slot 2, its function is suppressed as inherited, and the section of `UObject`
contains neither of the two `__vecDelDtor` lines. -/
theorem C3_counterexample :
    mapFind "UObject" exampleInheritedSlot2.allTargetVtables = some [(2, "f")] ∧
    reconcile 2 exampleInheritedSlot2 =
      some [("UObject", []),
        ("UObjectBase", [Line.vecDelDtor0, Line.vecDelDtor1, Line.func "f" 2])] ∧
    mainVtable 2 exampleInheritedSlot2 =
      some ["Key: UObject, Value: UObjectBase", "[UObject]", "",
        "[UObjectBase]", "__vecDelDtor ####offset#### 0x0", "__vecDelDtor ####offset#### 0x1",
        "f ####offset#### 0x2", ""] := by
  decide

/-! ## Inherited names -/

theorem CheckParentHasFunction_of_parent_has (fuel : Nat) (st : State) (A B f : String)
    (mA : SlotMap) (hB : mapFind B st.allTargetParents = some A)
    (hA : mapFind A st.allTargetVtables = some mA) (hf : valueExists mA f = true) :
    CheckParentHasFunction (fuel + 1) st B f = some true := by
  rw [CheckParentHasFunction, hB]
  dsimp only
  rw [hA]
  dsimp only
  rw [if_pos hf]

/-- C5, as amended. If the parent recorded for `B` is `A` and the slot map of `A`
holds the name `f` at some slot, then no entry of `B` whose post-strip name is
`f` is printed, at any slot: every line of the section of `B` is one of the two
literal `__vecDelDtor` lines or the line of an entry of the slot map of `B`
whose post-strip name differs from `f`, printed with that name or with that name
and a suffix. -/
theorem C5_inherited_name_not_printed (fuel : Nat) (st : State)
    (secs : List (String × List Line)) (h : reconcile fuel st = some secs)
    (A B f : String) (mA : SlotMap)
    (hB : mapFind B st.allTargetParents = some A)
    (hA : mapFind A st.allTargetVtables = some mA)
    (hf : valueExists mA f = true) :
    ∀ sec ∈ secs, sec.1 = B → ∀ l ∈ sec.2,
      l = Line.vecDelDtor0 ∨ l = Line.vecDelDtor1 ∨
      ∃ m e, (B, m) ∈ st.allTargetVtables ∧ e ∈ m ∧ eraseShift e.2 ≠ f ∧
        (l = Line.func (eraseShift e.2) e.1 ∨
          ∃ k, l = Line.func (eraseShift e.2 ++ "_" ++ hexString k) e.1) := by
  intro sec hsec hname l hl
  have hw := reconcile_walkEnds fuel st secs h
  rw [reconcile_eq fuel st secs h] at hsec
  obtain ⟨p, hp, rfl⟩ := List.mem_map.1 hsec
  dsimp only at hname hl
  rcases mem_sectionLines hl with ⟨h1, _⟩ | ⟨e, he, k, hk⟩
  · rcases h1 with h1 | h1
    · exact Or.inl h1
    · exact Or.inr (Or.inl h1)
  · right; right
    obtain ⟨hem, _, hcp⟩ := mem_emittedEntries he
    refine ⟨p.2, e, ?_, hem, ?_, ?_⟩
    · rw [← hname]; exact hp
    · intro hef
      have hne := hw p hp e hem
      cases fuel with
      | zero => exact hne rfl
      | succ n =>
        rw [hname, hef] at hcp
        exact hcp (CheckParentHasFunction_of_parent_has n st A B f mA hB hA hf)
    · rw [hk]
      unfold printedName
      split_ifs
      · exact Or.inl rfl
      · exact Or.inr ⟨_, rfl⟩

/-- C5, witness: `B` with parent `A`, both holding `foo`. -/
theorem C5_inherited_name_not_printed_witness :
    (reconcile 2 exampleAB = some [("A", [Line.func "foo" 3]), ("B", [Line.func "bar" 4])] ∧
      mapFind "B" exampleAB.allTargetParents = some "A" ∧
      mapFind "A" exampleAB.allTargetVtables = some [(3, "foo")] ∧
      valueExists [(3, "foo")] "foo" = true) ∧
    ∀ sec ∈ [("A", [Line.func "foo" 3]), ("B", [Line.func "bar" 4])], sec.1 = "B" →
      ∀ l ∈ sec.2,
      l = Line.vecDelDtor0 ∨ l = Line.vecDelDtor1 ∨
      ∃ m e, ("B", m) ∈ exampleAB.allTargetVtables ∧ e ∈ m ∧ eraseShift e.2 ≠ "foo" ∧
        (l = Line.func (eraseShift e.2) e.1 ∨
          ∃ k, l = Line.func (eraseShift e.2 ++ "_" ++ hexString k) e.1) :=
  ⟨by decide, C5_inherited_name_not_printed 2 exampleAB _ (by decide) "A" "B" "foo" [(3, "foo")]
    (by decide) (by decide) (by decide)⟩

/-- C5, counterexample to the claim as stated: the parent recorded for `UObject`
is `UObjectBase`, the section of `UObjectBase` contains lines that report the
name `__vecDelDtor`, and so does the section of `UObject`. -/
theorem C5_counterexample :
    mapFind "UObject" exampleTwoDtors.allTargetParents = some "UObjectBase" ∧
    reconcile 2 exampleTwoDtors =
      some [("UObject", [Line.vecDelDtor0, Line.vecDelDtor1, Line.func "~UObject" 2]),
        ("UObjectBase", [Line.vecDelDtor0, Line.vecDelDtor1, Line.func "~UObjectBase" 2])] ∧
    Line.vecDelDtor0.name = "__vecDelDtor" ∧
    mainVtable 2 exampleTwoDtors =
      some ["Key: UObject, Value: UObjectBase",
        "[UObject]", "__vecDelDtor ####offset#### 0x0", "__vecDelDtor ####offset#### 0x1",
        "~UObject ####offset#### 0x2", "",
        "[UObjectBase]", "__vecDelDtor ####offset#### 0x0", "__vecDelDtor ####offset#### 0x1",
        "~UObjectBase ####offset#### 0x2", ""] := by
  decide

/-! ## Section headers -/

theorem header_mem_render (secs : List (String × List Line)) (sec : String × List Line)
    (h : sec ∈ secs) : ("[" ++ sec.1 ++ "]") ∈ (secs.map renderSection).flatten := by
  rw [List.mem_flatten]
  exact ⟨renderSection sec, List.mem_map_of_mem _ h, List.mem_cons_self _ _⟩

/-- C7, as amended. On a state without parent cycle reconciliation returns, and
a header line is printed for every class that has a slot map, in the order of
the slot table, whether or not any slot of the class survives. -/
theorem C7_header_for_every_class (fuel : Nat) (st : State) (hac : Acyclic st)
    (hfuel : st.allTargetParents.length + 1 ≤ fuel) :
    ∃ secs, reconcile fuel st = some secs ∧
      secs.map Prod.fst = st.allTargetVtables.map Prod.fst ∧
      ∀ p ∈ st.allTargetVtables, ("[" ++ p.1 ++ "]") ∈ (secs.map renderSection).flatten := by
  refine ⟨_, reconcile_some fuel st hac hfuel, ?_, ?_⟩
  · rw [List.map_map]; rfl
  · intro p hp
    exact header_mem_render _ (p.1, sectionLines fuel st p.1 p.2)
      (List.mem_map_of_mem (fun p => (p.1, sectionLines fuel st p.1 p.2)) hp)

theorem exampleSlot0_acyclic : Acyclic exampleSlot0 :=
  acyclic_of_rank_pairs _ (fun _ => 0) (by decide)

/-- C7, witness: a class whose only slot is slot 0. -/
theorem C7_header_for_every_class_witness :
    ∃ secs, reconcile 1 exampleSlot0 = some secs ∧
      secs.map Prod.fst = exampleSlot0.allTargetVtables.map Prod.fst ∧
      ∀ p ∈ exampleSlot0.allTargetVtables,
        ("[" ++ p.1 ++ "]") ∈ (secs.map renderSection).flatten :=
  C7_header_for_every_class 1 exampleSlot0 exampleSlot0_acyclic (by decide)

/-- C7, counterexample to the claim as stated: the only slot of `UObject` is
suppressed, no line is printed for the class, and its header is printed. -/
theorem C7_counterexample :
    reconcile 1 exampleSlot0 = some [("UObject", [])] ∧
    mainVtable 1 exampleSlot0 = some ["[UObject]", ""] := by
  decide

/-! ## Order of the output -/

theorem func_mem_linesOf :
    ∀ (fl : List (String × Nat)) (p : String × Nat), p ∈ fl → Line.func p.1 p.2 ∈ linesOf fl
  | [], p, h => by simp at h
  | q :: rest, p, h => by
    rw [linesOf]
    apply List.mem_append_right
    rcases List.mem_cons.1 h with h1 | h1
    · rw [h1]; exact List.mem_cons_self _ _
    · exact List.mem_cons_of_mem _ (func_mem_linesOf rest p h1)

theorem linesOf_append (a b : List (String × Nat)) :
    linesOf (a ++ b) = linesOf a ++ linesOf b := by
  induction a with
  | nil => rfl
  | cons p rest ih => simp [linesOf, ih]

theorem offsets_linesOf_sorted :
    ∀ fl : List (String × Nat), (fl.map Prod.snd).Pairwise (· < ·) → (∀ p ∈ fl, 2 ≤ p.2) →
      ((linesOf fl).map Line.offset).Pairwise (· < ·)
  | [], _, _ => by simp [linesOf]
  | p :: rest, hs, hge => by
    rw [List.map_cons, List.pairwise_cons] at hs
    have ih := offsets_linesOf_sorted rest hs.2 (fun q hq => hge q (List.mem_cons_of_mem _ hq))
    have hp := hge p (List.mem_cons_self _ _)
    have hrest : ∀ o ∈ (linesOf rest).map Line.offset, p.2 < o := by
      intro o ho
      obtain ⟨l, hl, rfl⟩ := List.mem_map.1 ho
      rcases mem_linesOf rest l hl with ⟨_, q, hq, hq2⟩ | ⟨q, hq, hq2⟩
      · have := hs.1 q.2 (List.mem_map_of_mem Prod.snd hq)
        omega
      · rw [hq2]
        exact hs.1 q.2 (List.mem_map_of_mem Prod.snd hq)
    rw [linesOf, List.map_append, List.map_cons, List.pairwise_append]
    refine ⟨?_, ?_, ?_⟩
    · split_ifs
      · simp [Line.offset]
      · simp
    · rw [List.pairwise_cons]
      exact ⟨hrest, ih⟩
    · intro a ha b hb
      have ha2 : a < 2 := by
        split_ifs at ha
        · simp [Line.offset] at ha
          omega
        · simp at ha
      rcases List.mem_cons.1 hb with h1 | h1
      · rw [h1, Line.offset]; omega
      · have := hrest b h1
        omega

theorem linesOf_split :
    ∀ fl : List (String × Nat), (fl.map Prod.snd).Nodup →
      (∀ l ∈ linesOf fl, ∃ n s, l = Line.func n s) ∨
      ∃ pre name post,
        linesOf fl = pre ++ [Line.vecDelDtor0, Line.vecDelDtor1, Line.func name 2] ++ post ∧
        ∀ l ∈ pre ++ post, ∃ n s, l = Line.func n s := by
  intro fl hnd
  by_cases h2 : ∃ p ∈ fl, p.2 = 2
  · right
    obtain ⟨p, hp, hp2⟩ := h2
    obtain ⟨a, b, rfl⟩ := List.append_of_mem hp
    rw [List.map_append, List.map_cons, List.nodup_append] at hnd
    obtain ⟨_, hnb, hdis⟩ := hnd
    rw [List.nodup_cons] at hnb
    have ha : ∀ q ∈ a, q.2 ≠ 2 := by
      intro q hq h
      exact hdis (List.mem_map_of_mem Prod.snd hq) (by rw [h, ← hp2]; exact List.mem_cons_self _ _)
    have hb : ∀ q ∈ b, q.2 ≠ 2 := by
      intro q hq h
      exact hnb.1 (by rw [hp2, ← h]; exact List.mem_map_of_mem Prod.snd hq)
    refine ⟨linesOf a, p.1, linesOf b, ?_, ?_⟩
    · rw [linesOf_append, linesOf, if_pos hp2, hp2]
      simp
    · intro l hl
      rw [linesOf_no_slot2 a ha, linesOf_no_slot2 b hb, ← List.map_append] at hl
      obtain ⟨q, _, rfl⟩ := List.mem_map.1 hl
      exact ⟨_, _, rfl⟩
  · left
    intro l hl
    rw [linesOf_no_slot2 fl (fun q hq h => h2 ⟨q, hq, h⟩)] at hl
    obtain ⟨q, _, rfl⟩ := List.mem_map.1 hl
    exact ⟨_, _, rfl⟩

theorem funcLines_sectionLines (fuel : Nat) (st : State) (c : String) (m : SlotMap) :
    funcLines (sectionLines fuel st c m) = numberedLines [] (emittedEntries fuel st c m) := by
  unfold sectionLines
  rw [funcLines_linesOf]

theorem emittedEntries_keys_sorted (fuel : Nat) (st : State) (c : String) (m : SlotMap)
    (hs : SortedKeys m) :
    ((emittedEntries fuel st c m).map Prod.fst).Pairwise (· < ·) := by
  unfold SortedKeys at hs
  unfold emittedEntries
  exact hs.sublist ((List.filter_sublist _).map Prod.fst)

/-- C8, as amended. For every well-formed accumulated state: within the section
of a class the lines of slot-map entries appear in strictly ascending order of
slot; the section either has no literal line or consists of lines of entries,
the two literal lines 0x0 and 0x1, the line of slot 2, and further lines of
entries, in this order; a section that prints no line for slot 1 has all its
lines, literal ones included, in strictly ascending order of reported offset;
and the class sections appear in strictly ascending order of class name. -/
theorem C8_output_order (fuel : Nat) (st : State) (hwf : st.WF)
    (secs : List (String × List Line)) (h : reconcile fuel st = some secs) :
    (∀ sec ∈ secs, ((funcLines sec.2).map Prod.snd).Pairwise (· < ·)) ∧
    (∀ sec ∈ secs,
      (∀ l ∈ sec.2, ∃ n s, l = Line.func n s) ∨
      ∃ pre name post,
        sec.2 = pre ++ [Line.vecDelDtor0, Line.vecDelDtor1, Line.func name 2] ++ post ∧
        ∀ l ∈ pre ++ post, ∃ n s, l = Line.func n s) ∧
    (∀ sec ∈ secs, (∀ name, Line.func name 1 ∉ sec.2) →
      (sec.2.map Line.offset).Pairwise (· < ·)) ∧
    (secs.map Prod.fst).Pairwise (· < ·) := by
  have heq := reconcile_eq fuel st secs h
  subst heq
  refine ⟨?_, ?_, ?_, ?_⟩
  · intro sec hsec
    obtain ⟨p, hp, rfl⟩ := List.mem_map.1 hsec
    dsimp only
    rw [funcLines_sectionLines, numberedLines_slots]
    exact emittedEntries_keys_sorted fuel st p.1 p.2 (hwf.slots_sorted p hp)
  · intro sec hsec
    obtain ⟨p, hp, rfl⟩ := List.mem_map.1 hsec
    dsimp only
    unfold sectionLines
    apply linesOf_split
    rw [numberedLines_slots]
    exact emittedEntries_keys_nodup fuel st p.1 p.2 (hwf.slots_sorted p hp)
  · intro sec hsec hno1
    obtain ⟨p, hp, rfl⟩ := List.mem_map.1 hsec
    dsimp only at hno1 ⊢
    unfold sectionLines at hno1 ⊢
    apply offsets_linesOf_sorted
    · rw [numberedLines_slots]
      exact emittedEntries_keys_sorted fuel st p.1 p.2 (hwf.slots_sorted p hp)
    · intro q hq
      have hmem := func_mem_linesOf _ q hq
      have h1 : q.2 ≠ 1 := fun h1 => hno1 q.1 (h1 ▸ hmem)
      obtain ⟨e, he, k, hk⟩ := mem_numberedLines _ _ q hq
      have h0 : q.2 ≠ 0 := by
        rw [hk]; exact (mem_emittedEntries he).2.1
      omega
  · rw [List.map_map]
    exact hwf.vtables_sorted

theorem exampleSlots12_wf : exampleSlots12.WF :=
  ⟨by decide, by decide, by decide, by decide, by decide, by decide⟩

/-- C8, witness: the sections of a class with functions at slots 1 and 2. -/
theorem C8_output_order_witness :
    (∀ sec ∈ [("UObject", [Line.func "f" 1, Line.vecDelDtor0, Line.vecDelDtor1,
        Line.func "~UObject" 2])], ((funcLines sec.2).map Prod.snd).Pairwise (· < ·)) ∧
    (∀ sec ∈ [("UObject", [Line.func "f" 1, Line.vecDelDtor0, Line.vecDelDtor1,
        Line.func "~UObject" 2])],
      (∀ l ∈ sec.2, ∃ n s, l = Line.func n s) ∨
      ∃ pre name post,
        sec.2 = pre ++ [Line.vecDelDtor0, Line.vecDelDtor1, Line.func name 2] ++ post ∧
        ∀ l ∈ pre ++ post, ∃ n s, l = Line.func n s) ∧
    (∀ sec ∈ [("UObject", [Line.func "f" 1, Line.vecDelDtor0, Line.vecDelDtor1,
        Line.func "~UObject" 2])], (∀ name, Line.func name 1 ∉ sec.2) →
      (sec.2.map Line.offset).Pairwise (· < ·)) ∧
    ([("UObject", [Line.func "f" 1, Line.vecDelDtor0, Line.vecDelDtor1,
        Line.func "~UObject" 2])].map Prod.fst).Pairwise (· < ·) :=
  C8_output_order 1 exampleSlots12 exampleSlots12_wf _ (by decide)

/-- C8, counterexample to the claim as stated: with functions at slots 1 and 2
the section reports the offsets 1, 0, 1, 2 in this order. -/
theorem C8_counterexample :
    reconcile 1 exampleSlots12 =
      some [("UObject", [Line.func "f" 1, Line.vecDelDtor0, Line.vecDelDtor1,
        Line.func "~UObject" 2])] ∧
    [Line.func "f" 1, Line.vecDelDtor0, Line.vecDelDtor1, Line.func "~UObject" 2].map
      Line.offset = [1, 0, 1, 2] ∧
    ¬ ([1, 0, 1, 2] : List Nat).Pairwise (· ≤ ·) ∧
    mainVtable 1 exampleSlots12 =
      some ["[UObject]", "f ####offset#### 0x1", "__vecDelDtor ####offset#### 0x0",
        "__vecDelDtor ####offset#### 0x1", "~UObject ####offset#### 0x2", ""] := by
  decide

/-! ## Printed numbers and strings -/

theorem string_append_ne_self (n x : String) (hx : x.data ≠ []) : n ++ x ≠ n := by
  intro h
  have h1 := congrArg String.data h
  rw [String.data_append] at h1
  exact hx (by simpa using h1)

theorem string_append_left_cancel (n x y : String) (h : n ++ x = n ++ y) : x = y := by
  have h1 := congrArg String.data h
  rw [String.data_append, String.data_append] at h1
  exact String.ext (List.append_cancel_left h1)

theorem printedName_injective (n : String) (k1 k2 : Nat) (h1 : k1 < 4294967296)
    (h2 : k2 < 4294967296) (h : printedName n k1 = printedName n k2) : k1 = k2 := by
  unfold printedName at h
  rw [Nat.mod_eq_of_lt h1, Nat.mod_eq_of_lt h2] at h
  have hne : ∀ k, ("_" ++ hexString k).data ≠ [] := by
    intro k
    rw [String.data_append]
    simp
  split_ifs at h with h3 h4 h4
  · rw [h3, h4]
  · rw [String.append_assoc] at h
    exact absurd h.symm (string_append_ne_self _ _ (hne k2))
  · rw [String.append_assoc] at h
    exact absurd h (string_append_ne_self _ _ (hne k1))
  · rw [String.append_assoc, String.append_assoc] at h
    have := string_append_left_cancel _ _ _ (string_append_left_cancel _ _ _ h)
    exact hexString_injective this

/-! ## Numbering of repeated names -/

theorem numberedLines_length :
    ∀ (es : SlotMap) (seen : List String), (numberedLines seen es).length = es.length
  | [], _ => rfl
  | e :: rest, seen => by
    rw [numberedLines, List.length_cons, List.length_cons, numberedLines_length rest]

theorem numberedLines_getElem :
    ∀ (es : SlotMap) (seen : List String) (i : Nat) (e : Nat × String), es[i]? = some e →
      (numberedLines seen es)[i]? =
        some (printedName (eraseShift e.2)
          (seen.count (eraseShift e.2) +
            ((es.take i).map (fun x => eraseShift x.2)).count (eraseShift e.2)), e.1)
  | [], _, i, e, h => by simp at h
  | x :: rest, seen, 0, e, h => by
    simp only [List.getElem?_cons_zero, Option.some.injEq] at h
    subst h
    simp [numberedLines]
  | x :: rest, seen, i + 1, e, h => by
    simp only [List.getElem?_cons_succ] at h
    rw [numberedLines, List.getElem?_cons_succ, numberedLines_getElem rest _ i e h]
    simp only [List.take_succ_cons, List.map_cons, List.count_cons]
    congr 3
    omega

theorem slotMap_length_le (m : SlotMap) (hs : SortedKeys m) (hlt : ∀ e ∈ m, e.1 < 65536) :
    m.length ≤ 65536 := by
  have hnd : (m.map Prod.fst).Nodup := by
    unfold SortedKeys at hs
    exact hs.imp (fun hab => ne_of_lt hab)
  have hsub : m.map Prod.fst ⊆ List.range 65536 := by
    intro k hk
    obtain ⟨e, he, rfl⟩ := List.mem_map.1 hk
    exact List.mem_range.2 (hlt e he)
  have := (List.subperm_of_subset hnd hsub).length_le
  simpa using this

theorem count_take_le (l : List String) (i : Nat) (a : String) : (l.take i).count a ≤ i := by
  calc (l.take i).count a ≤ (l.take i).length := List.count_le_length _ _
    _ ≤ i := by rw [List.length_take]; omega

theorem count_take_lt (es : SlotMap) (i j : Nat) (e : Nat × String) (hij : i < j)
    (hi : es[i]? = some e) :
    ((es.take i).map (fun x => eraseShift x.2)).count (eraseShift e.2) <
      ((es.take j).map (fun x => eraseShift x.2)).count (eraseShift e.2) := by
  have h1 : es.take (i + 1) = es.take i ++ [e] := by
    rw [List.take_succ, hi]; rfl
  have h2 : (es.take (i + 1)).Sublist (es.take j) := by
    have : es.take (i + 1) = (es.take j).take (i + 1) := by
      rw [List.take_take, Nat.min_eq_left (by omega)]
    rw [this]
    exact List.take_sublist _ _
  have h3 := (h2.map (fun x => eraseShift x.2)).count_le (eraseShift e.2)
  rw [h1, List.map_append, List.count_append] at h3
  simp only [List.map_cons, List.map_nil, List.count_cons_self, List.count_nil] at h3
  omega

/-- The lines of slot-map entries in a section: the entry at position `i` among
the emitted entries is printed with its slot and with its post-strip name,
suffixed by the number of earlier emitted entries with that name when there are
any. The number is printed in hexadecimal. -/
theorem funcLines_getElem (fuel : Nat) (st : State) (c : String) (m : SlotMap)
    (hs : SortedKeys m) (hlt : ∀ e ∈ m, e.1 < 65536) (i : Nat) (e : Nat × String)
    (hi : (emittedEntries fuel st c m)[i]? = some e) :
    (funcLines (sectionLines fuel st c m))[i]? =
      some (if (((emittedEntries fuel st c m).take i).map
            (fun x => eraseShift x.2)).count (eraseShift e.2) = 0
          then eraseShift e.2
          else eraseShift e.2 ++ "_" ++ hexString
            ((((emittedEntries fuel st c m).take i).map
              (fun x => eraseShift x.2)).count (eraseShift e.2)), e.1) := by
  rw [funcLines_sectionLines, numberedLines_getElem _ [] i e hi]
  have hk : (((emittedEntries fuel st c m).take i).map
      (fun x => eraseShift x.2)).count (eraseShift e.2) < 4294967296 := by
    have h1 := count_take_le ((emittedEntries fuel st c m).map (fun x => eraseShift x.2)) i
      (eraseShift e.2)
    rw [← List.map_take] at h1
    have h2 : i < (emittedEntries fuel st c m).length := by
      obtain ⟨h, _⟩ := List.getElem?_eq_some.1 hi
      exact h
    have h3 : (emittedEntries fuel st c m).length ≤ m.length := by
      unfold emittedEntries
      exact List.length_filter_le _ _
    have h4 := slotMap_length_le m hs hlt
    omega
  simp only [List.count_nil, Nat.zero_add, printedName, Nat.mod_eq_of_lt hk]

theorem funcLines_length (fuel : Nat) (st : State) (c : String) (m : SlotMap) :
    (funcLines (sectionLines fuel st c m)).length = (emittedEntries fuel st c m).length := by
  rw [funcLines_sectionLines, numberedLines_length]

/-- C4, as amended. On a well-formed state without parent cycle reconciliation
returns one section per class of the slot table. Among the entries of a class
that are emitted (slot other than 0, name not found in an ancestor slot map),
taken by ascending slot, an entry that is the first with its post-strip name is
shown unsuffixed, and an entry preceded by `k` emitted entries with the same
post-strip name, `k` from 1 to 9, is shown with the suffix `_k`: the second with
`_1`, the third with `_2`, up to the tenth with `_9`. -/
theorem C4_suffix_by_emitted_rank (fuel : Nat) (st : State) (hwf : st.WF)
    (hac : Acyclic st) (hfuel : st.allTargetParents.length + 1 ≤ fuel) :
    ∃ secs, reconcile fuel st = some secs ∧
      List.Forall₂ (fun p sec => sec.1 = p.1 ∧
        (funcLines sec.2).length = (emittedEntries fuel st p.1 p.2).length ∧
        ∀ i e k, (emittedEntries fuel st p.1 p.2)[i]? = some e →
          k = (((emittedEntries fuel st p.1 p.2).take i).map
            (fun x => eraseShift x.2)).count (eraseShift e.2) →
          (k = 0 → (funcLines sec.2)[i]? = some (eraseShift e.2, e.1)) ∧
          (1 ≤ k → k ≤ 9 →
            (funcLines sec.2)[i]? = some (eraseShift e.2 ++ "_" ++ decString k, e.1)))
        st.allTargetVtables secs := by
  refine ⟨_, reconcile_some fuel st hac hfuel, ?_⟩
  rw [List.forall₂_map_right_iff, List.forall₂_same]
  intro p hp
  refine ⟨rfl, funcLines_length fuel st p.1 p.2, ?_⟩
  intro i e k hi hk
  have hget := funcLines_getElem fuel st p.1 p.2 (hwf.slots_sorted p hp) (hwf.slots_lt p hp) i e hi
  rw [← hk] at hget
  dsimp only
  constructor
  · intro h0
    rw [hget, if_pos h0]
  · intro h1 h9
    rw [hget, if_neg (by omega), hexString_eq_decString k h9]

theorem exampleOverloads_wf : exampleOverloads.WF :=
  ⟨by decide, by decide, by decide, by decide, by decide, by decide⟩

theorem exampleOverloads_acyclic : Acyclic exampleOverloads :=
  acyclic_of_rank_pairs _ (fun _ => 0) (by decide)

/-- C4, witness: three overloads of `operator<<` are shown as `operator`,
`operator_1` and `operator_2`. -/
theorem C4_suffix_by_emitted_rank_witness :
    (∃ secs, reconcile 1 exampleOverloads = some secs ∧
      List.Forall₂ (fun p sec => sec.1 = p.1 ∧
        (funcLines sec.2).length = (emittedEntries 1 exampleOverloads p.1 p.2).length ∧
        ∀ i e k, (emittedEntries 1 exampleOverloads p.1 p.2)[i]? = some e →
          k = (((emittedEntries 1 exampleOverloads p.1 p.2).take i).map
            (fun x => eraseShift x.2)).count (eraseShift e.2) →
          (k = 0 → (funcLines sec.2)[i]? = some (eraseShift e.2, e.1)) ∧
          (1 ≤ k → k ≤ 9 →
            (funcLines sec.2)[i]? = some (eraseShift e.2 ++ "_" ++ decString k, e.1)))
        exampleOverloads.allTargetVtables secs) ∧
    mainVtable 1 exampleOverloads =
      some ["[FArchive]", "operator ####offset#### 0x3", "operator_1 ####offset#### 0x4",
        "operator_2 ####offset#### 0x5", ""] :=
  ⟨C4_suffix_by_emitted_rank 1 exampleOverloads exampleOverloads_wf exampleOverloads_acyclic
    (by decide), by decide⟩

/-- C4, counterexample to the claim as stated: the slot map holds `f` at slots 0
and 1; the entry with the lowest slot is not shown at all and the second one is
shown unsuffixed. -/
theorem C4_counterexample :
    reconcile 1 exampleSlot0Twice = some [("UObject", [Line.func "f" 1])] ∧
    mainVtable 1 exampleSlot0Twice = some ["[UObject]", "f ####offset#### 0x1", ""] := by
  decide

/-- C9, as amended. For every well-formed accumulated state, within the section
of one class two emitted entries with the same post-strip name are printed, each
at its own slot, with different names. -/
theorem C9_same_name_distinct (fuel : Nat) (st : State) (hwf : st.WF)
    (secs : List (String × List Line)) (h : reconcile fuel st = some secs) :
    List.Forall₂ (fun p sec => sec.1 = p.1 ∧
      ∀ (i j : Nat) (e1 e2 : Nat × String) (l1 l2 : String × Nat), i < j →
        (emittedEntries fuel st p.1 p.2)[i]? = some e1 →
        (emittedEntries fuel st p.1 p.2)[j]? = some e2 →
        (funcLines sec.2)[i]? = some l1 → (funcLines sec.2)[j]? = some l2 →
        l1.2 = e1.1 ∧ l2.2 = e2.1 ∧ (eraseShift e1.2 = eraseShift e2.2 → l1.1 ≠ l2.1))
      st.allTargetVtables secs := by
  rw [reconcile_eq fuel st secs h, List.forall₂_map_right_iff, List.forall₂_same]
  intro p hp
  refine ⟨rfl, ?_⟩
  intro i j e1 e2 l1 l2 hij h1 h2 hl1 hl2
  dsimp only at hl1 hl2
  rw [funcLines_sectionLines, numberedLines_getElem _ [] i e1 h1] at hl1
  rw [funcLines_sectionLines, numberedLines_getElem _ [] j e2 h2] at hl2
  cases hl1
  cases hl2
  refine ⟨rfl, rfl, ?_⟩
  intro hname hprint
  dsimp only at hprint
  rw [← hname] at hprint
  have hlen : (emittedEntries fuel st p.1 p.2).length ≤ 65536 := by
    have h3 : (emittedEntries fuel st p.1 p.2).length ≤ p.2.length := by
      unfold emittedEntries
      exact List.length_filter_le _ _
    have h4 := slotMap_length_le p.2 (hwf.slots_sorted p hp) (hwf.slots_lt p hp)
    omega
  have hj : j < (emittedEntries fuel st p.1 p.2).length := by
    obtain ⟨hj, _⟩ := List.getElem?_eq_some.1 h2
    exact hj
  have hci := count_take_le ((emittedEntries fuel st p.1 p.2).map (fun x => eraseShift x.2)) i
    (eraseShift e1.2)
  have hcj := count_take_le ((emittedEntries fuel st p.1 p.2).map (fun x => eraseShift x.2)) j
    (eraseShift e1.2)
  rw [← List.map_take] at hci hcj
  have hlt := count_take_lt (emittedEntries fuel st p.1 p.2) i j e1 hij h1
  have := printedName_injective (eraseShift e1.2) _ _ (by simp only [List.count_nil]; omega)
    (by simp only [List.count_nil]; omega) hprint
  simp only [List.count_nil, Nat.zero_add] at this
  omega

/-- C9, witness: three overloads of `operator<<` get three different names. -/
theorem C9_same_name_distinct_witness :
    List.Forall₂ (fun p sec => sec.1 = p.1 ∧
      ∀ (i j : Nat) (e1 e2 : Nat × String) (l1 l2 : String × Nat), i < j →
        (emittedEntries 1 exampleOverloads p.1 p.2)[i]? = some e1 →
        (emittedEntries 1 exampleOverloads p.1 p.2)[j]? = some e2 →
        (funcLines sec.2)[i]? = some l1 → (funcLines sec.2)[j]? = some l2 →
        l1.2 = e1.1 ∧ l2.2 = e2.1 ∧ (eraseShift e1.2 = eraseShift e2.2 → l1.1 ≠ l2.1))
      exampleOverloads.allTargetVtables
      [("FArchive", [Line.func "operator" 3, Line.func "operator_1" 4,
        Line.func "operator_2" 5])] :=
  C9_same_name_distinct 1 exampleOverloads exampleOverloads_wf _ (by decide)

/-- C9, counterexample to the claim as stated: the entries at slots 4 and 5 are
both emitted and both printed with the name `f_1`. -/
theorem C9_counterexample :
    reconcile 1 exampleSuffixClash =
      some [("UObject", [Line.func "f" 3, Line.func "f_1" 4, Line.func "f_1" 5])] ∧
    mainVtable 1 exampleSuffixClash =
      some ["[UObject]", "f ####offset#### 0x3", "f_1 ####offset#### 0x4",
        "f_1 ####offset#### 0x5", ""] := by
  decide


/-! ## Allow-lists -/

theorem allowListed_empty : AllowListed State.empty := by
  refine ⟨?_, ?_, ?_⟩ <;> intro p hp <;> simp [State.empty] at hp

/-- C6. Starting from empty accumulators, after the walk of any list of unit
entries in any mode, and also after the two fixed parent assignments, every key
of the slot table and of the parent table is in `VtableClassNames` and every
key of the member table is in `VariableClassNames`; hence every class section
printed in vtable mode or in member mode belongs to a class of the
corresponding allow-list. -/
theorem C6_keys_in_allow_lists (resolve : Nat → Option DWARFDie) (code_type : Int)
    (units : List DieNode) (st : State)
    (h : LoadDwarfFile resolve code_type units State.empty = some st) :
    ((∀ p ∈ st.allTargetVtables, p.1 ∈ VtableClassNames) ∧
      (∀ p ∈ st.allTargetParents, p.1 ∈ VtableClassNames) ∧
      (∀ p ∈ st.allTargetVariables, p.1 ∈ VariableClassNames)) ∧
    ((∀ p ∈ (applyParentOverrides st).allTargetVtables, p.1 ∈ VtableClassNames) ∧
      (∀ p ∈ (applyParentOverrides st).allTargetParents, p.1 ∈ VtableClassNames) ∧
      (∀ p ∈ (applyParentOverrides st).allTargetVariables, p.1 ∈ VariableClassNames)) ∧
    (∀ fuel secs, reconcile fuel (applyParentOverrides st) = some secs →
      ∀ sec ∈ secs, sec.1 ∈ VtableClassNames) ∧
    (∀ sec ∈ memberSections st, sec.1 ∈ VariableClassNames) := by
  have hst : AllowListed st :=
    LoadDwarfFile_allow resolve code_type units State.empty st h allowListed_empty
  refine ⟨hst, applyParentOverrides_allow st hst, ?_, ?_⟩
  · intro fuel secs hsecs sec hsec
    rw [reconcile_eq fuel _ secs hsecs] at hsec
    obtain ⟨p, hp, rfl⟩ := List.mem_map.1 hsec
    exact hst.1 p hp
  · intro sec hsec
    unfold memberSections at hsec
    obtain ⟨p, hp, rfl⟩ := List.mem_map.1 hsec
    exact hst.2.2 p hp

/-- C6, witness: the walk of the example unit in vtable mode. -/
theorem C6_keys_in_allow_lists_witness :
    LoadDwarfFile exampleResolve 0 [exampleUnit] State.empty =
      some ⟨[], [("UObject", [(3, "foo")]), ("UScriptStruct::ICppStructOps", [(3, "foo")])],
        [("UObject", "ICppStructOps")]⟩ ∧
    "UObject" ∈ VtableClassNames ∧ "UScriptStruct::ICppStructOps" ∈ VtableClassNames :=
  have hw : LoadDwarfFile exampleResolve 0 [exampleUnit] State.empty =
      some ⟨[], [("UObject", [(3, "foo")]), ("UScriptStruct::ICppStructOps", [(3, "foo")])],
        [("UObject", "ICppStructOps")]⟩ := by decide
  have hc := (C6_keys_in_allow_lists exampleResolve 0 [exampleUnit] _ hw).1.1
  ⟨hw, hc ("UObject", [(3, "foo")]) (by simp),
    hc ("UScriptStruct::ICppStructOps", [(3, "foo")]) (by simp)⟩

/-- C10, the code at the failing input. The class `UObject` has an inheritance
child that refers to the structure `ICppStructOps` nested in `UScriptStruct`.
The qualified name of the referenced type, which is the key of its slot map, is
`UScriptStruct::ICppStructOps`; the walk records the short name `ICppStructOps`
as the parent of `UObject`, and reconciliation therefore finds no slot map for
the parent and prints the inherited `foo` again in the section of `UObject`. -/
theorem C10_parent_recorded_by_short_name :
    GetQualifiedName (getParentClass exampleResolve (some ⟨exampleDerived, [exampleUnit]⟩)) =
      "UScriptStruct::ICppStructOps" ∧
    LoadDwarfFile exampleResolve 0 [exampleUnit] State.empty =
      some ⟨[], [("UObject", [(3, "foo")]), ("UScriptStruct::ICppStructOps", [(3, "foo")])],
        [("UObject", "ICppStructOps")]⟩ ∧
    main 2 exampleResolve [exampleUnit] 0 =
      some ["Key: UObject, Value: ICppStructOps",
        "[UObject]", "foo ####offset#### 0x3", "",
        "[UScriptStruct::ICppStructOps]", "foo ####offset#### 0x3", ""] := by
  decide

/-! ## Further evaluations of the reconciliation pass -/

/-- The name of an entry is stripped of `<<` before it is looked up in the slot
maps of the ancestors, which hold the names unstripped: `operator<<` of the
child is looked up as `operator`, is not found in the parent, and is printed in
both sections. -/
theorem shift_name_not_excluded :
    reconcile 2 exampleShiftInherited =
      some [("FArchive", [Line.func "operator" 3]),
        ("FArchiveState", [Line.func "operator" 3])] := by
  decide

/-- The suffix counter is written to a stream on which `std::hex` is already set:
the eleventh function named `f` is printed as `f_a`. -/
theorem suffix_printed_in_hex :
    mainVtable 1 exampleEleven =
      some ["[UObject]", "f ####offset#### 0x1", "__vecDelDtor ####offset#### 0x0",
        "__vecDelDtor ####offset#### 0x1", "f_1 ####offset#### 0x2", "f_2 ####offset#### 0x3",
        "f_3 ####offset#### 0x4", "f_4 ####offset#### 0x5", "f_5 ####offset#### 0x6",
        "f_6 ####offset#### 0x7", "f_7 ####offset#### 0x8", "f_8 ####offset#### 0x9",
        "f_9 ####offset#### 0xa", "f_a ####offset#### 0xb", ""] := by
  decide

/-! ## Member mode output -/

theorem flatten_split {α β : Type} (f : α → List β) (l : List α) (p : α) (h : p ∈ l) :
    ∃ pre post, (l.map f).flatten = pre ++ f p ++ post := by
  obtain ⟨a, b, rfl⟩ := List.append_of_mem h
  refine ⟨(a.map f).flatten, (b.map f).flatten, ?_⟩
  simp

/-- C11. Member mode prints, for every class of the member table, the header
`[QualifiedClassName]`, then one line `MemberName = 0x<offset in hex>` per
recorded pair, in the order of the member map, which is strictly ascending in
the offset, with the recorded name as it is (no suffix is ever added), then an
empty line; and this is all member mode prints after a walk that left `st`. -/
theorem C11_member_mode_sections (st : State) (hwf : st.WF) :
    (∀ p ∈ st.allTargetVariables,
      (p.2.map Prod.fst).Pairwise (· < ·) ∧
      ∃ pre post, mainMember st =
        pre ++ (("[" ++ p.1 ++ "]") ::
          (p.2.map (fun e => e.2 ++ " = 0x" ++ hexString e.1) ++ [""])) ++ post) ∧
    mainMember st =
      (st.allTargetVariables.map (fun p => ("[" ++ p.1 ++ "]") ::
        (p.2.map (fun e => e.2 ++ " = 0x" ++ hexString e.1) ++ [""]))).flatten ∧
    (∀ fuel resolve units, LoadDwarfFile resolve 1 units State.empty = some st →
      main fuel resolve units 1 = some (mainMember st)) := by
  have hmain : mainMember st =
      (st.allTargetVariables.map (fun p => ("[" ++ p.1 ++ "]") ::
        (p.2.map (fun e => e.2 ++ " = 0x" ++ hexString e.1) ++ [""]))).flatten := by
    unfold mainMember memberSections
    rw [List.map_map]
    rfl
  refine ⟨?_, hmain, ?_⟩
  · intro p hp
    refine ⟨hwf.members_sorted p hp, ?_⟩
    rw [hmain]
    exact flatten_split _ _ p hp
  · intro fuel resolve units h
    unfold main
    rw [h]
    simp

theorem exampleFlags_wf : exampleFlags.WF :=
  ⟨by decide, by decide, by decide, by decide, by decide, by decide⟩

/-- C11, witness: the example of the claim. Class `C` with the member map
`0x8: Flags, 0x10: Flags` prints `Flags = 0x8` and then `Flags = 0x10`; the same
lines are printed for the class `UObjectBase` of the example unit. -/
theorem C11_member_mode_sections_witness :
    ((∀ p ∈ exampleFlags.allTargetVariables,
      (p.2.map Prod.fst).Pairwise (· < ·) ∧
      ∃ pre post, mainMember exampleFlags =
        pre ++ (("[" ++ p.1 ++ "]") ::
          (p.2.map (fun e => e.2 ++ " = 0x" ++ hexString e.1) ++ [""])) ++ post) ∧
    mainMember exampleFlags =
      (exampleFlags.allTargetVariables.map (fun p => ("[" ++ p.1 ++ "]") ::
        (p.2.map (fun e => e.2 ++ " = 0x" ++ hexString e.1) ++ [""]))).flatten ∧
    (∀ fuel resolve units, LoadDwarfFile resolve 1 units State.empty = some exampleFlags →
      main fuel resolve units 1 = some (mainMember exampleFlags))) ∧
    mainMember exampleFlags = ["[C]", "Flags = 0x8", "Flags = 0x10", ""] ∧
    main 0 (fun _ => none) [exampleFlagsUnit] 1 =
      some ["[UObjectBase]", "Flags = 0x8", "Flags = 0x10", ""] :=
  ⟨C11_member_mode_sections exampleFlags exampleFlags_wf, by decide, by decide⟩

/-! ## The two fixed parent assignments -/

theorem mem_mapInsert_of_ne {K V : Type} [LinearOrder K] [@DecidableRel K (· < ·)] {k : K}
    {v : V} {m : List (K × V)} {p : K × V} (hp : p ∈ m) (hne : p.1 ≠ k) :
    p ∈ mapInsert k v m := by
  induction m with
  | nil => simp at hp
  | cons q rest ih =>
    obtain ⟨k1, v1⟩ := q
    simp only [mapInsert]
    split_ifs with h1 h2
    · exact List.mem_cons_of_mem _ hp
    · rcases List.mem_cons.1 hp with h3 | h3
      · rw [h3]; exact List.mem_cons_self _ _
      · exact List.mem_cons_of_mem _ (ih h3)
    · have hk : k = k1 := le_antisymm (not_lt.1 h2) (not_lt.1 h1)
      rcases List.mem_cons.1 hp with h3 | h3
      · rw [h3] at hne
        exact absurd hk.symm hne
      · exact List.mem_cons_of_mem _ h3

theorem mem_mapInsert_of_ne_string {V : Type} {k : String} {v : V} {m : List (String × V)}
    {p : String × V} (hp : p ∈ m) (hne : p.1 ≠ k) : p ∈ mapInsert k v m :=
  mem_mapInsert_of_ne hp hne

/-- C12. Whatever the walk left in `st`, the state reconciliation runs with has
`UObject` as the parent of `UGameViewportClient` and `AActor` as the parent of
`AGameModeBase`; the parent of every other class, every other pair of the parent
table, the slot table and the member table are as the walk left them; and
vtable mode prints the sections reconciliation computes from that state. -/
theorem C12_parent_overrides_frame (st : State) :
    mapFind "UGameViewportClient" (applyParentOverrides st).allTargetParents = some "UObject" ∧
    mapFind "AGameModeBase" (applyParentOverrides st).allTargetParents = some "AActor" ∧
    (∀ c, c ≠ "UGameViewportClient" → c ≠ "AGameModeBase" →
      mapFind c (applyParentOverrides st).allTargetParents = mapFind c st.allTargetParents) ∧
    (∀ p : String × String, p.1 ≠ "UGameViewportClient" → p.1 ≠ "AGameModeBase" →
      (p ∈ (applyParentOverrides st).allTargetParents ↔ p ∈ st.allTargetParents)) ∧
    (applyParentOverrides st).allTargetVtables = st.allTargetVtables ∧
    (applyParentOverrides st).allTargetVariables = st.allTargetVariables ∧
    (∀ fuel, mainVtable fuel st =
      (reconcile fuel (applyParentOverrides st)).map
        (fun secs => parentDiagnostics st ++ (secs.map renderSection).flatten)) := by
  refine ⟨?_, ?_, ?_, ?_, rfl, rfl, ?_⟩
  · unfold applyParentOverrides
    dsimp only
    rw [mapFind_mapInsert_string, if_neg (by decide), mapFind_mapInsert_string, if_pos rfl]
  · unfold applyParentOverrides
    dsimp only
    rw [mapFind_mapInsert_string, if_pos rfl]
  · intro c h1 h2
    unfold applyParentOverrides
    dsimp only
    rw [mapFind_mapInsert_string, if_neg h2, mapFind_mapInsert_string, if_neg h1]
  · intro p h1 h2
    unfold applyParentOverrides
    dsimp only
    constructor
    · intro hp
      rcases mem_mapInsert hp with h3 | h3
      · rw [h3] at h2; exact absurd rfl h2
      · rcases mem_mapInsert h3 with h4 | h4
        · rw [h4] at h1; exact absurd rfl h1
        · exact h4
    · intro hp
      exact mem_mapInsert_of_ne_string (mem_mapInsert_of_ne_string hp h1) h2
  · intro fuel
    unfold mainVtable
    cases reconcile fuel (applyParentOverrides st) <;> rfl

/-! ## Slot decoding -/

theorem encodeULEB128_small (v : Nat) (hv : v < 128) : encodeULEB128 v = [v] := by
  unfold encodeULEB128
  cases v with
  | zero => rfl
  | succ n => rw [encodeULEB128Fuel, if_pos hv]

theorem encodeULEB128_two (v : Nat) (h1 : 128 ≤ v) (h2 : v < 16384) :
    encodeULEB128 v = [v % 128 + 128, v / 128] := by
  unfold encodeULEB128
  obtain ⟨n, rfl⟩ : ∃ n, v = n + 2 := ⟨v - 2, by omega⟩
  rw [encodeULEB128Fuel, if_neg (by omega), encodeULEB128Fuel, if_pos (by omega)]

/-- A one-byte encoding (values below 128) is decoded to the value. -/
theorem getVirtualFunctionOffset_one_byte (v : Nat) (hv : v < 128) :
    getVirtualFunctionOffset (slotEntry v) = some v := by
  unfold getVirtualFunctionOffset slotEntry
  simp only [DieNode.attributes, getVirtualFunctionOffsetLoop, encodeULEB128_small v hv]
  have h1 : ¬ DW_AT_virtuality = DW_AT_vtable_elem_location := by decide
  simp only [h1, if_false, if_true, decodeULEB128Size, if_pos hv, memcpyUInt16]
  congr 1
  omega

/-- A two-byte encoding (values from 128 to 16383) is decoded to the number that
the two encoded bytes form as they stand, continuation bit included, which is
never the value. -/
theorem getVirtualFunctionOffset_two_bytes (v : Nat) (h1 : 128 ≤ v) (h2 : v < 16384) :
    getVirtualFunctionOffset (slotEntry v) = some (v % 128 + 128 + 256 * (v / 128)) ∧
    v % 128 + 128 + 256 * (v / 128) ≠ v := by
  constructor
  · unfold getVirtualFunctionOffset slotEntry
    simp only [DieNode.attributes, getVirtualFunctionOffsetLoop, encodeULEB128_two v h1 h2]
    have h3 : ¬ DW_AT_virtuality = DW_AT_vtable_elem_location := by decide
    have h4 : ¬ v % 128 + 128 < 128 := by omega
    have h5 : v / 128 < 128 := by omega
    simp only [h3, if_false, if_true, decodeULEB128Size, if_neg h4, if_pos h5, Option.map_some',
      memcpyUInt16]
    congr 1
    omega
  · omega

/-- C13, the code at the failing input. The ULEB128 encoding of 128 is the two
bytes 0x80 0x01; for the block `DW_OP_constu 0x80 0x01` slot decoding copies
these two bytes into the result and returns 384, not 128. Values below 128
are decoded to themselves (127 here), and the three-byte encoding of 16384
makes line 105 copy three bytes into the two-byte variable. -/
theorem C13_slot_decoding_copies_raw_bytes :
    encodeULEB128 128 = [0x80, 0x01] ∧
    getVirtualFunctionOffset (slotEntry 128) = some 384 ∧
    getVirtualFunctionOffset (slotEntry 127) = some 127 ∧
    encodeULEB128 16384 = [0x80, 0x80, 0x01] ∧
    getVirtualFunctionOffset (slotEntry 16384) = none := by
  decide

/-! ## Qualified names -/

theorem joinNames_go (l : List String) :
    ∀ acc : String, String.intercalate.go acc "::" l =
      match l with
      | [] => acc
      | _ :: _ => acc ++ "::" ++ joinNames l := by
  induction l with
  | nil => intro acc; rfl
  | cons a rest ih =>
    intro acc
    rw [String.intercalate.go, ih]
    cases rest with
    | nil => rfl
    | cons b rest2 =>
      simp only [joinNames, String.append_assoc]

theorem joinNames_eq_intercalate (l : List String) : joinNames l = "::".intercalate l := by
  cases l with
  | nil => rfl
  | cons a rest =>
    rw [String.intercalate, joinNames_go]
    cases rest <;> rfl

theorem joinNames_snoc (a b : String) :
    ∀ L : List String, joinNames (L ++ [a ++ "::" ++ b]) = joinNames (L ++ [a, b])
  | [] => rfl
  | [x] => rfl
  | x :: y :: L => by
    have ih := joinNames_snoc a b (y :: L)
    show x ++ "::" ++ joinNames (y :: L ++ [a ++ "::" ++ b]) =
      x ++ "::" ++ joinNames (y :: L ++ [a, b])
    rw [ih]

theorem prependName_ne_empty (q n : String) (hq : q ≠ "") : prependName q n ≠ "" := by
  unfold prependName
  rw [if_pos hq]
  intro h
  have h1 := congrArg String.data h
  simp [String.data_append] at h1

theorem foldl_prependName_of_ne (names : List String) :
    ∀ q : String, q ≠ "" → names.foldl prependName q = joinNames (names.reverse ++ [q]) := by
  induction names with
  | nil => intro q _; rfl
  | cons n rest ih =>
    intro q hq
    rw [List.foldl_cons, ih _ (prependName_ne_empty q n hq)]
    unfold prependName
    rw [if_pos hq, ← String.append_assoc, joinNames_snoc, List.reverse_cons, List.append_assoc]
    rfl

theorem foldl_prependName_empty (names : List String) :
    names.foldl prependName "" = joinNames ((names.dropWhile (fun s => s = "")).reverse) := by
  induction names with
  | nil => rfl
  | cons n rest ih =>
    rw [List.foldl_cons]
    have h0 : prependName "" n = n := by
      unfold prependName
      simp
    rw [h0]
    by_cases hn : n = ""
    · subst hn
      rw [ih, List.dropWhile_cons]
      simp
    · rw [foldl_prependName_of_ne rest n hn, List.dropWhile_cons]
      simp [hn]

theorem qualifiedNameLoop_eq (nodes : List DieNode) :
    ∀ q : String, qualifiedNameLoop nodes q =
      (nodes.filterMap
        (fun n => if n.tag ≠ DW_TAG_compile_unit then n.shortName else none)).foldl
        prependName q := by
  induction nodes with
  | nil => intro q; rfl
  | cons n rest ih =>
    intro q
    rw [qualifiedNameLoop, ih, List.filterMap_cons]
    unfold qualifiedNameStep
    by_cases ht : n.tag ≠ DW_TAG_compile_unit
    · rw [if_pos ht, if_pos ht]
      cases hn : n.shortName with
      | none => rfl
      | some DName => rfl
    · rw [if_neg ht, if_neg ht]

/-- C14, as amended. `GetQualifiedName` returns the short names of the entry and
its ancestors, outermost first and joined by `::`, taken over the entries of the
parent chain that are not compile-unit-tagged and have a short name, after the
empty names at the inner end of the chain are left out; an entry without a
short name contributes neither a segment nor a separator. When the innermost
named entry has a non-empty name, this is the join over all the named entries
of the chain that are not compile-unit-tagged. -/
theorem C14_qualified_name_joins_chain (D : DWARFDie) :
    GetQualifiedName (some D) =
      "::".intercalate (((chainNames D).dropWhile (fun s => s = "")).reverse) ∧
    ((∀ s, (chainNames D).head? = some s → s ≠ "") →
      GetQualifiedName (some D) = "::".intercalate (chainNames D).reverse) := by
  have h : GetQualifiedName (some D) =
      "::".intercalate (((chainNames D).dropWhile (fun s => s = "")).reverse) := by
    rw [← joinNames_eq_intercalate]
    show qualifiedNameLoop (D.node :: D.ancestors) "" = _
    unfold chainNames
    rw [qualifiedNameLoop_eq, foldl_prependName_empty]
  refine ⟨h, ?_⟩
  intro hhead
  rw [h]
  cases hc : chainNames D with
  | nil => rfl
  | cons s rest =>
    rw [hc] at hhead
    have hs : s ≠ "" := hhead s rfl
    rw [List.dropWhile_cons]
    simp [hs]

/-- C14, witness: a structure inside a class inside an unnamed namespace. -/
theorem C14_qualified_name_joins_chain_witness :
    chainNames exampleNested = ["ICppStructOps", "UScriptStruct"] ∧
    GetQualifiedName (some exampleNested) = "UScriptStruct::ICppStructOps" ∧
    (GetQualifiedName (some exampleNested) =
      "::".intercalate (((chainNames exampleNested).dropWhile (fun s => s = "")).reverse) ∧
    ((∀ s, (chainNames exampleNested).head? = some s → s ≠ "") →
      GetQualifiedName (some exampleNested) =
        "::".intercalate (chainNames exampleNested).reverse)) :=
  ⟨by decide, by decide, C14_qualified_name_joins_chain exampleNested⟩

/-- C14, counterexample to the claim as stated: the entry has the empty string as
its short name and lies in class `A`. The named entries of its chain that are
not compile-unit-tagged are `A` and the entry itself, their names joined by `::`
give `A::`, and `GetQualifiedName` returns `A`. -/
theorem C14_counterexample :
    chainNames exampleEmptyName = ["", "A"] ∧
    "::".intercalate (chainNames exampleEmptyName).reverse = "A::" ∧
    GetQualifiedName (some exampleEmptyName) = "A" := by
  decide

/-! ## The ancestor walk: where it ends and what it finds -/

theorem ancestorAt_succ_of_parent (st : State) (k : Nat) (c p : String)
    (hp : mapFind c st.allTargetParents = some p) :
    ancestorAt st (k + 1) c = ancestorAt st k p := by
  rw [ancestorAt, hp]

theorem ancestorAt_succ_of_no_parent (st : State) (k : Nat) (c : String)
    (hp : mapFind c st.allTargetParents = none) : ancestorAt st (k + 1) c = none := by
  rw [ancestorAt, hp]

theorem ancestorAt_some_of_le (st : State) :
    ∀ (j k : Nat) (c d : String), ancestorAt st k c = some d → j ≤ k →
      ∃ e, ancestorAt st j c = some e := by
  intro j
  induction j with
  | zero => intro k c d _ _; exact ⟨c, rfl⟩
  | succ j ih =>
    intro k c d h hjk
    obtain ⟨k1, rfl⟩ : ∃ k1, k = k1 + 1 := ⟨k - 1, by omega⟩
    cases hp : mapFind c st.allTargetParents with
    | none => rw [ancestorAt_succ_of_no_parent st k1 c hp] at h; cases h
    | some p =>
      rw [ancestorAt_succ_of_parent st k1 c p hp] at h
      rw [ancestorAt_succ_of_parent st j c p hp]
      exact ih k1 p d h (by omega)

theorem ancestorAt_of_transGen (st : State) (c d : String)
    (h : Relation.TransGen (ParentStep st) c d) : ∃ k, ancestorAt st (k + 1) c = some d := by
  induction h with
  | single h1 =>
    refine ⟨0, ?_⟩
    rw [ancestorAt_succ_of_parent st 0 c _ h1]
    rfl
  | tail _ h2 ih =>
    obtain ⟨k, hk⟩ := ih
    refine ⟨k + 1, ?_⟩
    rw [ancestorAt_add st (k + 1) 1 c _ hk, ancestorAt_succ_of_parent st 0 _ _ h2]
    rfl

/-- On a parent map without cycle the chain of ancestors of a class ends within
as many steps as there are recorded parents. -/
theorem ancestorAt_ends (st : State) (hac : Acyclic st) (c : String) :
    ∃ k, k ≤ st.allTargetParents.length + 1 ∧ ancestorAt st k c = none := by
  by_contra hcon
  have hall : ∀ k, k ≤ st.allTargetParents.length + 1 → ∃ d, ancestorAt st k c = some d := by
    intro k hk
    cases h : ancestorAt st k c with
    | none => exact absurd ⟨k, hk, h⟩ hcon
    | some d => exact ⟨d, rfl⟩
  let g : Nat → String := fun k => (ancestorAt st k c).getD ""
  have hg : ∀ k, k ≤ st.allTargetParents.length + 1 → ancestorAt st k c = some (g k) := by
    intro k hk
    obtain ⟨d, hd⟩ := hall k hk
    simp [g, hd]
  have hcard : ((st.allTargetParents.map Prod.fst).toFinset).card <
      (Finset.range (st.allTargetParents.length + 1)).card := by
    rw [Finset.card_range]
    have := List.toFinset_card_le (st.allTargetParents.map Prod.fst)
    rw [List.length_map] at this
    omega
  have hmaps : ∀ k ∈ Finset.range (st.allTargetParents.length + 1),
      g k ∈ (st.allTargetParents.map Prod.fst).toFinset := by
    intro k hk
    rw [Finset.mem_range] at hk
    rw [List.mem_toFinset]
    exact ancestorAt_key st k c (g k) (g (k + 1)) (hg k (by omega)) (hg (k + 1) (by omega))
  obtain ⟨i, hi, j, hj, hne, heq⟩ := Finset.exists_ne_map_eq_of_card_lt_of_maps_to hcard hmaps
  rw [Finset.mem_range] at hi hj
  have key : ∀ a b, a < b → b ≤ st.allTargetParents.length + 1 → g a = g b → False := by
    intro a b hab hb hgab
    have h1 := ancestorAt_add st a (b - a) c (g a) (hg a (by omega))
    have hba : a + (b - a) = b := by omega
    rw [hba, hg b hb] at h1
    obtain ⟨n, hn⟩ : ∃ n, b - a = n + 1 := ⟨b - a - 1, by omega⟩
    rw [hn] at h1
    have := transGen_of_ancestorAt st n (g a) (g b) h1.symm
    rw [← hgab] at this
    exact hac _ this
  rcases Nat.lt_or_gt_of_ne hne with h | h
  · exact key i j h (by omega) heq
  · exact key j i h (by omega) heq.symm

theorem ancestorAt_last (st : State) :
    ∀ (k : Nat) (c : String), ancestorAt st (k + 1) c = none →
      (∃ d, ancestorAt st k c = some d ∧ mapFind d st.allTargetParents = none) ∨
      ancestorAt st k c = none := by
  intro k
  induction k with
  | zero =>
    intro c h
    left
    refine ⟨c, rfl, ?_⟩
    cases hp : mapFind c st.allTargetParents with
    | none => rfl
    | some p =>
      rw [ancestorAt_succ_of_parent st 0 c p hp] at h
      cases h
  | succ k ih =>
    intro c h
    cases hp : mapFind c st.allTargetParents with
    | none => right; exact ancestorAt_succ_of_no_parent st k c hp
    | some p =>
      rw [ancestorAt_succ_of_parent st (k + 1) c p hp] at h
      rw [ancestorAt_succ_of_parent st k c p hp]
      exact ih p h

/-- On a parent map without cycle the chain of ancestors of a class reaches a
class at which the recursion stops; the first such class on the chain is
found. -/
theorem first_stop (st : State) (hac : Acyclic st) (c : String) :
    ∃ k d, k ≤ st.allTargetParents.length ∧ ancestorAt st k c = some d ∧ Stops st d ∧
      ∀ j e, j < k → ancestorAt st j c = some e → ¬ Stops st e := by
  classical
  have hex : ∃ k, ∃ d, ancestorAt st k c = some d ∧ Stops st d ∧
      k ≤ st.allTargetParents.length := by
    obtain ⟨k, hk, hnone⟩ := ancestorAt_ends st hac c
    have hmin : ∃ n, ancestorAt st n c = none := ⟨k, hnone⟩
    have hfind := Nat.find_spec hmin
    have hle : Nat.find hmin ≤ k := Nat.find_min' hmin hnone
    obtain ⟨n, hn⟩ : ∃ n, Nat.find hmin = n + 1 := by
      cases h0 : Nat.find hmin with
      | zero => rw [h0] at hfind; cases hfind
      | succ n => exact ⟨n, rfl⟩
    rw [hn] at hfind
    rcases ancestorAt_last st n c hfind with ⟨d, hd, hp⟩ | hnone2
    · exact ⟨n, d, hd, Or.inl hp, by omega⟩
    · exact absurd hnone2 (Nat.find_min hmin (by omega))
  refine ⟨Nat.find hex, ?_⟩
  obtain ⟨d, hd, hstop, hle⟩ := Nat.find_spec hex
  refine ⟨d, hle, hd, hstop, ?_⟩
  intro j e hj he hs
  exact Nat.find_min hex hj ⟨e, he, hs, by omega⟩

theorem CheckParentHasFunction_mono (st : State) (f : String) :
    ∀ (n : Nat) (c : String) (b : Bool), CheckParentHasFunction n st c f = some b →
      ∀ m, n ≤ m → CheckParentHasFunction m st c f = some b := by
  intro n
  induction n with
  | zero => intro c b h; rw [CheckParentHasFunction] at h; cases h
  | succ n ih =>
    intro c b h m hm
    obtain ⟨m1, rfl⟩ : ∃ m1, m = m1 + 1 := ⟨m - 1, by omega⟩
    rw [CheckParentHasFunction] at h ⊢
    cases hp : mapFind c st.allTargetParents with
    | none => rw [hp] at h; exact h
    | some p =>
      rw [hp] at h
      dsimp only at h ⊢
      cases hv : mapFind p st.allTargetVtables with
      | none => rw [hv] at h; exact h
      | some sm =>
        rw [hv] at h
        dsimp only at h ⊢
        split_ifs at h ⊢ with hval
        · exact h
        · exact ih p b h m1 (by omega)

theorem CheckParentHasFunction_returns_at_stop (st : State) (f : String) :
    ∀ (k : Nat) (c d : String), ancestorAt st k c = some d → Stops st d →
      ∀ fuel, k + 1 ≤ fuel → ∃ b, CheckParentHasFunction fuel st c f = some b := by
  intro k
  induction k with
  | zero =>
    intro c d h hs fuel hfuel
    simp only [ancestorAt, Option.some.injEq] at h
    subst h
    obtain ⟨n, rfl⟩ : ∃ n, fuel = n + 1 := ⟨fuel - 1, by omega⟩
    rw [CheckParentHasFunction]
    rcases hs with hp | ⟨p, hp, hv⟩
    · rw [hp]; exact ⟨false, rfl⟩
    · rw [hp]; dsimp only; rw [hv]; exact ⟨false, rfl⟩
  | succ k ih =>
    intro c d h hs fuel hfuel
    obtain ⟨n, rfl⟩ : ∃ n, fuel = n + 1 := ⟨fuel - 1, by omega⟩
    rw [CheckParentHasFunction]
    cases hp : mapFind c st.allTargetParents with
    | none => exact ⟨false, rfl⟩
    | some p =>
      dsimp only
      cases hv : mapFind p st.allTargetVtables with
      | none => exact ⟨false, rfl⟩
      | some sm =>
        dsimp only
        split_ifs with hval
        · exact ⟨true, rfl⟩
        · rw [ancestorAt_succ_of_parent st k c p hp] at h
          exact ih p d h hs n (by omega)

theorem CheckParentHasFunction_needs_depth (st : State) (f : String) :
    ∀ (k : Nat) (c : String),
      (∀ j e, j < k → ancestorAt st j c = some e → ¬ Stops st e) →
      CheckParentHasFunction (k + 1) st c f = some false →
      CheckParentHasFunction k st c f = none := by
  intro k
  induction k with
  | zero => intro c _ _; rfl
  | succ k ih =>
    intro c hno h
    have hc : ¬ Stops st c := hno 0 c (by omega) rfl
    cases hp : mapFind c st.allTargetParents with
    | none => exact absurd (Or.inl hp) hc
    | some p =>
      cases hv : mapFind p st.allTargetVtables with
      | none => exact absurd (Or.inr ⟨p, hp, hv⟩) hc
      | some sm =>
        rw [CheckParentHasFunction, hp] at h ⊢
        dsimp only at h ⊢
        rw [hv] at h ⊢
        dsimp only at h ⊢
        split_ifs at h ⊢ with hval
        · cases h
        · apply ih p _ h
          intro j e hj he
          apply hno (j + 1) e (by omega)
          rw [ancestorAt_succ_of_parent st j c p hp]
          exact he

theorem reachesHolder_step (st : State) (c p f : String) (sm : SlotMap)
    (hp : mapFind c st.allTargetParents = some p)
    (hv : mapFind p st.allTargetVtables = some sm) :
    ReachesHolder st c f ↔ (valueExists sm f = true ∨ ReachesHolder st p f) := by
  constructor
  · rintro ⟨k, d, m, hd, hm, hval, hmid⟩
    cases k with
    | zero =>
      rw [ancestorAt_succ_of_parent st 0 c p hp] at hd
      simp only [ancestorAt, Option.some.injEq] at hd
      subst hd
      rw [hv] at hm
      cases hm
      exact Or.inl hval
    | succ k =>
      right
      rw [ancestorAt_succ_of_parent st (k + 1) c p hp] at hd
      refine ⟨k, d, m, hd, hm, hval, ?_⟩
      intro j hj
      obtain ⟨e, m2, he, hm2⟩ := hmid (j + 1) (by omega)
      rw [ancestorAt_succ_of_parent st (j + 1) c p hp] at he
      exact ⟨e, m2, he, hm2⟩
  · rintro (hval | ⟨k, d, m, hd, hm, hval, hmid⟩)
    · refine ⟨0, p, sm, ?_, hv, hval, ?_⟩
      · rw [ancestorAt_succ_of_parent st 0 c p hp]; rfl
      · intro j hj; omega
    · refine ⟨k + 1, d, m, ?_, hm, hval, ?_⟩
      · rw [ancestorAt_succ_of_parent st (k + 1) c p hp]; exact hd
      · intro j hj
        cases j with
        | zero =>
          refine ⟨p, sm, ?_, hv⟩
          rw [ancestorAt_succ_of_parent st 0 c p hp]; rfl
        | succ j =>
          obtain ⟨e, m2, he, hm2⟩ := hmid j (by omega)
          refine ⟨e, m2, ?_, hm2⟩
          rw [ancestorAt_succ_of_parent st (j + 1) c p hp]; exact he

theorem not_reachesHolder_of_stops (st : State) (c f : String) (hs : Stops st c) :
    ¬ ReachesHolder st c f := by
  rintro ⟨k, d, m, hd, hm, hval, hmid⟩
  rcases hs with hp | ⟨p, hp, hv⟩
  · rw [ancestorAt_succ_of_no_parent st k c hp] at hd
    cases hd
  · cases k with
    | zero =>
      rw [ancestorAt_succ_of_parent st 0 c p hp] at hd
      simp only [ancestorAt, Option.some.injEq] at hd
      subst hd
      rw [hv] at hm
      cases hm
    | succ k =>
      obtain ⟨e, m2, he, hm2⟩ := hmid 0 (by omega)
      rw [ancestorAt_succ_of_parent st 0 c p hp] at he
      simp only [ancestorAt, Option.some.injEq] at he
      subst he
      rw [hv] at hm2
      cases hm2

/-- What `CheckParentHasFunction` returns, whenever it returns: whether some
ancestor holds the name on a chain of ancestors that all have slot maps. -/
theorem CheckParentHasFunction_spec (st : State) (f : String) :
    ∀ (fuel : Nat) (c : String) (b : Bool), CheckParentHasFunction fuel st c f = some b →
      (b = true ↔ ReachesHolder st c f) := by
  intro fuel
  induction fuel with
  | zero => intro c b h; rw [CheckParentHasFunction] at h; cases h
  | succ fuel ih =>
    intro c b h
    rw [CheckParentHasFunction] at h
    cases hp : mapFind c st.allTargetParents with
    | none =>
      rw [hp] at h
      cases h
      simp only [Bool.false_eq_true, false_iff]
      exact not_reachesHolder_of_stops st c f (Or.inl hp)
    | some p =>
      rw [hp] at h
      dsimp only at h
      cases hv : mapFind p st.allTargetVtables with
      | none =>
        rw [hv] at h
        cases h
        simp only [Bool.false_eq_true, false_iff]
        exact not_reachesHolder_of_stops st c f (Or.inr ⟨p, hp, hv⟩)
      | some sm =>
        rw [hv] at h
        dsimp only at h
        rw [reachesHolder_step st c p f sm hp hv]
        split_ifs at h with hval
        · cases h
          simp [hval]
        · rw [ih p b h]
          simp [hval]

/-- C15, as amended. For every accumulated state with a parent map without cycle,
every class `c` and every name `f`, `CheckParentHasFunction(c, f)` returns, and
it returns true if and only if some class reachable from `c` by one or more
steps of the parent map has a slot map that contains `f` as a value and every
class reached on the way to it has a slot map. Such a class is in particular
reachable from `c`; and when every class reachable from `c` has a slot map, the
function returns true if and only if some class reachable from `c` holds `f`. -/
theorem C15_true_iff_holder_behind_slot_maps (st : State) (hac : Acyclic st) (fuel : Nat)
    (hfuel : st.allTargetParents.length + 1 ≤ fuel) (c f : String) :
    (∃ b, CheckParentHasFunction fuel st c f = some b) ∧
    (CheckParentHasFunction fuel st c f = some true ↔ ReachesHolder st c f) ∧
    (ReachesHolder st c f →
      ∃ d m, Relation.TransGen (ParentStep st) c d ∧
        mapFind d st.allTargetVtables = some m ∧ valueExists m f = true) ∧
    ((∀ d, Relation.TransGen (ParentStep st) c d → ∃ m, mapFind d st.allTargetVtables = some m) →
      (CheckParentHasFunction fuel st c f = some true ↔
        ∃ d m, Relation.TransGen (ParentStep st) c d ∧
          mapFind d st.allTargetVtables = some m ∧ valueExists m f = true)) := by
  have hret : ∃ b, CheckParentHasFunction fuel st c f = some b := by
    cases h : CheckParentHasFunction fuel st c f with
    | none => exact absurd h (CheckParentHasFunction_ends st hac fuel hfuel c f)
    | some b => exact ⟨b, rfl⟩
  have hiff : CheckParentHasFunction fuel st c f = some true ↔ ReachesHolder st c f := by
    obtain ⟨b, hb⟩ := hret
    have hspec := CheckParentHasFunction_spec st f fuel c b hb
    rw [hb]
    constructor
    · intro h
      cases h
      exact hspec.1 rfl
    · intro h
      rw [hspec.2 h]
  have hreach : ReachesHolder st c f →
      ∃ d m, Relation.TransGen (ParentStep st) c d ∧
        mapFind d st.allTargetVtables = some m ∧ valueExists m f = true := by
    rintro ⟨k, d, m, hd, hm, hval, _⟩
    exact ⟨d, m, transGen_of_ancestorAt st k c d hd, hm, hval⟩
  refine ⟨hret, hiff, hreach, ?_⟩
  intro hall
  rw [hiff]
  constructor
  · exact hreach
  · rintro ⟨d, m, htg, hm, hval⟩
    obtain ⟨k, hk⟩ := ancestorAt_of_transGen st c d htg
    refine ⟨k, d, m, hk, hm, hval, ?_⟩
    intro j hj
    obtain ⟨e, he⟩ := ancestorAt_some_of_le st (j + 1) (k + 1) c d hk (by omega)
    obtain ⟨m2, hm2⟩ := hall e (transGen_of_ancestorAt st j c e he)
    exact ⟨e, m2, he, hm2⟩

theorem exampleAB_acyclic : Acyclic exampleAB :=
  acyclic_of_rank_pairs _ (fun c => if c = "B" then 1 else 0) (by decide)

theorem exampleGap_acyclic : Acyclic exampleGap :=
  acyclic_of_rank_pairs _
    (fun c => if c = "AGameMode" then 2 else if c = "AGameModeBase" then 1 else 0) (by decide)

/-- C15, witness: `B` with parent `A`, which holds `foo`. -/
theorem C15_true_iff_holder_behind_slot_maps_witness :
    CheckParentHasFunction 2 exampleAB "B" "foo" = some true ∧
    ((∃ b, CheckParentHasFunction 2 exampleAB "B" "foo" = some b) ∧
    (CheckParentHasFunction 2 exampleAB "B" "foo" = some true ↔
      ReachesHolder exampleAB "B" "foo") ∧
    (ReachesHolder exampleAB "B" "foo" →
      ∃ d m, Relation.TransGen (ParentStep exampleAB) "B" d ∧
        mapFind d exampleAB.allTargetVtables = some m ∧ valueExists m "foo" = true) ∧
    ((∀ d, Relation.TransGen (ParentStep exampleAB) "B" d →
        ∃ m, mapFind d exampleAB.allTargetVtables = some m) →
      (CheckParentHasFunction 2 exampleAB "B" "foo" = some true ↔
        ∃ d m, Relation.TransGen (ParentStep exampleAB) "B" d ∧
          mapFind d exampleAB.allTargetVtables = some m ∧ valueExists m "foo" = true))) :=
  ⟨by decide,
    C15_true_iff_holder_behind_slot_maps exampleAB exampleAB_acyclic 2 (by decide) "B" "foo"⟩

/-- C15, counterexample to the claim as stated: the parent map has no cycle,
`AActor` is reachable from `AGameMode` by two steps and its slot map contains
`f`, and `CheckParentHasFunction` returns false for `AGameMode` and `f`, with any
fuel, because `AGameModeBase` on the way has no slot map. -/
theorem C15_counterexample :
    Acyclic exampleGap ∧
    Relation.TransGen (ParentStep exampleGap) "AGameMode" "AActor" ∧
    mapFind "AActor" exampleGap.allTargetVtables = some [(3, "f")] ∧
    valueExists [(3, "f")] "f" = true ∧
    (∀ fuel, CheckParentHasFunction (fuel + 1) exampleGap "AGameMode" "f" = some false) :=
  ⟨exampleGap_acyclic,
    Relation.TransGen.tail
      (Relation.TransGen.single
        (show mapFind "AGameMode" exampleGap.allTargetParents = some "AGameModeBase" by decide))
      (show mapFind "AGameModeBase" exampleGap.allTargetParents = some "AActor" by decide),
    by decide, by decide, fun _ => rfl⟩

/-- C18. For every accumulated state whose parent map has no cycle and every
class `c`, the chain of ancestors of `c` reaches, after at most as many steps as
there are recorded parents, a first class that has no recorded parent or whose
recorded parent has no slot map. For every function name the recursion of
`CheckParentHasFunction` returns within a depth of one call per class of the
chain up to that class; and when the result is false the recursion ends exactly
at that class, since one call less does not suffice. -/
theorem C18_recursion_ends_at_first_stop (st : State) (hac : Acyclic st) (c : String) :
    ∃ k d, k ≤ st.allTargetParents.length ∧ ancestorAt st k c = some d ∧ Stops st d ∧
      (∀ j e, j < k → ancestorAt st j c = some e → ¬ Stops st e) ∧
      ∀ f fuel, k + 1 ≤ fuel →
        ∃ b, CheckParentHasFunction fuel st c f = some b ∧
          (b = false → CheckParentHasFunction k st c f = none) := by
  obtain ⟨k, d, hk, hd, hs, hfirst⟩ := first_stop st hac c
  refine ⟨k, d, hk, hd, hs, hfirst, ?_⟩
  intro f fuel hfuel
  obtain ⟨b, hb⟩ := CheckParentHasFunction_returns_at_stop st f k c d hd hs (k + 1) (by omega)
  refine ⟨b, CheckParentHasFunction_mono st f (k + 1) c b hb fuel hfuel, ?_⟩
  intro hfalse
  rw [hfalse] at hb
  exact CheckParentHasFunction_needs_depth st f k c hfirst hb

/-- C18, witness: the chain of `AGameMode`, which stops at `AGameMode` itself
because its recorded parent has no slot map. -/
theorem C18_recursion_ends_at_first_stop_witness :
    ∃ k d, k ≤ exampleGap.allTargetParents.length ∧
      ancestorAt exampleGap k "AGameMode" = some d ∧ Stops exampleGap d ∧
      (∀ j e, j < k → ancestorAt exampleGap j "AGameMode" = some e → ¬ Stops exampleGap e) ∧
      ∀ f fuel, k + 1 ≤ fuel →
        ∃ b, CheckParentHasFunction fuel exampleGap "AGameMode" f = some b ∧
          (b = false → CheckParentHasFunction k exampleGap "AGameMode" f = none) :=
  C18_recursion_ends_at_first_stop exampleGap exampleGap_acyclic "AGameMode"

/-! ## Member recording -/

theorem mapFind_mapInsert_nat {V : Type} (k k2 : Nat) (v : V) (m : List (Nat × V)) :
    mapFind k2 (mapInsert k v m) = if k2 = k then some v else mapFind k2 m :=
  mapFind_mapInsert k k2 v m

theorem lookupIn_nested_insert (tbl : List (String × List (Nat × String)))
    (c c2 : String) (k k2 : Nat) (n : String) :
    lookupIn (mapInsert c (mapInsert k n ((mapFind c tbl).getD [])) tbl) c2 k2 =
      if c2 = c ∧ k2 = k then some n else lookupIn tbl c2 k2 := by
  unfold lookupIn
  rw [mapFind_mapInsert_string]
  by_cases hc : c2 = c
  · subst hc
    simp only [if_true, Option.getD_some, mapFind_mapInsert_nat, true_and]
  · rw [if_neg hc, if_neg (fun h => hc h.1)]

theorem decodeChild_eq (D : DWARFDie) (st : State) (Child : DWARFDie)
    (hc : ClassNameExists (GetQualifiedName (some D)) VariableClassNames = true) :
    decodeChild D st Child =
      match memberRecord Child with
      | some r =>
        { st with allTargetVariables :=
            setMember (GetQualifiedName (some D)) r.1 r.2 st.allTargetVariables }
      | none => st := by
  unfold decodeChild memberRecord
  by_cases ht : Child.getTag = DW_TAG_member
  · simp only [if_pos ht]
    cases hn : Child.getShortName with
    | none => rfl
    | some mName =>
      dsimp only
      by_cases h0 : getVariableOffset Child > 0
      · simp [hc, h0]
      · simp [h0]
  · simp only [if_neg ht]

theorem foldl_decodeChild (D : DWARFDie)
    (hc : ClassNameExists (GetQualifiedName (some D)) VariableClassNames = true) :
    ∀ (cs : List DWARFDie) (st : State),
      (cs.foldl (decodeChild D) st).allTargetVariables =
        (cs.filterMap memberRecord).foldl
          (fun tbl r => setMember (GetQualifiedName (some D)) r.1 r.2 tbl)
          st.allTargetVariables := by
  intro cs
  induction cs with
  | nil => intro st; rfl
  | cons ch rest ih =>
    intro st
    rw [List.foldl_cons, ih, decodeChild_eq D st ch hc, List.filterMap_cons]
    cases memberRecord ch with
    | none => rfl
    | some r => rfl

theorem lookupIn_foldl_setMember (c : String) (k : Nat) :
    ∀ (recs : List (Nat × String)) (tbl : List (String × List (Nat × String))),
      lookupIn (recs.foldl (fun t r => setMember c r.1 r.2 t) tbl) c k =
        match lastRecorded k recs with
        | some n => some n
        | none => lookupIn tbl c k := by
  intro recs
  induction recs with
  | nil => intro tbl; rfl
  | cons r rest ih =>
    intro tbl
    rw [List.foldl_cons, ih, lastRecorded]
    cases lastRecorded k rest with
    | some n => rfl
    | none =>
      dsimp only
      unfold setMember
      rw [lookupIn_nested_insert]
      by_cases hk : r.1 = k
      · simp [hk]
      · have hk2 : ¬ k = r.1 := fun h => hk h.symm
        simp [hk, hk2]

theorem lastRecorded_isSome (k : Nat) :
    ∀ (recs : List (Nat × String)) (r : Nat × String), r ∈ recs → r.1 = k →
      ∃ n, lastRecorded k recs = some n
  | [], r, h, _ => by simp at h
  | q :: rest, r, h, hk => by
    rw [lastRecorded]
    cases hl : lastRecorded k rest with
    | some n => exact ⟨n, rfl⟩
    | none =>
      rcases List.mem_cons.1 h with h1 | h1
      · subst h1
        exact ⟨r.2, by simp [hk]⟩
      · obtain ⟨n, hn⟩ := lastRecorded_isSome k rest r h1 hk
        rw [hl] at hn
        cases hn

/-- Member recording up to the width of `getVariableOffset`. For every class
entry with a short name whose qualified name is in `VariableClassNames`, and
every direct member-tagged child that has a
short name and an unsigned-constant data_member_location value `v` whose low 16
bits are not all zero: after `DecodeClass` the member map of the class contains
the key `v mod 65536`, mapped to the name of the last child visited that is
recorded at this key; the key is `v` itself when `v` is below 65536. Keys at
which no child is recorded keep what the member map held before. -/
theorem member_recorded_at_low_16_bits (D : DWARFDie) (dn : String)
    (hD : D.getShortName = some dn)
    (hc : ClassNameExists (GetQualifiedName (some D)) VariableClassNames = true)
    (st : State) (Child : DWARFDie) (hmem : Child ∈ D.children)
    (htag : Child.getTag = DW_TAG_member) (n : String) (hn : Child.getShortName = some n)
    (v : Nat)
    (hv : findAttr DW_AT_data_member_location Child.node.attributes = some (.constant v))
    (h0 : v % 65536 ≠ 0) :
    (∃ name, lastRecorded (v % 65536) (D.children.filterMap memberRecord) = some name ∧
      lookupIn (DecodeClass D st).allTargetVariables (GetQualifiedName (some D)) (v % 65536) =
        some name ∧
      (v < 65536 →
        lookupIn (DecodeClass D st).allTargetVariables (GetQualifiedName (some D)) v =
          some name)) ∧
    (∀ k, lastRecorded k (D.children.filterMap memberRecord) = none →
      lookupIn (DecodeClass D st).allTargetVariables (GetQualifiedName (some D)) k =
        lookupIn st.allTargetVariables (GetQualifiedName (some D)) k) := by
  have hdec : (DecodeClass D st).allTargetVariables =
      (D.children.filterMap memberRecord).foldl
        (fun tbl r => setMember (GetQualifiedName (some D)) r.1 r.2 tbl)
        st.allTargetVariables := by
    unfold DecodeClass
    rw [hD]
    exact foldl_decodeChild D hc D.children st
  have hlook := fun k => lookupIn_foldl_setMember (GetQualifiedName (some D)) k
    (D.children.filterMap memberRecord) st.allTargetVariables
  have hoff : getVariableOffset Child = v % 65536 := by
    unfold getVariableOffset
    rw [hv]
  have hrec : memberRecord Child = some (v % 65536, n) := by
    unfold memberRecord
    rw [if_pos htag, hn]
    dsimp only
    rw [hoff, if_pos (by omega)]
  have hin : (v % 65536, n) ∈ D.children.filterMap memberRecord :=
    List.mem_filterMap.2 ⟨Child, hmem, hrec⟩
  obtain ⟨name, hname⟩ := lastRecorded_isSome (v % 65536) _ _ hin rfl
  constructor
  · refine ⟨name, hname, ?_, ?_⟩
    · rw [hdec, hlook, hname]
    · intro hlt
      have : v % 65536 = v := Nat.mod_eq_of_lt hlt
      rw [this] at hname
      rw [hdec, hlook, hname]
  · intro k hk
    rw [hdec, hlook, hk]

/-- Two members at offset 8: the key 8 holds the name of the second one. -/
theorem member_recorded_at_low_16_bits_witness :
    (DecodeClass exampleTwoAtEight State.empty).allTargetVariables =
      [("UObjectBase", [(8, "Second"), (16, "Other")])] ∧
    ((∃ name, lastRecorded (8 % 65536) (exampleTwoAtEight.children.filterMap memberRecord) =
        some name ∧
      lookupIn (DecodeClass exampleTwoAtEight State.empty).allTargetVariables
        (GetQualifiedName (some exampleTwoAtEight)) (8 % 65536) = some name ∧
      (8 < 65536 →
        lookupIn (DecodeClass exampleTwoAtEight State.empty).allTargetVariables
          (GetQualifiedName (some exampleTwoAtEight)) 8 = some name)) ∧
    (∀ k, lastRecorded k (exampleTwoAtEight.children.filterMap memberRecord) = none →
      lookupIn (DecodeClass exampleTwoAtEight State.empty).allTargetVariables
        (GetQualifiedName (some exampleTwoAtEight)) k =
        lookupIn State.empty.allTargetVariables (GetQualifiedName (some exampleTwoAtEight)) k)) :=
  ⟨by decide,
    member_recorded_at_low_16_bits exampleTwoAtEight "UObjectBase" (by decide) (by decide)
      State.empty
      ⟨.mk DW_TAG_member (some "First") [⟨DW_AT_data_member_location, .constant 8⟩] [],
        exampleTwoAtEight.node :: exampleTwoAtEight.ancestors⟩
      (List.mem_cons_self _ _) (by decide) "First" (by decide) 8 (by decide) (by decide)⟩

/-- C16, the code at the failing input. The member `Big` of the allow-listed
class `UObjectBase` has the unsigned-constant location 65544, not zero;
`getVariableOffset` returns it cut to 16 bits, and after `DecodeClass` the
member map of the class, whose keys are 32 bits wide, has no key 65544: the
member is recorded at key 8. -/
theorem C16_offset_truncated_to_16_bits :
    (DecodeClass exampleBigClass State.empty).allTargetVariables =
      [("UObjectBase", [(8, "Big")])] ∧
    lookupIn (DecodeClass exampleBigClass State.empty).allTargetVariables "UObjectBase" 65544 =
      none ∧
    GetQualifiedName (some exampleBigClass) = "UObjectBase" := by
  decide

/-! ## The suffix counter from ten on -/

/-- C17, the code at the failing input. The slot map of `UObject` holds eleven
functions named `f`, at slots 1 to 11, and no parent is recorded, so all eleven
are emitted. The eleventh is preceded by ten emitted entries of the same name;
it is printed as `f_a`, whereas the name followed by `_` and 10 in decimal is
`f_10`. -/
theorem C17_suffix_ten_printed_in_hex :
    emittedEntries 1 exampleEleven "UObject"
        [(1, "f"), (2, "f"), (3, "f"), (4, "f"), (5, "f"), (6, "f"), (7, "f"), (8, "f"),
          (9, "f"), (10, "f"), (11, "f")] =
      [(1, "f"), (2, "f"), (3, "f"), (4, "f"), (5, "f"), (6, "f"), (7, "f"), (8, "f"),
        (9, "f"), (10, "f"), (11, "f")] ∧
    (reconcile 1 exampleEleven).map (fun secs => secs.map (fun sec => (funcLines sec.2)[10]?)) =
      some [some ("f_a", 11)] ∧
    (mainVtable 1 exampleEleven).map (fun out => out[13]?) =
      some (some "f_a ####offset#### 0xb") ∧
    "f" ++ "_" ++ decString 10 = "f_10" ∧
    "f" ++ "_" ++ hexString 10 = "f_a" := by
  decide

/-! ## What the vtable walk records -/

/-- C19. `SearchVirtualFunction` returns the accumulators unchanged on every entry
whose tag is not subprogram, in particular on every class-tagged and every
structure-tagged entry, so the first branch of `SearcheFunction` records
nothing; and when the part of `SearcheFunction` that handles one entry changes
the accumulators, the entry is a subprogram with a short name, carries a
virtuality attribute, its containing-type attribute resolves to an entry, and
the qualified name of its parent is in `VtableClassNames`. -/
theorem C19_only_virtual_subprograms_record (resolve : Nat → Option DWARFDie) (D : DWARFDie)
    (st : State) :
    (D.getTag ≠ DW_TAG_subprogram → SearchVirtualFunction resolve D st = some st) ∧
    (D.getTag = DW_TAG_class_type ∨ D.getTag = DW_TAG_structure_type →
      SearchVirtualFunction resolve D st = some st) ∧
    (∀ st1, searchFunctionHere resolve D st = some st1 → st1 ≠ st →
      D.getTag = DW_TAG_subprogram ∧ (∃ fName, D.getShortName = some fName) ∧
      (∃ a ∈ D.node.attributes, a.Attr = DW_AT_virtuality) ∧
      (∃ R, D.getAttributeValueAsReferencedDie resolve DW_AT_containing_type = some R) ∧
      GetQualifiedName D.getParent ∈ VtableClassNames) := by
  have hnot : D.getTag ≠ DW_TAG_subprogram → SearchVirtualFunction resolve D st = some st := by
    intro ht
    unfold SearchVirtualFunction
    cases D.getShortName with
    | none => rfl
    | some fName =>
      have hv : isVirtualFunction D = false := by
        unfold isVirtualFunction
        rw [if_pos ht]
      simp only [hv, Bool.false_eq_true, if_false]
  have hclass : D.getTag = DW_TAG_class_type ∨ D.getTag = DW_TAG_structure_type →
      SearchVirtualFunction resolve D st = some st := by
    intro ht
    apply hnot
    rcases ht with ht | ht <;> rw [ht] <;> decide
  refine ⟨hnot, hclass, ?_⟩
  intro st1 h hne
  unfold searchFunctionHere at h
  dsimp only at h
  have h1 : (if D.getTag = DW_TAG_class_type ∨ D.getTag = DW_TAG_structure_type then
      SearchVirtualFunction resolve D st else some st) = some st := by
    split_ifs with ht
    · exact hclass ht
    · rfl
  rw [h1] at h
  dsimp only at h
  cases hr : D.getAttributeValueAsReferencedDie resolve DW_AT_containing_type with
  | none =>
    rw [hr] at h
    dsimp only at h
    cases h
    exact absurd rfl hne
  | some R =>
    rw [hr] at h
    dsimp only at h
    have htag : D.getTag = DW_TAG_subprogram := by
      by_contra ht
      rw [hnot ht] at h
      cases h
      exact hne rfl
    unfold SearchVirtualFunction at h
    cases hn : D.getShortName with
    | none =>
      rw [hn] at h
      cases h
      exact absurd rfl hne
    | some fName =>
      rw [hn] at h
      dsimp only at h
      by_cases hv : isVirtualFunction D = true
      · by_cases hc : ClassNameExists (GetQualifiedName D.getParent) VtableClassNames = true
        · refine ⟨htag, ⟨fName, rfl⟩, ?_, ⟨R, rfl⟩, ClassNameExists_mem hc⟩
          unfold isVirtualFunction at hv
          rw [if_neg (by simpa using htag)] at hv
          obtain ⟨a, ha, hat⟩ := List.any_eq_true.1 hv
          exact ⟨a, ha, by simpa using hat⟩
        · simp only [hv, hc, if_true, Bool.false_eq_true, if_false, Option.some.injEq] at h
          exact absurd h.symm hne
      · simp only [hv, Bool.false_eq_true, if_false, Option.some.injEq] at h
        exact absurd h.symm hne

/-- C19, witness: the structure `ICppStructOps` of the example unit records
nothing, and its virtual member `foo` changes the accumulators and meets every
condition. -/
theorem C19_only_virtual_subprograms_record_witness :
    SearchVirtualFunction exampleResolve ⟨exampleOps, [exampleOuter, exampleUnit]⟩ State.empty =
      some State.empty ∧
    searchFunctionHere exampleResolve ⟨exampleFoo 10, [exampleOps, exampleOuter, exampleUnit]⟩
        State.empty =
      some ⟨[], [("UScriptStruct::ICppStructOps", [(3, "foo")])], []⟩ ∧
    (exampleFoo 10).tag = DW_TAG_subprogram ∧
    GetQualifiedName
        (DWARFDie.getParent ⟨exampleFoo 10, [exampleOps, exampleOuter, exampleUnit]⟩) ∈
      VtableClassNames :=
  ⟨(C19_only_virtual_subprograms_record exampleResolve
      ⟨exampleOps, [exampleOuter, exampleUnit]⟩ State.empty).2.1 (Or.inr (by decide)),
    by decide,
    ((C19_only_virtual_subprograms_record exampleResolve
      ⟨exampleFoo 10, [exampleOps, exampleOuter, exampleUnit]⟩ State.empty).2.2 _
        (show searchFunctionHere exampleResolve
            ⟨exampleFoo 10, [exampleOps, exampleOuter, exampleUnit]⟩ State.empty =
          some ⟨[], [("UScriptStruct::ICppStructOps", [(3, "foo")])], []⟩ by decide)
        (by decide)).1,
    by decide⟩

/-! ## Walking a tree twice

The writes of a walk do not depend on the accumulators, so a second walk repeats
the writes of the first. Key by key, the second walk holds either what the first
walk held at the same step or what the first walk ended with; at the end both
are the same, and two ordered maps with the same content are equal. -/

theorem head_key_le {K V : Type} [LinearOrder K] [DecidableEq K] (k k2 : K) (v v2 : V)
    (rb : List (K × V)) (hb : ∀ a ∈ rb.map Prod.fst, k2 < a)
    (h : mapFind k ((k2, v2) :: rb) = some v) : k2 ≤ k := by
  rcases List.mem_cons.1 (mapFind_mem h) with h1 | h1
  · cases h1; exact le_refl _
  · exact le_of_lt (hb k (List.mem_map_of_mem Prod.fst h1))

theorem sortedKeys_ext {K V : Type} [LinearOrder K] [DecidableEq K] :
    ∀ (a b : List (K × V)), SortedKeys a → SortedKeys b →
      (∀ k, mapFind k a = mapFind k b) → a = b
  | [], [], _, _, _ => rfl
  | [], (k, v) :: _, _, _, h => by
    have := h k
    simp [mapFind] at this
  | (k, v) :: _, [], _, _, h => by
    have := h k
    simp [mapFind] at this
  | (k1, v1) :: ra, (k2, v2) :: rb, ha, hb, h => by
    unfold SortedKeys at ha hb
    simp only [List.map_cons, List.pairwise_cons] at ha hb
    have h1 : mapFind k1 ((k1, v1) :: ra) = some v1 := by simp [mapFind]
    have h2 : mapFind k2 ((k2, v2) :: rb) = some v2 := by simp [mapFind]
    have hle1 : k2 ≤ k1 := head_key_le k1 k2 v1 v2 rb hb.1 ((h k1).symm.trans h1)
    have hle2 : k1 ≤ k2 := head_key_le k2 k1 v2 v1 ra ha.1 ((h k2).trans h2)
    have hk : k1 = k2 := le_antisymm hle2 hle1
    subst hk
    have hv : v1 = v2 := by
      have := h k1
      simpa [mapFind] using this
    subst hv
    have htail : ∀ k, mapFind k ra = mapFind k rb := by
      intro k
      by_cases hk : k = k1
      · subst hk
        have e1 : mapFind k ra = none :=
          mapFind_eq_none_iff.2 (fun p hp => ne_of_gt (ha.1 _ (List.mem_map_of_mem Prod.fst hp)))
        have e2 : mapFind k rb = none :=
          mapFind_eq_none_iff.2 (fun p hp => ne_of_gt (hb.1 _ (List.mem_map_of_mem Prod.fst hp)))
        rw [e1, e2]
      · have := h k
        simpa [mapFind, hk] using this
    rw [sortedKeys_ext ra rb ha.2 hb.2 htail]

theorem sortedKeys_ext_string {V : Type} (a b : List (String × V)) (ha : SortedKeys a)
    (hb : SortedKeys b) (h : ∀ k, mapFind k a = mapFind k b) : a = b :=
  sortedKeys_ext a b ha hb h

theorem sortedKeys_ext_nat {V : Type} (a b : List (Nat × V)) (ha : SortedKeys a)
    (hb : SortedKeys b) (h : ∀ k, mapFind k a = mapFind k b) : a = b :=
  sortedKeys_ext a b ha hb h

theorem nested_ext (a b : List (String × List (Nat × String)))
    (ha : SortedKeys a) (hb : SortedKeys b)
    (ha2 : ∀ p ∈ a, SortedKeys p.2) (hb2 : ∀ p ∈ b, SortedKeys p.2)
    (h1 : ∀ c, (mapFind c a).isSome = (mapFind c b).isSome)
    (h2 : ∀ c k, lookupIn a c k = lookupIn b c k) : a = b := by
  apply sortedKeys_ext_string a b ha hb
  intro c
  have hs := h1 c
  cases hca : mapFind c a with
  | none =>
    cases hcb : mapFind c b with
    | none => rfl
    | some lb => rw [hca, hcb] at hs; simp at hs
  | some la =>
    cases hcb : mapFind c b with
    | none => rw [hca, hcb] at hs; simp at hs
    | some lb =>
      have hl : la = lb := by
        apply sortedKeys_ext_nat la lb (ha2 _ (mapFind_mem hca)) (hb2 _ (mapFind_mem hcb))
        intro k
        have := h2 c k
        unfold lookupIn at this
        rw [hca, hcb] at this
        exact this
      rw [hl]

theorem tracksFlat_write (X S T : List (String × String)) (c p : String)
    (h : TracksFlat X S T) : TracksFlat X (mapInsert c p S) (mapInsert c p T) := by
  intro c2
  rw [mapFind_mapInsert_string, mapFind_mapInsert_string]
  by_cases hc : c2 = c
  · left; rw [if_pos hc, if_pos hc]
  · rw [if_neg hc, if_neg hc]; exact h c2

theorem isSome_nested_insert {V : Type} (tbl : List (String × V)) (c c2 : String) (inner : V) :
    (mapFind c2 (mapInsert c inner tbl)).isSome =
      if c2 = c then true else (mapFind c2 tbl).isSome := by
  rw [mapFind_mapInsert_string]
  split_ifs <;> rfl

theorem tracksNested_write (X S T : List (String × List (Nat × String))) (c : String) (k : Nat)
    (n : String) (h : TracksNested X S T) :
    TracksNested X (setMember c k n S) (setMember c k n T) := by
  unfold setMember
  refine ⟨fun c2 => ?_, fun c2 k2 => ?_⟩
  · rw [isSome_nested_insert, isSome_nested_insert]
    by_cases hc : c2 = c
    · left; rw [if_pos hc, if_pos hc]
    · rw [if_neg hc, if_neg hc]; exact h.1 c2
  · rw [lookupIn_nested_insert, lookupIn_nested_insert]
    by_cases hc : c2 = c ∧ k2 = k
    · left; rw [if_pos hc, if_pos hc]
    · rw [if_neg hc, if_neg hc]; exact h.2 c2 k2

theorem tracks_init (X S : State) : Tracks X S X :=
  ⟨fun _ => Or.inr rfl, ⟨fun _ => Or.inr rfl, fun _ _ => Or.inr rfl⟩,
    ⟨fun _ => Or.inr rfl, fun _ _ => Or.inr rfl⟩⟩

theorem tracks_final (X T : State) (h : Tracks X X T) (hX : X.WF) (hT : T.WF) : T = X := by
  obtain ⟨hp, hv, hm⟩ := h
  have e1 : T.allTargetParents = X.allTargetParents :=
    sortedKeys_ext_string _ _ hT.parents_sorted hX.parents_sorted (fun c => (hp c).elim id id)
  have e2 : T.allTargetVtables = X.allTargetVtables :=
    nested_ext _ _ hT.vtables_sorted hX.vtables_sorted hT.slots_sorted hX.slots_sorted
      (fun c => (hv.1 c).elim id id) (fun c k => (hv.2 c k).elim id id)
  have e3 : T.allTargetVariables = X.allTargetVariables :=
    nested_ext _ _ hT.variables_sorted hX.variables_sorted hT.members_sorted hX.members_sorted
      (fun c => (hm.1 c).elim id id) (fun c k => (hm.2 c k).elim id id)
  cases T
  cases X
  simp only at e1 e2 e3
  subst e1 e2 e3
  rfl

theorem SearchVirtualFunction_tracks (X : State) (resolve : Nat → Option DWARFDie)
    (D : DWARFDie) (S S1 T : State) (h : SearchVirtualFunction resolve D S = some S1)
    (hr : Tracks X S T) :
    ∃ T1, SearchVirtualFunction resolve D T = some T1 ∧ Tracks X S1 T1 := by
  unfold SearchVirtualFunction at h ⊢
  cases hn : D.getShortName with
  | none =>
    simp only [hn] at h ⊢
    cases h
    exact ⟨T, rfl, hr⟩
  | some fName =>
    simp only [hn] at h ⊢
    by_cases hv : isVirtualFunction D = true
    · by_cases hc : ClassNameExists (GetQualifiedName D.getParent) VtableClassNames = true
      · simp only [hv, hc, if_true] at h ⊢
        cases ho : getVirtualFunctionOffset D with
        | none => simp [ho] at h
        | some offset =>
          simp only [ho, Option.some.injEq] at h ⊢
          subst h
          refine ⟨_, rfl, ?_, ?_, hr.2.2⟩
          · dsimp only
            cases getShortNameOpt (getParentClass resolve D.getParent) with
            | none => exact hr.1
            | some pn => exact tracksFlat_write _ _ _ _ pn hr.1
          · exact tracksNested_write _ _ _ _ offset fName hr.2.1
      · simp only [hv, hc, if_true, Bool.false_eq_true, if_false, Option.some.injEq] at h ⊢
        subst h
        exact ⟨T, rfl, hr⟩
    · simp only [hv, Bool.false_eq_true, if_false, Option.some.injEq] at h ⊢
      subst h
      exact ⟨T, rfl, hr⟩

theorem decodeChild_tracks (X : State) (D : DWARFDie) (S T : State) (Child : DWARFDie)
    (hr : Tracks X S T) : Tracks X (decodeChild D S Child) (decodeChild D T Child) := by
  unfold decodeChild
  split_ifs with ht
  · dsimp only
    cases hn : Child.getShortName with
    | none => exact hr
    | some mName =>
      dsimp only
      split_ifs with hc
      · exact ⟨hr.1, hr.2.1, tracksNested_write _ _ _ _ _ mName hr.2.2⟩
      · exact hr
  · exact hr

/-! ### Two walks side by side -/

theorem searchFunctionHere_lockstep (R : State → State → Prop)
    (resolve : Nat → Option DWARFDie)
    (hR : ∀ D S S1 T, SearchVirtualFunction resolve D S = some S1 → R S T →
      ∃ T1, SearchVirtualFunction resolve D T = some T1 ∧ R S1 T1)
    (D : DWARFDie) {S S1 T : State} (h : searchFunctionHere resolve D S = some S1)
    (hst : R S T) : ∃ T1, searchFunctionHere resolve D T = some T1 ∧ R S1 T1 := by
  unfold searchFunctionHere at h ⊢
  dsimp only at h ⊢
  have key : ∀ S2, (if D.getTag = DW_TAG_class_type ∨ D.getTag = DW_TAG_structure_type then
        SearchVirtualFunction resolve D S else some S) = some S2 →
      ∃ T2, (if D.getTag = DW_TAG_class_type ∨ D.getTag = DW_TAG_structure_type then
        SearchVirtualFunction resolve D T else some T) = some T2 ∧ R S2 T2 := by
    intro S2 hs
    by_cases ht : D.getTag = DW_TAG_class_type ∨ D.getTag = DW_TAG_structure_type
    · rw [if_pos ht] at hs ⊢
      exact hR D S S2 T hs hst
    · rw [if_neg ht] at hs ⊢
      cases hs
      exact ⟨T, rfl, hst⟩
  generalize hg : (if D.getTag = DW_TAG_class_type ∨ D.getTag = DW_TAG_structure_type then
      SearchVirtualFunction resolve D S else some S) = r at h
  cases r with
  | none => simp at h
  | some S2 =>
    obtain ⟨T2, hT2, hr2⟩ := key S2 hg
    rw [hT2]
    dsimp only at h ⊢
    cases hr : D.getAttributeValueAsReferencedDie resolve DW_AT_containing_type with
    | none =>
      rw [hr] at h
      dsimp only at h ⊢
      cases h
      exact ⟨T2, rfl, hr2⟩
    | some d =>
      rw [hr] at h
      dsimp only at h ⊢
      exact hR D S2 S1 T2 h hr2

mutual
theorem SearcheFunction_lockstep (R : State → State → Prop) (resolve : Nat → Option DWARFDie)
    (hR : ∀ D S S1 T, SearchVirtualFunction resolve D S = some S1 → R S T →
      ∃ T1, SearchVirtualFunction resolve D T = some T1 ∧ R S1 T1) :
    ∀ (n : DieNode) (anc : List DieNode) (S S1 T : State),
      SearcheFunction resolve n anc S = some S1 → R S T →
      ∃ T1, SearcheFunction resolve n anc T = some T1 ∧ R S1 T1
  | .mk tag name attrs cs, anc, S, S1, T, h, hst => by
    rw [SearcheFunction] at h ⊢
    split at h
    · cases h
    · rename_i S2 h2
      obtain ⟨T2, hT2, hr2⟩ := searchFunctionHere_lockstep R resolve hR _ h2 hst
      rw [hT2]
      exact SearcheFunctionChildren_lockstep R resolve hR cs _ S2 S1 T2 h hr2
theorem SearcheFunctionChildren_lockstep (R : State → State → Prop)
    (resolve : Nat → Option DWARFDie)
    (hR : ∀ D S S1 T, SearchVirtualFunction resolve D S = some S1 → R S T →
      ∃ T1, SearchVirtualFunction resolve D T = some T1 ∧ R S1 T1) :
    ∀ (cs : List DieNode) (anc : List DieNode) (S S1 T : State),
      SearcheFunctionChildren resolve cs anc S = some S1 → R S T →
      ∃ T1, SearcheFunctionChildren resolve cs anc T = some T1 ∧ R S1 T1
  | [], _, S, S1, T, h, hst => by
    rw [SearcheFunctionChildren] at h ⊢
    cases h
    exact ⟨T, rfl, hst⟩
  | c :: cs, anc, S, S1, T, h, hst => by
    rw [SearcheFunctionChildren] at h ⊢
    split at h
    · cases h
    · rename_i S2 h2
      obtain ⟨T2, hT2, hr2⟩ := SearcheFunction_lockstep R resolve hR c anc S S2 T h2 hst
      rw [hT2]
      exact SearcheFunctionChildren_lockstep R resolve hR cs anc S2 S1 T2 h hr2
end

theorem DecodeClass_lockstep (R : State → State → Prop)
    (hR : ∀ D S T Child, R S T → R (decodeChild D S Child) (decodeChild D T Child))
    (D : DWARFDie) (S T : State) (hst : R S T) : R (DecodeClass D S) (DecodeClass D T) := by
  unfold DecodeClass
  cases D.getShortName with
  | none => exact hst
  | some dn =>
    dsimp only
    generalize D.children = cs
    induction cs generalizing S T with
    | nil => exact hst
    | cons c cs ih => exact ih _ _ (hR D S T c hst)

theorem searchClassHere_lockstep (R : State → State → Prop)
    (hR : ∀ D S T Child, R S T → R (decodeChild D S Child) (decodeChild D T Child))
    (resolve : Nat → Option DWARFDie) (D : DWARFDie) (S T : State) (hst : R S T) :
    R (searchClassHere resolve D S) (searchClassHere resolve D T) := by
  unfold searchClassHere
  have h1 : R (if D.getTag = DW_TAG_class_type ∨ D.getTag = DW_TAG_structure_type then
      DecodeClass D S else S)
      (if D.getTag = DW_TAG_class_type ∨ D.getTag = DW_TAG_structure_type then
      DecodeClass D T else T) := by
    by_cases ht : D.getTag = DW_TAG_class_type ∨ D.getTag = DW_TAG_structure_type
    · rw [if_pos ht, if_pos ht]
      exact DecodeClass_lockstep R hR D S T hst
    · rw [if_neg ht, if_neg ht]
      exact hst
  dsimp only
  cases D.getAttributeValueAsReferencedDie resolve DW_AT_containing_type with
  | none => exact h1
  | some d => exact DecodeClass_lockstep R hR D _ _ h1

mutual
theorem SearchClass_lockstep (R : State → State → Prop)
    (hR : ∀ D S T Child, R S T → R (decodeChild D S Child) (decodeChild D T Child))
    (resolve : Nat → Option DWARFDie) :
    ∀ (n : DieNode) (anc : List DieNode) (S T : State), R S T →
      R (SearchClass resolve n anc S) (SearchClass resolve n anc T)
  | .mk tag name attrs cs, anc, S, T, hst => by
    rw [SearchClass, SearchClass]
    exact SearchClassChildren_lockstep R hR resolve cs _ _ _
      (searchClassHere_lockstep R hR resolve _ S T hst)
theorem SearchClassChildren_lockstep (R : State → State → Prop)
    (hR : ∀ D S T Child, R S T → R (decodeChild D S Child) (decodeChild D T Child))
    (resolve : Nat → Option DWARFDie) :
    ∀ (cs : List DieNode) (anc : List DieNode) (S T : State), R S T →
      R (SearchClassChildren resolve cs anc S) (SearchClassChildren resolve cs anc T)
  | [], _, S, T, hst => by
    rw [SearchClassChildren, SearchClassChildren]
    exact hst
  | c :: cs, anc, S, T, hst => by
    rw [SearchClassChildren, SearchClassChildren]
    exact SearchClassChildren_lockstep R hR resolve cs anc _ _
      (SearchClass_lockstep R hR resolve c anc S T hst)
end

theorem LoadDwarfFile_lockstep (R : State → State → Prop) (resolve : Nat → Option DWARFDie)
    (hV : ∀ D S S1 T, SearchVirtualFunction resolve D S = some S1 → R S T →
      ∃ T1, SearchVirtualFunction resolve D T = some T1 ∧ R S1 T1)
    (hM : ∀ D S T Child, R S T → R (decodeChild D S Child) (decodeChild D T Child))
    (code_type : Int) (units : List DieNode) (S S1 T : State)
    (h : LoadDwarfFile resolve code_type units S = some S1) (hst : R S T) :
    ∃ T1, LoadDwarfFile resolve code_type units T = some T1 ∧ R S1 T1 := by
  induction units generalizing S T with
  | nil =>
    simp only [LoadDwarfFile] at h ⊢
    cases h
    exact ⟨T, rfl, hst⟩
  | cons cu rest ih =>
    simp only [LoadDwarfFile] at h ⊢
    by_cases h0 : code_type = 0
    · rw [if_pos h0] at h ⊢
      cases hs : SearcheFunction resolve cu [] S with
      | none => rw [hs] at h; cases h
      | some S2 =>
        rw [hs] at h
        obtain ⟨T2, hT2, hr2⟩ := SearcheFunction_lockstep R resolve hV cu [] S S2 T hs hst
        rw [hT2]
        exact ih S2 T2 h hr2
    · rw [if_neg h0] at h ⊢
      by_cases h1 : code_type = 1
      · rw [if_pos h1] at h ⊢
        exact ih _ _ h (SearchClass_lockstep R hM resolve cu [] S T hst)
      · rw [if_neg h1] at h ⊢
        exact ih _ _ h hst

/-! ### A second walk changes nothing -/

theorem SearcheFunction_twice (resolve : Nat → Option DWARFDie) (n : DieNode)
    (anc : List DieNode) (st st1 : State) (hwf : st.WF)
    (h : SearcheFunction resolve n anc st = some st1) :
    SearcheFunction resolve n anc st1 = some st1 := by
  have hwf1 : st1.WF :=
    SearcheFunction_preserves State.WF resolve (SearchVirtualFunction_wf resolve) n anc st st1 h hwf
  obtain ⟨T1, hT1, hr⟩ := SearcheFunction_lockstep (Tracks st1) resolve
    (SearchVirtualFunction_tracks st1 resolve) n anc st st1 st1 h (tracks_init st1 st)
  have hwfT : T1.WF :=
    SearcheFunction_preserves State.WF resolve (SearchVirtualFunction_wf resolve) n anc st1 T1 hT1
      hwf1
  rw [hT1, tracks_final st1 T1 hr hwf1 hwfT]

theorem SearchVirtualFunction_twice (resolve : Nat → Option DWARFDie) (D : DWARFDie)
    (st st1 : State) (hwf : st.WF) (h : SearchVirtualFunction resolve D st = some st1) :
    SearchVirtualFunction resolve D st1 = some st1 := by
  have hwf1 : st1.WF := SearchVirtualFunction_wf resolve D st st1 h hwf
  obtain ⟨T1, hT1, hr⟩ := SearchVirtualFunction_tracks st1 resolve D st st1 st1 h
    (tracks_init st1 st)
  have hwfT : T1.WF := SearchVirtualFunction_wf resolve D st1 T1 hT1 hwf1
  rw [hT1, tracks_final st1 T1 hr hwf1 hwfT]

theorem SearchClass_twice (resolve : Nat → Option DWARFDie) (n : DieNode) (anc : List DieNode)
    (st : State) (hwf : st.WF) :
    SearchClass resolve n anc (SearchClass resolve n anc st) = SearchClass resolve n anc st := by
  have hwf1 : (SearchClass resolve n anc st).WF :=
    SearchClass_preserves State.WF decodeChild_wf resolve n anc st hwf
  exact tracks_final _ _
    (SearchClass_lockstep (Tracks (SearchClass resolve n anc st))
      (decodeChild_tracks _) resolve n anc st _ (tracks_init _ st))
    hwf1 (SearchClass_preserves State.WF decodeChild_wf resolve n anc _ hwf1)

theorem DecodeClass_twice (D : DWARFDie) (st : State) (hwf : st.WF) :
    DecodeClass D (DecodeClass D st) = DecodeClass D st := by
  have hwf1 : (DecodeClass D st).WF := DecodeClass_preserves State.WF decodeChild_wf D st hwf
  exact tracks_final _ _
    (DecodeClass_lockstep (Tracks (DecodeClass D st)) (decodeChild_tracks _) D st _
      (tracks_init _ st))
    hwf1 (DecodeClass_preserves State.WF decodeChild_wf D _ hwf1)

theorem LoadDwarfFile_twice (resolve : Nat → Option DWARFDie) (code_type : Int)
    (units : List DieNode) (st st1 : State) (hwf : st.WF)
    (h : LoadDwarfFile resolve code_type units st = some st1) :
    LoadDwarfFile resolve code_type units st1 = some st1 := by
  have hwf1 : st1.WF :=
    LoadDwarfFile_preserves State.WF resolve (SearchVirtualFunction_wf resolve) decodeChild_wf
      code_type units st st1 h hwf
  obtain ⟨T1, hT1, hr⟩ := LoadDwarfFile_lockstep (Tracks st1) resolve
    (SearchVirtualFunction_tracks st1 resolve) (decodeChild_tracks st1) code_type units st st1 st1
    h (tracks_init st1 st)
  have hwfT : T1.WF :=
    LoadDwarfFile_preserves State.WF resolve (SearchVirtualFunction_wf resolve) decodeChild_wf
      code_type units st1 T1 hT1 hwf1
  rw [hT1, tracks_final st1 T1 hr hwf1 hwfT]

theorem LoadDwarfFile_append (resolve : Nat → Option DWARFDie) (code_type : Int)
    (a b : List DieNode) (st : State) :
    LoadDwarfFile resolve code_type (a ++ b) st =
      (LoadDwarfFile resolve code_type a st).bind (LoadDwarfFile resolve code_type b) := by
  induction a generalizing st with
  | nil => rfl
  | cons cu rest ih =>
    simp only [List.cons_append, LoadDwarfFile]
    by_cases h0 : code_type = 0
    · rw [if_pos h0, if_pos h0]
      cases SearcheFunction resolve cu [] st with
      | none => rfl
      | some st2 => exact ih st2
    · rw [if_neg h0, if_neg h0]
      by_cases h1 : code_type = 1
      · rw [if_pos h1, if_pos h1]
        exact ih _
      · rw [if_neg h1, if_neg h1]
        exact ih _

theorem main_units_twice (fuel : Nat) (resolve : Nat → Option DWARFDie) (units : List DieNode)
    (codeType : Int) :
    main fuel resolve (units ++ units) codeType = main fuel resolve units codeType := by
  unfold main
  rw [LoadDwarfFile_append]
  cases h : LoadDwarfFile resolve codeType units State.empty with
  | none => rfl
  | some st =>
    have h2 : (some st).bind (LoadDwarfFile resolve codeType units) = some st :=
      LoadDwarfFile_twice resolve codeType units State.empty st wf_empty h
    rw [h2]

/-! ### The same entry below two unit entries

A walk reads the ancestors of an entry only through the qualified name and
through the children of the parent; a unit entry adds nothing to a qualified
name. So the walk of an entry does the same below any unit entry. -/

theorem qualifiedNameLoop_append (a b : List DieNode) (q : String) :
    qualifiedNameLoop (a ++ b) q = qualifiedNameLoop b (qualifiedNameLoop a q) := by
  induction a generalizing q with
  | nil => rfl
  | cons n rest ih =>
    simp only [List.cons_append, qualifiedNameLoop]
    exact ih _

theorem qualifiedNameLoop_unit (cu : DieNode) (hcu : cu.tag = DW_TAG_compile_unit)
    (q : String) : qualifiedNameLoop [cu] q = q := by
  simp [qualifiedNameLoop, qualifiedNameStep, hcu]

theorem qualifiedNameLoop_below_unit (cu1 cu2 : DieNode) (h1 : cu1.tag = DW_TAG_compile_unit)
    (h2 : cu2.tag = DW_TAG_compile_unit) (path : List DieNode) (q : String) :
    qualifiedNameLoop (path ++ [cu1]) q = qualifiedNameLoop (path ++ [cu2]) q := by
  rw [qualifiedNameLoop_append, qualifiedNameLoop_append, qualifiedNameLoop_unit cu1 h1,
    qualifiedNameLoop_unit cu2 h2]

theorem getParentClassLoop_nodes (resolve : Nat → Option DWARFDie) (a1 a2 : List DieNode)
    (cs : List DieNode) :
    getParentClassLoop resolve (cs.map (fun c => (⟨c, a1⟩ : DWARFDie))) =
      getParentClassLoop resolve (cs.map (fun c => (⟨c, a2⟩ : DWARFDie))) := by
  induction cs with
  | nil => rfl
  | cons c rest ih =>
    simp only [List.map_cons, getParentClassLoop, DWARFDie.getTag,
      DWARFDie.getAttributeValueAsReferencedDie, ih]

theorem SearchVirtualFunction_congr (resolve : Nat → Option DWARFDie) (D1 D2 : DWARFDie)
    (st : State) (hn : D1.node = D2.node)
    (hq : GetQualifiedName D1.getParent = GetQualifiedName D2.getParent)
    (hp : getShortNameOpt (getParentClass resolve D1.getParent) =
      getShortNameOpt (getParentClass resolve D2.getParent)) :
    SearchVirtualFunction resolve D1 st = SearchVirtualFunction resolve D2 st := by
  unfold SearchVirtualFunction isVirtualFunction getVirtualFunctionOffset
    DWARFDie.getShortName DWARFDie.getTag
  rw [hn, hq, hp]

theorem SearchVirtualFunction_not_listed (resolve : Nat → Option DWARFDie) (D : DWARFDie)
    (st : State)
    (h : ClassNameExists (GetQualifiedName D.getParent) VtableClassNames = false) :
    SearchVirtualFunction resolve D st = some st := by
  unfold SearchVirtualFunction
  cases D.getShortName with
  | none => rfl
  | some fName =>
    dsimp only
    rw [h]
    simp

theorem SearchVirtualFunction_below_unit (resolve : Nat → Option DWARFDie) (cu1 cu2 : DieNode)
    (h1 : cu1.tag = DW_TAG_compile_unit) (h2 : cu2.tag = DW_TAG_compile_unit) (m : DieNode)
    (path : List DieNode) (st : State) :
    SearchVirtualFunction resolve ⟨m, path ++ [cu1]⟩ st =
      SearchVirtualFunction resolve ⟨m, path ++ [cu2]⟩ st := by
  cases path with
  | nil =>
    have e1 : ClassNameExists (GetQualifiedName (DWARFDie.getParent ⟨m, [] ++ [cu1]⟩))
        VtableClassNames = false := by
      show ClassNameExists (qualifiedNameLoop [cu1] "") VtableClassNames = false
      rw [qualifiedNameLoop_unit cu1 h1]
      decide
    have e2 : ClassNameExists (GetQualifiedName (DWARFDie.getParent ⟨m, [] ++ [cu2]⟩))
        VtableClassNames = false := by
      show ClassNameExists (qualifiedNameLoop [cu2] "") VtableClassNames = false
      rw [qualifiedNameLoop_unit cu2 h2]
      decide
    rw [SearchVirtualFunction_not_listed resolve _ st e1,
      SearchVirtualFunction_not_listed resolve _ st e2]
  | cons x p =>
    refine SearchVirtualFunction_congr resolve ⟨m, x :: p ++ [cu1]⟩ ⟨m, x :: p ++ [cu2]⟩ st rfl
      ?_ ?_
    · exact qualifiedNameLoop_below_unit cu1 cu2 h1 h2 (x :: p) ""
    · exact congrArg getShortNameOpt (getParentClassLoop_nodes resolve _ _ x.children)

theorem searchFunctionHere_below_unit (resolve : Nat → Option DWARFDie) (cu1 cu2 : DieNode)
    (h1 : cu1.tag = DW_TAG_compile_unit) (h2 : cu2.tag = DW_TAG_compile_unit) (m : DieNode)
    (path : List DieNode) (st : State) :
    searchFunctionHere resolve ⟨m, path ++ [cu1]⟩ st =
      searchFunctionHere resolve ⟨m, path ++ [cu2]⟩ st := by
  unfold searchFunctionHere DWARFDie.getTag DWARFDie.getAttributeValueAsReferencedDie
  simp only [SearchVirtualFunction_below_unit resolve cu1 cu2 h1 h2 m path]

mutual
theorem SearcheFunction_below_unit (resolve : Nat → Option DWARFDie) (cu1 cu2 : DieNode)
    (h1 : cu1.tag = DW_TAG_compile_unit) (h2 : cu2.tag = DW_TAG_compile_unit) :
    ∀ (n : DieNode) (path : List DieNode) (st : State),
      SearcheFunction resolve n (path ++ [cu1]) st = SearcheFunction resolve n (path ++ [cu2]) st
  | .mk tag name attrs cs, path, st => by
    rw [SearcheFunction, SearcheFunction,
      searchFunctionHere_below_unit resolve cu1 cu2 h1 h2 _ path st]
    cases searchFunctionHere resolve ⟨.mk tag name attrs cs, path ++ [cu2]⟩ st with
    | none => rfl
    | some st1 =>
      exact SearcheFunctionChildren_below_unit resolve cu1 cu2 h1 h2 cs
        (.mk tag name attrs cs :: path) st1
theorem SearcheFunctionChildren_below_unit (resolve : Nat → Option DWARFDie)
    (cu1 cu2 : DieNode) (h1 : cu1.tag = DW_TAG_compile_unit)
    (h2 : cu2.tag = DW_TAG_compile_unit) :
    ∀ (cs : List DieNode) (path : List DieNode) (st : State),
      SearcheFunctionChildren resolve cs (path ++ [cu1]) st =
        SearcheFunctionChildren resolve cs (path ++ [cu2]) st
  | [], path, st => by
    rw [SearcheFunctionChildren, SearcheFunctionChildren]
  | c :: cs, path, st => by
    rw [SearcheFunctionChildren, SearcheFunctionChildren,
      SearcheFunction_below_unit resolve cu1 cu2 h1 h2 c path st]
    cases SearcheFunction resolve c (path ++ [cu2]) st with
    | none => rfl
    | some st1 => exact SearcheFunctionChildren_below_unit resolve cu1 cu2 h1 h2 cs path st1
end

theorem decodeChild_congr (D1 D2 : DWARFDie)
    (hq : GetQualifiedName (some D1) = GetQualifiedName (some D2)) (st : State) (c : DieNode)
    (a1 a2 : List DieNode) : decodeChild D1 st ⟨c, a1⟩ = decodeChild D2 st ⟨c, a2⟩ := by
  unfold decodeChild getVariableOffset DWARFDie.getTag DWARFDie.getShortName
  dsimp only
  rw [hq]

theorem DecodeClass_congr (D1 D2 : DWARFDie) (hn : D1.node = D2.node)
    (hq : GetQualifiedName (some D1) = GetQualifiedName (some D2)) (st : State) :
    DecodeClass D1 st = DecodeClass D2 st := by
  unfold DecodeClass DWARFDie.getShortName DWARFDie.children
  rw [hn]
  cases D2.node.shortName with
  | none => rfl
  | some dn =>
    dsimp only
    rw [List.foldl_map, List.foldl_map]
    congr 1
    funext acc c
    exact decodeChild_congr D1 D2 hq acc c _ _

theorem searchClassHere_below_unit (resolve : Nat → Option DWARFDie) (cu1 cu2 : DieNode)
    (h1 : cu1.tag = DW_TAG_compile_unit) (h2 : cu2.tag = DW_TAG_compile_unit) (m : DieNode)
    (path : List DieNode) (st : State) :
    searchClassHere resolve ⟨m, path ++ [cu1]⟩ st =
      searchClassHere resolve ⟨m, path ++ [cu2]⟩ st := by
  have hd : ∀ s, DecodeClass ⟨m, path ++ [cu1]⟩ s = DecodeClass ⟨m, path ++ [cu2]⟩ s :=
    fun s => DecodeClass_congr ⟨m, path ++ [cu1]⟩ ⟨m, path ++ [cu2]⟩ rfl
      (qualifiedNameLoop_below_unit cu1 cu2 h1 h2 (m :: path) "") s
  unfold searchClassHere DWARFDie.getTag DWARFDie.getAttributeValueAsReferencedDie
  simp only [hd]

mutual
theorem SearchClass_below_unit (resolve : Nat → Option DWARFDie) (cu1 cu2 : DieNode)
    (h1 : cu1.tag = DW_TAG_compile_unit) (h2 : cu2.tag = DW_TAG_compile_unit) :
    ∀ (n : DieNode) (path : List DieNode) (st : State),
      SearchClass resolve n (path ++ [cu1]) st = SearchClass resolve n (path ++ [cu2]) st
  | .mk tag name attrs cs, path, st => by
    rw [SearchClass, SearchClass, searchClassHere_below_unit resolve cu1 cu2 h1 h2 _ path st]
    exact SearchClassChildren_below_unit resolve cu1 cu2 h1 h2 cs
      (.mk tag name attrs cs :: path) _
theorem SearchClassChildren_below_unit (resolve : Nat → Option DWARFDie)
    (cu1 cu2 : DieNode) (h1 : cu1.tag = DW_TAG_compile_unit)
    (h2 : cu2.tag = DW_TAG_compile_unit) :
    ∀ (cs : List DieNode) (path : List DieNode) (st : State),
      SearchClassChildren resolve cs (path ++ [cu1]) st =
        SearchClassChildren resolve cs (path ++ [cu2]) st
  | [], path, st => by
    rw [SearchClassChildren, SearchClassChildren]
  | c :: cs, path, st => by
    rw [SearchClassChildren, SearchClassChildren,
      SearchClass_below_unit resolve cu1 cu2 h1 h2 c path st]
    exact SearchClassChildren_below_unit resolve cu1 cu2 h1 h2 cs path _
end

/-- C20. For every reference resolution and every starting state of the three
accumulators (maps with their keys in ascending order, 16-bit slots): a second
`SearcheFunction` walk of an entry, started from the state the first walk
returned, returns that same state; a second `SearchClass` walk leaves the state
of the first; the same holds for the handlers `SearchVirtualFunction` and
`DecodeClass`, which the dual dispatch runs twice on one entry; walking an entry
below a second unit entry after walking it below a first one changes nothing;
the walk over a list of units given twice returns the state of the walk over
the list, and the program prints the same lines for both. -/
theorem C20_second_walk_changes_nothing (resolve : Nat → Option DWARFDie) (st : State)
    (hwf : st.WF) :
    (∀ n anc st1, SearcheFunction resolve n anc st = some st1 →
      SearcheFunction resolve n anc st1 = some st1) ∧
    (∀ n anc,
      SearchClass resolve n anc (SearchClass resolve n anc st) = SearchClass resolve n anc st) ∧
    (∀ D st1, SearchVirtualFunction resolve D st = some st1 →
      SearchVirtualFunction resolve D st1 = some st1) ∧
    (∀ D, DecodeClass D (DecodeClass D st) = DecodeClass D st) ∧
    (∀ (cu1 cu2 n : DieNode) (st1 : State), cu1.tag = DW_TAG_compile_unit →
      cu2.tag = DW_TAG_compile_unit → SearcheFunction resolve n [cu1] st = some st1 →
      SearcheFunction resolve n [cu2] st1 = some st1) ∧
    (∀ cu1 cu2 n : DieNode, cu1.tag = DW_TAG_compile_unit → cu2.tag = DW_TAG_compile_unit →
      SearchClass resolve n [cu2] (SearchClass resolve n [cu1] st) =
        SearchClass resolve n [cu1] st) ∧
    (∀ code_type units st1, LoadDwarfFile resolve code_type units st = some st1 →
      LoadDwarfFile resolve code_type units st1 = some st1 ∧
      LoadDwarfFile resolve code_type (units ++ units) st = some st1) ∧
    (∀ fuel units codeType,
      main fuel resolve (units ++ units) codeType = main fuel resolve units codeType) := by
  refine ⟨?_, ?_, ?_, ?_, ?_, ?_, ?_, ?_⟩
  · intro n anc st1 h
    exact SearcheFunction_twice resolve n anc st st1 hwf h
  · intro n anc
    exact SearchClass_twice resolve n anc st hwf
  · intro D st1 h
    exact SearchVirtualFunction_twice resolve D st st1 hwf h
  · intro D
    exact DecodeClass_twice D st hwf
  · intro cu1 cu2 n st1 h1 h2 h
    exact (SearcheFunction_below_unit resolve cu2 cu1 h2 h1 n [] st1).trans
      (SearcheFunction_twice resolve n [cu1] st st1 hwf h)
  · intro cu1 cu2 n h1 h2
    exact (SearchClass_below_unit resolve cu2 cu1 h2 h1 n [] _).trans
      (SearchClass_twice resolve n [cu1] st hwf)
  · intro code_type units st1 h
    have h2 := LoadDwarfFile_twice resolve code_type units st st1 hwf h
    refine ⟨h2, ?_⟩
    rw [LoadDwarfFile_append, h]
    exact h2
  · intro fuel units codeType
    exact main_units_twice fuel resolve units codeType

/-- C20, witness: the example unit walked twice from the empty accumulators, in
both modes, its class `UObject` walked below a second unit, and the unit list
given twice to the program. -/
theorem C20_second_walk_changes_nothing_witness :
    State.empty.WF ∧
    SearcheFunction exampleResolve exampleUnit [] State.empty =
      some ⟨[], [("UObject", [(3, "foo")]), ("UScriptStruct::ICppStructOps", [(3, "foo")])],
        [("UObject", "ICppStructOps")]⟩ ∧
    SearcheFunction exampleResolve exampleUnit []
        ⟨[], [("UObject", [(3, "foo")]), ("UScriptStruct::ICppStructOps", [(3, "foo")])],
          [("UObject", "ICppStructOps")]⟩ =
      some ⟨[], [("UObject", [(3, "foo")]), ("UScriptStruct::ICppStructOps", [(3, "foo")])],
        [("UObject", "ICppStructOps")]⟩ ∧
    SearchClass exampleResolve exampleUnit [] State.empty =
      ⟨[("UScriptStruct::ICppStructOps", [(8, "Size")])], [], []⟩ ∧
    SearchClass exampleResolve exampleUnit []
        (SearchClass exampleResolve exampleUnit [] State.empty) =
      SearchClass exampleResolve exampleUnit [] State.empty ∧
    SearcheFunction exampleResolve exampleDerived [exampleUnitAgain]
        ⟨[], [("UObject", [(3, "foo")])], [("UObject", "ICppStructOps")]⟩ =
      some ⟨[], [("UObject", [(3, "foo")])], [("UObject", "ICppStructOps")]⟩ ∧
    main 2 exampleResolve ([exampleUnit] ++ [exampleUnit]) 0 =
      main 2 exampleResolve [exampleUnit] 0 :=
  ⟨wf_empty, by decide,
    (C20_second_walk_changes_nothing exampleResolve State.empty wf_empty).1 exampleUnit [] _
      (by decide),
    by decide,
    (C20_second_walk_changes_nothing exampleResolve State.empty wf_empty).2.1 exampleUnit [],
    (C20_second_walk_changes_nothing exampleResolve State.empty wf_empty).2.2.2.2.1 exampleUnit
      exampleUnitAgain exampleDerived _ (by decide) (by decide) (by decide),
    (C20_second_walk_changes_nothing exampleResolve State.empty wf_empty).2.2.2.2.2.2.2 2
      [exampleUnit] 0⟩

/-- C12, witness: a walk that recorded `AGameMode` below `AGameModeBase` below
`AActor`; the two fixed pairs are added and the recorded pair of `AGameMode` is
kept. -/
theorem C12_parent_overrides_frame_witness :
    mapFind "UGameViewportClient" (applyParentOverrides exampleGap).allTargetParents =
      some "UObject" ∧
    mapFind "AGameModeBase" (applyParentOverrides exampleGap).allTargetParents = some "AActor" ∧
    mapFind "AGameMode" (applyParentOverrides exampleGap).allTargetParents =
      mapFind "AGameMode" exampleGap.allTargetParents ∧
    mapFind "AGameMode" exampleGap.allTargetParents = some "AGameModeBase" ∧
    (applyParentOverrides exampleGap).allTargetVtables = exampleGap.allTargetVtables :=
  ⟨(C12_parent_overrides_frame exampleGap).1, (C12_parent_overrides_frame exampleGap).2.1,
    (C12_parent_overrides_frame exampleGap).2.2.1 "AGameMode" (by decide) (by decide),
    by decide, (C12_parent_overrides_frame exampleGap).2.2.2.2.1⟩

end DwarfVtable
